import Mathlib

/-!
Verification of the identity regeneration engine of the WALKOFF helper layer
(src/walkoff/helpers.py): regenerate_workflow_ids, regenerate_ids and
__regenerate_ids_of_list, shallowly embedded over a JSON-like document type.
Python dictionaries become association lists with insertion-order update
semantics, in-place mutation becomes explicit threading of the rewritten
document and of the uuid4 generator (modelled as a function from a counter to
a string), and exceptions (KeyError, TypeError, hitting the recursion limit)
become an Except result.
-/

namespace Walkoff

/-- JSON-like document values: the shapes a deserialized workflow may hold. -/
inductive JVal where
  | str (s : String)
  | int (n : Int)
  | bool (b : Bool)
  | null
  | arr (elems : List JVal)
  | obj (fields : List (String × JVal))

/-- A Python dict is modelled as an association list in insertion order. -/
abbrev Fields := List (String × JVal)

mutual

def jvalDecEq : (a b : JVal) → Decidable (a = b)
  | .str a, .str b =>
      match String.decEq a b with
      | isTrue h => isTrue (by rw [h])
      | isFalse h => isFalse (fun hh => h (by cases hh; rfl))
  | .int a, .int b =>
      match Int.decEq a b with
      | isTrue h => isTrue (by rw [h])
      | isFalse h => isFalse (fun hh => h (by cases hh; rfl))
  | .bool a, .bool b =>
      match Bool.decEq a b with
      | isTrue h => isTrue (by rw [h])
      | isFalse h => isFalse (fun hh => h (by cases hh; rfl))
  | .null, .null => isTrue rfl
  | .arr a, .arr b =>
      match jvalDecEqL a b with
      | isTrue h => isTrue (by rw [h])
      | isFalse h => isFalse (fun hh => h (by cases hh; rfl))
  | .obj a, .obj b =>
      match jvalDecEqF a b with
      | isTrue h => isTrue (by rw [h])
      | isFalse h => isFalse (fun hh => h (by cases hh; rfl))
  | .str _, .int _ => isFalse (fun h => JVal.noConfusion h)
  | .str _, .bool _ => isFalse (fun h => JVal.noConfusion h)
  | .str _, .null => isFalse (fun h => JVal.noConfusion h)
  | .str _, .arr _ => isFalse (fun h => JVal.noConfusion h)
  | .str _, .obj _ => isFalse (fun h => JVal.noConfusion h)
  | .int _, .str _ => isFalse (fun h => JVal.noConfusion h)
  | .int _, .bool _ => isFalse (fun h => JVal.noConfusion h)
  | .int _, .null => isFalse (fun h => JVal.noConfusion h)
  | .int _, .arr _ => isFalse (fun h => JVal.noConfusion h)
  | .int _, .obj _ => isFalse (fun h => JVal.noConfusion h)
  | .bool _, .str _ => isFalse (fun h => JVal.noConfusion h)
  | .bool _, .int _ => isFalse (fun h => JVal.noConfusion h)
  | .bool _, .null => isFalse (fun h => JVal.noConfusion h)
  | .bool _, .arr _ => isFalse (fun h => JVal.noConfusion h)
  | .bool _, .obj _ => isFalse (fun h => JVal.noConfusion h)
  | .null, .str _ => isFalse (fun h => JVal.noConfusion h)
  | .null, .int _ => isFalse (fun h => JVal.noConfusion h)
  | .null, .bool _ => isFalse (fun h => JVal.noConfusion h)
  | .null, .arr _ => isFalse (fun h => JVal.noConfusion h)
  | .null, .obj _ => isFalse (fun h => JVal.noConfusion h)
  | .arr _, .str _ => isFalse (fun h => JVal.noConfusion h)
  | .arr _, .int _ => isFalse (fun h => JVal.noConfusion h)
  | .arr _, .bool _ => isFalse (fun h => JVal.noConfusion h)
  | .arr _, .null => isFalse (fun h => JVal.noConfusion h)
  | .arr _, .obj _ => isFalse (fun h => JVal.noConfusion h)
  | .obj _, .str _ => isFalse (fun h => JVal.noConfusion h)
  | .obj _, .int _ => isFalse (fun h => JVal.noConfusion h)
  | .obj _, .bool _ => isFalse (fun h => JVal.noConfusion h)
  | .obj _, .null => isFalse (fun h => JVal.noConfusion h)
  | .obj _, .arr _ => isFalse (fun h => JVal.noConfusion h)

def jvalDecEqL : (a b : List JVal) → Decidable (a = b)
  | [], [] => isTrue rfl
  | [], _ :: _ => isFalse (fun h => List.noConfusion h)
  | _ :: _, [] => isFalse (fun h => List.noConfusion h)
  | a :: as, b :: bs =>
      match jvalDecEq a b with
      | isTrue h1 =>
          match jvalDecEqL as bs with
          | isTrue h2 => isTrue (by rw [h1, h2])
          | isFalse h2 => isFalse (fun hh => h2 (by cases hh; rfl))
      | isFalse h1 => isFalse (fun hh => h1 (by cases hh; rfl))

def jvalDecEqF : (a b : Fields) → Decidable (a = b)
  | [], [] => isTrue rfl
  | [], _ :: _ => isFalse (fun h => List.noConfusion h)
  | _ :: _, [] => isFalse (fun h => List.noConfusion h)
  | (s1, v1) :: as, (s2, v2) :: bs =>
      match String.decEq s1 s2 with
      | isTrue h1 =>
          match jvalDecEq v1 v2 with
          | isTrue h2 =>
              match jvalDecEqF as bs with
              | isTrue h3 => isTrue (by rw [h1, h2, h3])
              | isFalse h3 => isFalse (fun hh => h3 (by cases hh; rfl))
          | isFalse h2 => isFalse (fun hh => h2 (by cases hh; rfl))
      | isFalse h1 => isFalse (fun hh => h1 (by cases hh; rfl))

end

instance : DecidableEq JVal := jvalDecEq

/-- Lookup of a key in a dict, first match in insertion order. -/
def lookupKey : Fields → String → Option JVal
  | [], _ => none
  | (k, v) :: rest, key => if k = key then some v else lookupKey rest key

/-- Python dict assignment: overwrite the value in place if the key exists,
otherwise append the new binding at the end, as insertion-ordered dicts do. -/
def setKey : Fields → String → JVal → Fields
  | [], key, val => [(key, val)]
  | (k, v) :: rest, key, val =>
      if k = key then (key, val) :: rest else (k, v) :: setKey rest key val

/-- Python dict.pop with a default: remove the binding if present. -/
def popKey : Fields → String → Fields
  | [], _ => []
  | (k, v) :: rest, key => if k = key then rest else (k, v) :: popKey rest key

/-- Python truthiness of a JSON-like value. -/
def jTruthy : JVal → Bool
  | .str s => !(s == "")
  | .int n => !(n == 0)
  | .bool b => b
  | .null => false
  | .arr es => !es.isEmpty
  | .obj fs => !fs.isEmpty

/-- Whether the value may be used as a Python dict key (lists and dicts are
unhashable and raise TypeError when used as keys). -/
def jHashable : JVal → Bool
  | .arr _ => false
  | .obj _ => false
  | _ => true

/-- The identity mapping built during a regeneration: old identity values to
new identity strings, an insertion-ordered dict. -/
abbrev Mapping := List (JVal × String)

def mapLookup : Mapping → JVal → Option String
  | [], _ => none
  | (k, v) :: rest, key => if k = key then some v else mapLookup rest key

def mapInsert : Mapping → JVal → String → Mapping
  | [], key, val => [(key, val)]
  | (k, v) :: rest, key, val =>
      if k = key then (key, val) :: rest else (k, v) :: mapInsert rest key val

mutual

/-- Structural size of a value, used to compute a provably sufficient fuel
amount for the recursive rewriter. -/
def jsize : JVal → Nat
  | .arr es => 1 + lsize es
  | .obj fs => 2 + fsize fs
  | _ => 0

def lsize : List JVal → Nat
  | [] => 0
  | e :: rest => 1 + jsize e + lsize rest

def fsize : Fields → Nat
  | [] => 0
  | (_, v) :: rest => 1 + jsize v + fsize rest

end

mutual

/-- Embedding of regenerate_ids from src/walkoff/helpers.py. Steps, in source
order: when regenerate_id is true, assign a fresh identity to the id field;
when is_arguments is true, pop the id field; when a present reference field is
truthy, replace it by its image under the mapping (KeyError when absent from
the mapping, TypeError when unhashable); then iterate over the resulting
fields in order, recursing into list values and dict values with the argument
flag recomputed from the field name. The fuel argument models the Python
recursion limit and is always supplied large enough to be irrelevant. -/
def regenerate_ids (gen : Nat → String) (m : Mapping) :
    Nat → Fields → Bool → Bool → Nat → Except String (Fields × Nat)
  | 0, _, _, _, _ => .error "RecursionError"
  | fuel + 1, json_in, regenerate_id, is_arguments, ctr =>
      let p1 : Fields × Nat :=
        if regenerate_id then (setKey json_in "id" (.str (gen ctr)), ctr + 1)
        else (json_in, ctr)
      let fs2 : Fields := if is_arguments then popKey p1.1 "id" else p1.1
      match lookupKey fs2 "reference" with
      | some v =>
          if jTruthy v then
            if jHashable v then
              match mapLookup m v with
              | some s =>
                  regenerate_ids_fields gen m fuel (setKey fs2 "reference" (.str s)) p1.2
              | none => .error "KeyError"
            else .error "TypeError"
          else regenerate_ids_fields gen m fuel fs2 p1.2
      | none => regenerate_ids_fields gen m fuel fs2 p1.2

/-- The field loop of regenerate_ids: for each field, a list value is handed
to the list helper and a dict value is recursed into with regenerate_id true,
the argument-context flag being true exactly for fields named arguments or
device_id; every other value passes through unchanged. -/
def regenerate_ids_fields (gen : Nat → String) (m : Mapping) :
    Nat → Fields → Nat → Except String (Fields × Nat)
  | 0, _, _ => .error "RecursionError"
  | _ + 1, [], ctr => .ok ([], ctr)
  | fuel + 1, (field, value) :: rest, ctr =>
      let is_arguments : Bool := field = "arguments" || field = "device_id"
      match value with
      | .arr es =>
          match regenerate_ids_of_list gen m fuel es is_arguments ctr with
          | .ok (es', ctr') =>
              match regenerate_ids_fields gen m fuel rest ctr' with
              | .ok (rest', ctr'') => .ok ((field, .arr es') :: rest', ctr'')
              | .error e => .error e
          | .error e => .error e
      | .obj gs =>
          match regenerate_ids gen m fuel gs true is_arguments ctr with
          | .ok (gs', ctr') =>
              match regenerate_ids_fields gen m fuel rest ctr' with
              | .ok (rest', ctr'') => .ok ((field, .obj gs') :: rest', ctr'')
              | .error e => .error e
          | .error e => .error e
      | v =>
          match regenerate_ids_fields gen m fuel rest ctr with
          | .ok (rest', ctr') => .ok ((field, v) :: rest', ctr')
          | .error e => .error e

/-- Embedding of the private list helper of regenerate_ids: recurse into the
elements that are dicts, with regenerate_id defaulting to true, and silently
skip every element that is not a dict. -/
def regenerate_ids_of_list (gen : Nat → String) (m : Mapping) :
    Nat → List JVal → Bool → Nat → Except String (List JVal × Nat)
  | 0, _, _, _ => .error "RecursionError"
  | _ + 1, [], _, ctr => .ok ([], ctr)
  | fuel + 1, e :: rest, is_arguments, ctr =>
      match e with
      | .obj gs =>
          match regenerate_ids gen m fuel gs true is_arguments ctr with
          | .ok (gs', ctr') =>
              match regenerate_ids_of_list gen m fuel rest is_arguments ctr' with
              | .ok (rest', ctr'') => .ok (.obj gs' :: rest', ctr'')
              | .error e => .error e
          | .error e => .error e
      | _ =>
          match regenerate_ids_of_list gen m fuel rest is_arguments ctr with
          | .ok (rest', ctr') => .ok (e :: rest', ctr')
          | .error e => .error e

end

/-- Fuel that provably suffices for the rewriter on a node of this size. -/
def fuelFor (fs : Fields) : Nat := fsize fs + 3

/-- Embedding of the iteration the orchestrator performs over
workflow.get(key, []): a missing key yields the empty default, a list yields
its elements, an empty dict or empty string iterates zero times, and any
other value leads to a TypeError once its elements are indexed. -/
def getIterList (fs : Fields) (key : String) : Except String (List JVal) :=
  match lookupKey fs key with
  | none => .ok []
  | some (.arr es) => .ok es
  | some (.obj gs) => if gs.isEmpty then .ok [] else .error "TypeError"
  | some (.str s) => if s == "" then .ok [] else .error "TypeError"
  | some _ => .error "TypeError"

/-- The first loop of regenerate_workflow_ids: for each action, read its old
id (KeyError when absent, TypeError when the action is not a dict), assign a
fresh one, and record old to new in the mapping (TypeError when the old id is
unhashable). -/
def mapping_pass (gen : Nat → String) :
    List JVal → Mapping → Nat → Except String (List JVal × Mapping × Nat)
  | [], m, ctr => .ok ([], m, ctr)
  | .obj afs :: rest, m, ctr =>
      match lookupKey afs "id" with
      | some prev =>
          if jHashable prev then
            match mapping_pass gen rest (mapInsert m prev (gen ctr)) (ctr + 1) with
            | .ok (rest', m', ctr') =>
                .ok (.obj (setKey afs "id" (.str (gen ctr))) :: rest', m', ctr')
            | .error e => .error e
          else .error "TypeError"
      | none => .error "KeyError"
  | _ :: _, _, _ => .error "TypeError"

/-- The second loop of regenerate_workflow_ids: rewrite each action in place
with regenerate_id false, using the completed mapping. -/
def action_rewrite_pass (gen : Nat → String) (m : Mapping) :
    List JVal → Nat → Except String (List JVal × Nat)
  | [], ctr => .ok ([], ctr)
  | .obj afs :: rest, ctr =>
      match regenerate_ids gen m (fuelFor afs) afs false false ctr with
      | .ok (afs', ctr') =>
          match action_rewrite_pass gen m rest ctr' with
          | .ok (rest', ctr'') => .ok (.obj afs' :: rest', ctr'')
          | .error e => .error e
      | .error e => .error e
  | _ :: _, _ => .error "TypeError"

/-- The branch loop of regenerate_workflow_ids: remap source_id then
destination_id through the mapping (KeyError on a dangling endpoint), then
rewrite the branch with regenerate_id true, giving the branch a fresh id. -/
def branch_pass (gen : Nat → String) (m : Mapping) :
    List JVal → Nat → Except String (List JVal × Nat)
  | [], ctr => .ok ([], ctr)
  | .obj bfs :: rest, ctr =>
      match lookupKey bfs "source_id" with
      | some sv =>
          if jHashable sv then
            match mapLookup m sv with
            | some s =>
                let bfs1 := setKey bfs "source_id" (.str s)
                match lookupKey bfs1 "destination_id" with
                | some dv =>
                    if jHashable dv then
                      match mapLookup m dv with
                      | some d =>
                          let bfs2 := setKey bfs1 "destination_id" (.str d)
                          match regenerate_ids gen m (fuelFor bfs2) bfs2 true false ctr with
                          | .ok (bfs', ctr') =>
                              match branch_pass gen m rest ctr' with
                              | .ok (rest', ctr'') => .ok (.obj bfs' :: rest', ctr'')
                              | .error e => .error e
                          | .error e => .error e
                      | none => .error "KeyError"
                    else .error "TypeError"
                | none => .error "KeyError"
            | none => .error "KeyError"
          else .error "TypeError"
      | none => .error "KeyError"
  | _ :: _, _ => .error "TypeError"

/-- Write a rewritten list back under its key, as the in-place mutation of a
list-valued entry does: when the key held a list the entry is replaced, and
otherwise the dict is unchanged. -/
def putList (w : Fields) (key : String) (es : List JVal) : Fields :=
  match lookupKey w key with
  | some (.arr _) => setKey w key (.arr es)
  | _ => w

/-- Embedding of regenerate_workflow_ids from src/walkoff/helpers.py: give
the workflow a fresh id, build the complete old-to-new mapping over actions,
rewrite every action, remap and rewrite every branch, and finally remap the
start pointer. In-place mutation of the actions and branches lists becomes
writing the rewritten list back under its key when that key held a list. -/
def regenerate_workflow_ids (gen : Nat → String) (workflow : Fields) (ctr : Nat) :
    Except String (Fields × Nat) :=
  let wf1 := setKey workflow "id" (.str (gen ctr))
  match getIterList wf1 "actions" with
  | .error e => .error e
  | .ok actions0 =>
    match mapping_pass gen actions0 [] (ctr + 1) with
    | .error e => .error e
    | .ok (actions1, m, ctr1) =>
      match action_rewrite_pass gen m actions1 ctr1 with
      | .error e => .error e
      | .ok (actions2, ctr2) =>
        let wf2 := putList wf1 "actions" actions2
        match getIterList wf2 "branches" with
        | .error e => .error e
        | .ok branches0 =>
          match branch_pass gen m branches0 ctr2 with
          | .error e => .error e
          | .ok (branches1, ctr3) =>
            let wf3 := putList wf2 "branches" branches1
            match lookupKey wf3 "start" with
            | none => .error "KeyError"
            | some sv =>
                if jHashable sv then
                  match mapLookup m sv with
                  | some s => .ok (setKey wf3 "start" (.str s), ctr3)
                  | none => .error "KeyError"
                else .error "TypeError"

mutual

/-- All values stored under a field named id anywhere in a value, including
regions the rewriter never visits; the identities present in a document. -/
def allIdsV : JVal → List JVal
  | .obj fs => allIdsF fs
  | .arr es => allIdsL es
  | _ => []

def allIdsL : List JVal → List JVal
  | [] => []
  | e :: rest => allIdsV e ++ allIdsL rest

def allIdsF : Fields → List JVal
  | [] => []
  | (k, v) :: rest => (if k = "id" then [v] else []) ++ allIdsV v ++ allIdsF rest

end

/-- The keys of a dict in order. -/
def keysOf (fs : Fields) : List String :=
  fs.map Prod.fst

/-- Head conditions of data-model conformance for one dict node: the keys are
pairwise distinct, as they always are in a Python dict; an id field, when
present, holds a string; and a reference field, when present, holds a string
that is either empty or accepted by the resolvability check p. -/
def okHead (p : JVal → Bool) (fs : Fields) : Bool :=
  decide (keysOf fs).Nodup
  &&
  (match lookupKey fs "id" with
   | none => true
   | some (.str _) => true
   | some _ => false)
  &&
  (match lookupKey fs "reference" with
   | none => true
   | some (.str s) => (s == "") || p (.str s)
   | some _ => false)

mutual

/-- Recursive data-model conformance over the region the rewriter visits:
every dict reached through a field value or as a dict element of a list
satisfies the head conditions; elements of lists that are not dicts are
unconstrained, as the rewriter skips them. -/
def okFields (p : JVal → Bool) : Fields → Bool
  | [] => true
  | (_, v) :: rest => okVal p v && okFields p rest

def okVal (p : JVal → Bool) : JVal → Bool
  | .obj fs => okHead p fs && okFields p fs
  | .arr es => okElems p es
  | _ => true

def okElems (p : JVal → Bool) : List JVal → Bool
  | [] => true
  | .obj fs :: rest => okHead p fs && okFields p fs && okElems p rest
  | _ :: rest => okElems p rest

end

/-- Conformance of one dict node and of everything the rewriter reaches
below it. -/
def okObj (p : JVal → Bool) (fs : Fields) : Bool :=
  okHead p fs && okFields p fs

/-- Shape-only conformance: identities and references are strings, with no
resolvability requirement. -/
def okShape (fs : Fields) : Bool :=
  okObj (fun _ => true) fs

/-- The truthy reference consulted by the rewriter at one node, if any. -/
def refHead (fs : Fields) : List JVal :=
  match lookupKey fs "reference" with
  | some v => if jTruthy v then [v] else []
  | none => []

mutual

/-- All truthy reference values in the region the rewriter visits, in
traversal order. -/
def refsFields : Fields → List JVal
  | [] => []
  | (_, v) :: rest => refsVal v ++ refsFields rest

def refsVal : JVal → List JVal
  | .obj fs => refHead fs ++ refsFields fs
  | .arr es => refsElems es
  | _ => []

def refsElems : List JVal → List JVal
  | [] => []
  | .obj fs :: rest => refHead fs ++ refsFields fs ++ refsElems rest
  | _ :: rest => refsElems rest

end

/-- Truthy references of one dict node and of the visited region below it. -/
def refsObj (fs : Fields) : List JVal :=
  refHead fs ++ refsFields fs

/-- The id binding of a node, as a zero-or-one element list. -/
def idEntry (fs : Fields) : List JVal :=
  match lookupKey fs "id" with
  | some v => [v]
  | none => []

mutual

/-- Identities carried by nodes that sit in argument context in the visited
region: a node reached through a field named arguments or device_id, either
directly as its dict value or as a dict element of its list value,
contributes its id binding. Used to state that the output has none. -/
def strayFields : Fields → List JVal
  | [] => []
  | (f, v) :: rest =>
      strayVal (f = "arguments" || f = "device_id") v ++ strayFields rest

def strayVal : Bool → JVal → List JVal
  | ia, .obj fs => (if ia then idEntry fs else []) ++ strayFields fs
  | ia, .arr es => strayElems ia es
  | _, _ => []

def strayElems : Bool → List JVal → List JVal
  | _, [] => []
  | ia, .obj fs :: rest =>
      (if ia then idEntry fs else []) ++ strayFields fs ++ strayElems ia rest
  | ia, _ :: rest => strayElems ia rest

end

/-- Stray argument-context identities of one node, including its own id when
the node itself is in argument context. -/
def strayObj (ia : Bool) (fs : Fields) : List JVal :=
  (if ia then idEntry fs else []) ++ strayFields fs

/-- The old identities of the dict actions of a workflow, in document
order. -/
def oldIdsOf : List JVal → List JVal
  | [] => []
  | .obj afs :: rest => idEntry afs ++ oldIdsOf rest
  | _ :: rest => oldIdsOf rest

/-- The position of the last dict in the list whose id equals the given
value. -/
def lastIdxOf : List JVal → JVal → Option Nat
  | [], _ => none
  | a :: rest, v =>
      match lastIdxOf rest v with
      | some j => some (j + 1)
      | none =>
          match a with
          | .obj afs => if lookupKey afs "id" = some v then some 0 else none
          | _ => none

/-- The actions list of a workflow document, empty when absent or not a
list. -/
def wfActions (wf : Fields) : List JVal :=
  match lookupKey wf "actions" with
  | some (.arr as) => as
  | _ => []

/-- The branches list of a workflow document, empty when absent or not a
list. -/
def wfBranches (wf : Fields) : List JVal :=
  match lookupKey wf "branches" with
  | some (.arr bs) => bs
  | _ => []

/-- The start pointer of a workflow document. -/
def wfStart (wf : Fields) : Option JVal :=
  lookupKey wf "start"

/-- The endpoint pairs of the dict branches, in document order. -/
def branchPairsOf : List JVal → List (JVal × JVal)
  | [] => []
  | .obj bfs :: rest =>
      (match lookupKey bfs "source_id", lookupKey bfs "destination_id" with
       | some s, some d => [(s, d)]
       | _, _ => []) ++ branchPairsOf rest
  | _ :: rest => branchPairsOf rest

/-- How many counters in the interval from a to b the generator sends to the
given value; with an injective generator this is at most one. -/
def countGen (gen : Nat → String) (v : JVal) (a b : Nat) : Nat :=
  (List.range' a (b - a)).countP (fun k => decide (JVal.str (gen k) = v))

/-- The identity mapping the first orchestrator pass builds, as a pure fold:
for each dict action holding an id, insert old id to fresh identity,
consuming one counter per action. -/
def buildMap (gen : Nat → String) : List JVal → Mapping → Nat → Mapping
  | [], m, _ => m
  | .obj afs :: rest, m, ctr =>
      buildMap gen rest
        (match lookupKey afs "id" with
         | some prev => mapInsert m prev (gen ctr)
         | none => m)
        (ctr + 1)
  | _ :: rest, m, ctr => buildMap gen rest m (ctr + 1)

/-- The complete old-to-new identity mapping of one regeneration run. -/
def workflowMapping (gen : Nat → String) (wf : Fields) (ctr : Nat) : Mapping :=
  buildMap gen (wfActions wf) [] (ctr + 1)

/-- The old-to-new relabeling function induced by a mapping. -/
def relabel (m : Mapping) (v : JVal) : JVal :=
  match mapLookup m v with
  | some s => .str s
  | none => v

/-- Data-model conformance of a whole workflow document, without requiring
action identities to be pairwise distinct: actions are present as a list of
conformant dicts each holding a string id; the start pointer and all branch
endpoints and all truthy visited references resolve to an action id; branches,
when present, form a list of conformant dicts. -/
def validWorkflowShape (wf : Fields) : Bool :=
  match lookupKey wf "actions" with
  | some (.arr as) =>
      let olds := oldIdsOf as
      let p : JVal → Bool := fun v => decide (v ∈ olds)
      as.all (fun a =>
        match a with
        | .obj afs =>
            (match lookupKey afs "id" with
             | some (.str _) => true
             | _ => false)
            && okObj p afs
        | _ => false)
      && (match lookupKey wf "start" with
          | some sv => decide (sv ∈ olds)
          | none => false)
      && (match lookupKey wf "branches" with
          | none => true
          | some (.arr bs) =>
              bs.all (fun b =>
                match b with
                | .obj bfs =>
                    (match lookupKey bfs "source_id" with
                     | some sv => decide (sv ∈ olds)
                     | none => false)
                    && (match lookupKey bfs "destination_id" with
                        | some dv => decide (dv ∈ olds)
                        | none => false)
                    && okObj p bfs
                | _ => false)
          | some _ => false)
  | _ => false

/-- A valid workflow: data-model conformant with pairwise distinct action
identities. -/
def validWorkflow (wf : Fields) : Bool :=
  validWorkflowShape wf && decide (oldIdsOf (wfActions wf)).Nodup

/-- A workflow exhibiting a dangling reference: a dict branch with an
endpoint matching no input action id, a start pointer matching no input
action id, or a conformant action or branch whose visited region carries a
truthy reference matching no input action id. -/
def danglingWorkflow (wf : Fields) : Bool :=
  let olds := oldIdsOf (wfActions wf)
  (wfBranches wf).any (fun b =>
    match b with
    | .obj bfs =>
        (match lookupKey bfs "source_id" with
         | some sv => !(decide (sv ∈ olds))
         | none => false)
        || (match lookupKey bfs "destination_id" with
            | some dv => !(decide (dv ∈ olds))
            | none => false)
    | _ => false)
  || (match lookupKey wf "start" with
      | some sv => !(decide (sv ∈ olds))
      | none => false)
  || (wfActions wf).any (fun a =>
      match a with
      | .obj afs => okShape afs && (refsObj afs).any (fun r => !(decide (r ∈ olds)))
      | _ => false)
  || (wfBranches wf).any (fun b =>
      match b with
      | .obj bfs => okShape bfs && (refsObj bfs).any (fun r => !(decide (r ∈ olds)))
      | _ => false)

/-- The newly assigned top-level identities of an output workflow: the
workflow id, the action ids and the branch ids. -/
def topIdsOf (wf : Fields) : List JVal :=
  idEntry wf ++ oldIdsOf (wfActions wf) ++ oldIdsOf (wfBranches wf)

/-- All truthy visited references of the document: those of its actions
followed by those of its branches. -/
def docRefsOf (wf : Fields) : List JVal :=
  refsElems (wfActions wf) ++ refsElems (wfBranches wf)

/-- A path into a document, for stating facts about one nested node. -/
inductive PathStep where
  | fld (name : String)
  | idx (n : Nat)

/-- Follow a path of field names and list indices through a document. -/
def getPath : JVal → List PathStep → Option JVal
  | v, [] => some v
  | .obj fs, .fld name :: rest =>
      match lookupKey fs name with
      | some v => getPath v rest
      | none => none
  | .arr es, .idx n :: rest =>
      match es.get? n with
      | some v => getPath v rest
      | none => none
  | _, _ :: _ => none

/-- Values the rewriter treats as scalars: neither dicts nor lists. -/
def isLeaf : JVal → Bool
  | .obj _ => false
  | .arr _ => false
  | _ => true

/-- Whether a value is a dict. -/
def isObjB : JVal → Bool
  | .obj _ => true
  | _ => false

/-- Alignment of a list element with its rewritten form: elements that are
not dicts pass through unchanged, dict elements stay dicts. -/
def elemRel (e e' : JVal) : Prop :=
  (isObjB e = false → e' = e) ∧ (∀ gs, e = .obj gs → ∃ gs', e' = .obj gs')

/-- Alignment of a field value with its rewritten form: scalars pass through
unchanged, lists align elementwise, dicts stay dicts. -/
def valRel (v v' : JVal) : Prop :=
  (isLeaf v = true → v' = v)
  ∧ (∀ es, v = .arr es → ∃ es', v' = .arr es' ∧ List.Forall₂ elemRel es es')
  ∧ (∀ gs, v = .obj gs → ∃ gs', v' = .obj gs')

/-- Alignment of one field with its rewritten form: same name, aligned
value. -/
def fieldRel (q q' : String × JVal) : Prop :=
  q'.1 = q.1 ∧ valRel q.2 q'.2

/-- Every field named id holds a scalar. -/
def fieldsIdOk (fs : Fields) : Bool :=
  fs.all (fun q => !(q.1 = "id" : Bool) || isLeaf q.2)

/-- The head phase of the rewriter on one node, before the field loop:
identity assignment, identity suppression, and reference resolution, exactly
as regenerate_ids performs them. -/
def headStep (gen : Nat → String) (m : Mapping) (fs : Fields) (rid ia : Bool)
    (ctr : Nat) : Except String (Fields × Nat) :=
  let p1 : Fields × Nat :=
    if rid then (setKey fs "id" (.str (gen ctr)), ctr + 1) else (fs, ctr)
  let fs2 : Fields := if ia then popKey p1.1 "id" else p1.1
  match lookupKey fs2 "reference" with
  | some v =>
      if jTruthy v then
        if jHashable v then
          match mapLookup m v with
          | some s => .ok (setKey fs2 "reference" (.str s), p1.2)
          | none => .error "KeyError"
        else .error "TypeError"
      else .ok (fs2, p1.2)
  | none => .ok (fs2, p1.2)

/-- Resolution of one old reference value through the mapping. -/
def mres (m : Mapping) (r : JVal) : JVal :=
  .str ((mapLookup m r).getD "")

/-- The identities one binding contributes to allIdsF: the value itself when
the field is named id, plus the identities inside the value. -/
def idContrib (k : String) (w : JVal) : List JVal :=
  (if k = "id" then [w] else []) ++ allIdsV w

/-- The reference value the rewriter consults at one node: the value of a
present reference field after the identity phase, when truthy. -/
def consultedRef (fs : Fields) (rid ia : Bool) : Option JVal :=
  let fs1 : Fields := if rid then setKey fs "id" (.str "") else fs
  let fs2 : Fields := if ia then popKey fs1 "id" else fs1
  match lookupKey fs2 "reference" with
  | some v => if jTruthy v then some v else none
  | none => none

/-- A branch dict with its endpoints replaced by their remapped values, as
the branch loop produces before invoking the rewriter. -/
def withEndpoints (bfs : Fields) (s d : String) : Fields :=
  setKey (setKey bfs "source_id" (.str s)) "destination_id" (.str d)

/-- A concrete identity generator for witnesses: the k-th identity is a
string of k+1 copies of x, nonempty and injective by length. -/
def genX (k : Nat) : String :=
  String.mk (List.replicate (k + 1) 'x')

theorem lookupKey_setKey_self (fs : Fields) (k : String) (v : JVal) :
    lookupKey (setKey fs k v) k = some v := by
  induction fs with
  | nil => simp [setKey, lookupKey]
  | cons hd tl ih =>
      obtain ⟨k1, v1⟩ := hd
      by_cases h : k1 = k
      · simp [setKey, h, lookupKey]
      · simp [setKey, h, lookupKey, ih]

theorem lookupKey_setKey_ne (fs : Fields) (k k' : String) (v : JVal) (h : k' ≠ k) :
    lookupKey (setKey fs k v) k' = lookupKey fs k' := by
  induction fs with
  | nil => simp [setKey, lookupKey, Ne.symm h]
  | cons hd tl ih =>
      obtain ⟨k1, v1⟩ := hd
      by_cases h1 : k1 = k
      · subst h1
        simp [setKey, lookupKey, Ne.symm h]
      · simp only [setKey, if_neg h1, lookupKey]
        by_cases h2 : k1 = k'
        · simp [h2]
        · simp [h2, ih]

theorem lookupKey_popKey_ne (fs : Fields) (k k' : String) (h : k' ≠ k) :
    lookupKey (popKey fs k) k' = lookupKey fs k' := by
  induction fs with
  | nil => simp [popKey]
  | cons hd tl ih =>
      obtain ⟨k1, v1⟩ := hd
      by_cases h1 : k1 = k
      · subst h1
        simp [popKey, lookupKey, Ne.symm h]
      · simp only [popKey, if_neg h1, lookupKey]
        by_cases h2 : k1 = k'
        · simp [h2]
        · simp [h2, ih]

theorem lookupKey_eq_none_iff (fs : Fields) (k : String) :
    lookupKey fs k = none ↔ k ∉ keysOf fs := by
  induction fs with
  | nil => simp [lookupKey, keysOf]
  | cons hd tl ih =>
      obtain ⟨k1, v1⟩ := hd
      by_cases h : k1 = k
      · simp [lookupKey, keysOf, h]
      · simp [lookupKey, keysOf, h, ih, Ne.symm h]

theorem lookupKey_popKey_self (fs : Fields) (k : String)
    (h : (keysOf fs).Nodup) : lookupKey (popKey fs k) k = none := by
  induction fs with
  | nil => simp [popKey, lookupKey]
  | cons hd tl ih =>
      obtain ⟨k1, v1⟩ := hd
      simp only [keysOf, List.map_cons, List.nodup_cons] at h
      by_cases h1 : k1 = k
      · subst h1
        rw [popKey, if_pos rfl, lookupKey_eq_none_iff]
        exact h.1
      · simp only [popKey, if_neg h1, lookupKey, if_neg h1]
        exact ih h.2

theorem keysOf_setKey (fs : Fields) (k : String) (v : JVal) :
    keysOf (setKey fs k v) = if k ∈ keysOf fs then keysOf fs else keysOf fs ++ [k] := by
  induction fs with
  | nil => simp [setKey, keysOf]
  | cons hd tl ih =>
      obtain ⟨k1, v1⟩ := hd
      by_cases h : k1 = k
      · subst h
        simp [setKey, keysOf]
      · simp only [setKey, if_neg h, keysOf, List.map_cons] at *
        rw [ih]
        by_cases h2 : k ∈ List.map Prod.fst tl
        · rw [if_pos h2, if_pos (List.mem_cons_of_mem k1 h2)]
        · rw [if_neg h2, if_neg (by simp [List.mem_cons, Ne.symm h, h2]), List.cons_append]

theorem nodup_keysOf_setKey (fs : Fields) (k : String) (v : JVal)
    (h : (keysOf fs).Nodup) : (keysOf (setKey fs k v)).Nodup := by
  rw [keysOf_setKey]
  by_cases h2 : k ∈ keysOf fs
  · simpa [h2]
  · rw [if_neg h2]
    exact List.nodup_append.mpr
      ⟨h, List.nodup_singleton k, fun a ha hb => h2 ((List.mem_singleton.mp hb) ▸ ha)⟩

theorem keysOf_popKey_subset (fs : Fields) (k : String) :
    ∀ a, a ∈ keysOf (popKey fs k) → a ∈ keysOf fs := by
  induction fs with
  | nil => simp [popKey]
  | cons hd tl ih =>
      obtain ⟨k1, v1⟩ := hd
      intro a ha
      by_cases h : k1 = k
      · subst h
        simp only [popKey, if_pos rfl, keysOf] at ha
        simp only [keysOf, List.map_cons, List.mem_cons]
        exact Or.inr ha
      · simp only [popKey, if_neg h, keysOf, List.map_cons, List.mem_cons] at ha ⊢
        rcases ha with ha | ha
        · exact Or.inl ha
        · exact Or.inr (ih a ha)

theorem nodup_keysOf_popKey (fs : Fields) (k : String)
    (h : (keysOf fs).Nodup) : (keysOf (popKey fs k)).Nodup := by
  induction fs with
  | nil => simp [popKey, keysOf]
  | cons hd tl ih =>
      obtain ⟨k1, v1⟩ := hd
      simp only [keysOf, List.map_cons, List.nodup_cons] at h
      by_cases h1 : k1 = k
      · simpa [popKey, h1] using h.2
      · simp only [popKey, if_neg h1, keysOf, List.map_cons, List.nodup_cons]
        exact ⟨fun hm => h.1 (keysOf_popKey_subset tl k k1 hm), ih h.2⟩

theorem fsize_setKey_le (fs : Fields) (k : String) (v : JVal) (hv : jsize v = 0) :
    fsize (setKey fs k v) ≤ fsize fs + 1 := by
  induction fs with
  | nil => simp [setKey, fsize, hv]
  | cons hd tl ih =>
      obtain ⟨k1, v1⟩ := hd
      by_cases h : k1 = k
      · simp only [setKey, if_pos h, fsize, hv]
        omega
      · simp only [setKey, if_neg h, fsize]
        omega

theorem fsize_setKey_of_lookup (fs : Fields) (k : String) (v w : JVal)
    (hv : jsize v = 0) (hm : lookupKey fs k = some w) :
    fsize (setKey fs k v) ≤ fsize fs := by
  induction fs with
  | nil => simp [lookupKey] at hm
  | cons hd tl ih =>
      obtain ⟨k1, v1⟩ := hd
      by_cases h : k1 = k
      · simp only [setKey, if_pos h, fsize, hv]
        omega
      · simp only [lookupKey, if_neg h] at hm
        simp only [setKey, if_neg h, fsize]
        have := ih hm
        omega

theorem fsize_popKey_le (fs : Fields) (k : String) :
    fsize (popKey fs k) ≤ fsize fs := by
  induction fs with
  | nil => simp [popKey]
  | cons hd tl ih =>
      obtain ⟨k1, v1⟩ := hd
      by_cases h : k1 = k
      · simp only [popKey, if_pos h, fsize]
        omega
      · simp only [popKey, if_neg h, fsize]
        omega

theorem mapLookup_insert_self (m : Mapping) (k : JVal) (v : String) :
    mapLookup (mapInsert m k v) k = some v := by
  induction m with
  | nil => simp [mapInsert, mapLookup]
  | cons hd tl ih =>
      obtain ⟨k1, v1⟩ := hd
      by_cases h : k1 = k
      · simp [mapInsert, h, mapLookup]
      · simp [mapInsert, h, mapLookup, ih]

theorem mapLookup_insert_ne (m : Mapping) (k k' : JVal) (v : String) (h : k' ≠ k) :
    mapLookup (mapInsert m k v) k' = mapLookup m k' := by
  induction m with
  | nil => simp [mapInsert, mapLookup, Ne.symm h]
  | cons hd tl ih =>
      obtain ⟨k1, v1⟩ := hd
      by_cases h1 : k1 = k
      · subst h1
        simp [mapInsert, mapLookup, Ne.symm h]
      · simp only [mapInsert, if_neg h1, mapLookup]
        by_cases h2 : k1 = k'
        · simp [h2]
        · simp [h2, ih]

theorem okVal_of_isLeaf (p : JVal → Bool) (v : JVal) (h : isLeaf v = true) :
    okVal p v = true := by
  cases v <;> simp [okVal] <;> simp [isLeaf] at h

theorem refsVal_of_isLeaf (v : JVal) (h : isLeaf v = true) : refsVal v = [] := by
  cases v <;> simp [refsVal] <;> simp [isLeaf] at h

theorem allIdsV_of_isLeaf (v : JVal) (h : isLeaf v = true) : allIdsV v = [] := by
  cases v <;> simp [allIdsV] <;> simp [isLeaf] at h

theorem jsize_of_isLeaf (v : JVal) (h : isLeaf v = true) : jsize v = 0 := by
  cases v <;> simp [jsize] <;> simp [isLeaf] at h

theorem valRel_leaf (v : JVal) (h : isLeaf v = true) : valRel v v := by
  refine ⟨fun _ => rfl, fun es heq => ?_, fun gs heq => ?_⟩ <;>
    (subst heq; simp [isLeaf] at h)

theorem valRel_arr (es es' : List JVal) (h : List.Forall₂ elemRel es es') :
    valRel (.arr es) (.arr es') := by
  refine ⟨fun hl => ?_, fun es0 heq => ?_, fun gs heq => ?_⟩
  · simp [isLeaf] at hl
  · cases heq; exact ⟨es', rfl, h⟩
  · cases heq

theorem valRel_obj (gs gs' : Fields) : valRel (.obj gs) (.obj gs') := by
  refine ⟨fun hl => ?_, fun es0 heq => ?_, fun gs0 heq => ?_⟩
  · simp [isLeaf] at hl
  · cases heq
  · cases heq; exact ⟨gs', rfl⟩

theorem elemRel_nonobj (e : JVal) (h : isObjB e = false) : elemRel e e :=
  ⟨fun _ => rfl, fun gs heq => by subst heq; simp [isObjB] at h⟩

theorem elemRel_obj (gs gs' : Fields) : elemRel (.obj gs) (.obj gs') :=
  ⟨fun hh => by simp [isObjB] at hh, fun gs0 heq => by cases heq; exact ⟨gs', rfl⟩⟩

theorem okHead_elim (p : JVal → Bool) (fs : Fields) (h : okHead p fs = true) :
    (keysOf fs).Nodup
    ∧ (lookupKey fs "id" = none ∨ ∃ s, lookupKey fs "id" = some (.str s))
    ∧ (lookupKey fs "reference" = none
       ∨ ∃ s, lookupKey fs "reference" = some (.str s)
           ∧ (s = "" ∨ p (.str s) = true)) := by
  simp only [okHead, Bool.and_eq_true, decide_eq_true_eq] at h
  obtain ⟨⟨h1, h2⟩, h3⟩ := h
  refine ⟨h1, ?_, ?_⟩
  · cases hv : lookupKey fs "id" with
    | none => exact Or.inl rfl
    | some v => rw [hv] at h2; cases v <;> simp at h2 <;> exact Or.inr ⟨_, rfl⟩
  · cases hv : lookupKey fs "reference" with
    | none => exact Or.inl rfl
    | some v =>
        rw [hv] at h3
        cases v <;> simp at h3
        case str s =>
          rcases h3 with h3 | h3
          · exact Or.inr ⟨s, rfl, Or.inl h3⟩
          · exact Or.inr ⟨s, rfl, Or.inr h3⟩

theorem lookup_of_mem_nodup (fs : Fields) (k : String) (v : JVal)
    (hnd : (keysOf fs).Nodup) (hm : (k, v) ∈ fs) : lookupKey fs k = some v := by
  induction fs with
  | nil => cases hm
  | cons hd tl ih =>
      obtain ⟨k1, v1⟩ := hd
      simp only [keysOf, List.map_cons, List.nodup_cons] at hnd
      rcases List.mem_cons.mp hm with hm | hm
      · cases hm
        simp [lookupKey]
      · have hk1 : k1 ≠ k := by
          intro hh
          subst hh
          exact hnd.1 (List.mem_map.mpr ⟨(k1, v), hm, rfl⟩)
        simp only [lookupKey, if_neg hk1]
        exact ih hnd.2 hm

theorem fieldsIdOk_of_okHead (p : JVal → Bool) (fs : Fields)
    (h : okHead p fs = true) : fieldsIdOk fs = true := by
  obtain ⟨hnd, hid, _⟩ := okHead_elim p fs h
  rw [fieldsIdOk, List.all_eq_true]
  rintro ⟨k, v⟩ hm
  by_cases hk : k = "id"
  · subst hk
    have := lookup_of_mem_nodup fs "id" v hnd hm
    rcases hid with hid | ⟨s, hid⟩
    · rw [this] at hid; cases hid
    · rw [this] at hid
      injection hid with hid
      subst hid
      simp [isLeaf]
  · simp [hk]

theorem okFields_setKey (p : JVal → Bool) (fs : Fields) (k : String) (v : JVal)
    (hv : isLeaf v = true) (h : okFields p fs = true) :
    okFields p (setKey fs k v) = true := by
  induction fs with
  | nil => simp [setKey, okFields, okVal_of_isLeaf p v hv]
  | cons hd tl ih =>
      obtain ⟨k1, v1⟩ := hd
      simp only [okFields, Bool.and_eq_true] at h
      by_cases hk : k1 = k
      · simp [setKey, hk, okFields, okVal_of_isLeaf p v hv, h.2]
      · simp [setKey, hk, okFields, h.1, ih h.2]

theorem okFields_popKey (p : JVal → Bool) (fs : Fields) (k : String)
    (h : okFields p fs = true) : okFields p (popKey fs k) = true := by
  induction fs with
  | nil => simp [popKey, okFields]
  | cons hd tl ih =>
      obtain ⟨k1, v1⟩ := hd
      simp only [okFields, Bool.and_eq_true] at h
      by_cases hk : k1 = k
      · simp [popKey, hk, h.2]
      · simp [popKey, hk, okFields, h.1, ih h.2]

theorem refsFields_setKey (fs : Fields) (k : String) (v : JVal)
    (hold : ∀ w, lookupKey fs k = some w → isLeaf w = true)
    (hv : isLeaf v = true) : refsFields (setKey fs k v) = refsFields fs := by
  induction fs with
  | nil => simp [setKey, refsFields, refsVal_of_isLeaf v hv]
  | cons hd tl ih =>
      obtain ⟨k1, v1⟩ := hd
      by_cases hk : k1 = k
      · have hv1 : isLeaf v1 = true := by
          apply hold
          simp [lookupKey, hk]
        simp [setKey, hk, refsFields, refsVal_of_isLeaf v hv, refsVal_of_isLeaf v1 hv1]
      · have hold2 : ∀ w, lookupKey tl k = some w → isLeaf w = true := by
          intro w hw
          apply hold
          simp [lookupKey, hk, hw]
        simp [setKey, hk, refsFields, ih hold2]

theorem refsFields_popKey (fs : Fields) (k : String)
    (hold : ∀ w, lookupKey fs k = some w → isLeaf w = true) :
    refsFields (popKey fs k) = refsFields fs := by
  induction fs with
  | nil => simp [popKey]
  | cons hd tl ih =>
      obtain ⟨k1, v1⟩ := hd
      by_cases hk : k1 = k
      · have hv1 : isLeaf v1 = true := by
          apply hold
          simp [lookupKey, hk]
        simp [popKey, hk, refsFields, refsVal_of_isLeaf v1 hv1]
      · have hold2 : ∀ w, lookupKey tl k = some w → isLeaf w = true := by
          intro w hw
          apply hold
          simp [lookupKey, hk, hw]
        simp [popKey, hk, refsFields, ih hold2]

theorem regen_unfold (gen : Nat → String) (m : Mapping) (fuel : Nat) (fs : Fields)
    (rid ia : Bool) (ctr : Nat) :
    regenerate_ids gen m (fuel + 1) fs rid ia ctr =
      match headStep gen m fs rid ia ctr with
      | .ok (fs3, ctr1) => regenerate_ids_fields gen m fuel fs3 ctr1
      | .error e => .error e := by
  rw [regenerate_ids, headStep]
  rcases hlk : lookupKey (if ia then popKey (if rid then (setKey fs "id" (.str (gen ctr)), ctr + 1) else (fs, ctr)).1 "id" else (if rid then (setKey fs "id" (.str (gen ctr)), ctr + 1) else (fs, ctr)).1) "reference" with _ | v
  · rfl
  · by_cases ht : jTruthy v
    · by_cases hh : jHashable v
      · rcases hm : mapLookup m v with _ | s <;> simp [ht, hh, hm]
      · simp [ht, hh]
    · simp [ht]

theorem headStep_ok_elim (gen : Nat → String) (m : Mapping) (fs : Fields)
    (rid ia : Bool) (ctr : Nat) (fs3 : Fields) (ctr1 : Nat)
    (h : headStep gen m fs rid ia ctr = .ok (fs3, ctr1)) :
    ctr1 = (if rid then ctr + 1 else ctr) ∧
    (let fs2 : Fields :=
      if ia then popKey (if rid then setKey fs "id" (.str (gen ctr)) else fs) "id"
      else (if rid then setKey fs "id" (.str (gen ctr)) else fs)
     (∃ v s, lookupKey fs2 "reference" = some v ∧ jTruthy v = true ∧
         jHashable v = true ∧ mapLookup m v = some s ∧
         fs3 = setKey fs2 "reference" (.str s))
     ∨ ((∀ v, lookupKey fs2 "reference" = some v → jTruthy v = false) ∧ fs3 = fs2)) := by
  rw [headStep] at h
  have hp1 : (if rid then (setKey fs "id" (.str (gen ctr)), ctr + 1) else (fs, ctr)).1
      = (if rid then setKey fs "id" (.str (gen ctr)) else fs) := by
    cases rid <;> simp
  have hp2 : (if rid then (setKey fs "id" (.str (gen ctr)), ctr + 1) else (fs, ctr)).2
      = (if rid then ctr + 1 else ctr) := by
    cases rid <;> simp
  split at h
  next v heq =>
      split at h
      next ht =>
          split at h
          next hh =>
              split at h
              next s hm =>
                  injection h with h
                  injection h with h1 h2
                  rw [hp1] at heq h1
                  rw [hp2] at h2
                  exact ⟨h2.symm, Or.inl ⟨v, s, heq, ht, hh, hm, h1.symm⟩⟩
              next hm => cases h
          next hh => cases h
      next ht =>
          injection h with h
          injection h with h1 h2
          rw [hp1] at heq h1
          rw [hp2] at h2
          refine ⟨h2.symm, Or.inr ⟨?_, h1.symm⟩⟩
          intro w hw
          rw [hw] at heq
          injection heq with heq
          rw [heq]
          simpa using ht
  next heq =>
      injection h with h
      injection h with h1 h2
      rw [hp1] at heq h1
      rw [hp2] at h2
      refine ⟨h2.symm, Or.inr ⟨?_, h1.symm⟩⟩
      intro w hw
      rw [hw] at heq
      cases heq

theorem headStep_fs2_ref (gen : Nat → String) (fs : Fields) (rid ia : Bool) (ctr : Nat) :
    lookupKey
      (if ia = true then
        popKey (if rid = true then (setKey fs "id" (.str (gen ctr)), ctr + 1) else (fs, ctr)).1 "id"
       else (if rid = true then (setKey fs "id" (.str (gen ctr)), ctr + 1) else (fs, ctr)).1)
      "reference" = lookupKey fs "reference" := by
  have hid : "reference" ≠ "id" := by decide
  cases rid <;> cases ia <;>
    simp [lookupKey_popKey_ne _ _ _ hid, lookupKey_setKey_ne _ _ _ _ hid]

theorem headStep_ok_intro (gen : Nat → String) (m : Mapping) (p : JVal → Bool)
    (fs : Fields) (rid ia : Bool) (ctr : Nat)
    (hok : okHead p fs = true)
    (hp : ∀ v, p v = true → (mapLookup m v).isSome = true) :
    ∃ fs3, headStep gen m fs rid ia ctr = .ok (fs3, if rid then ctr + 1 else ctr) := by
  obtain ⟨-, -, href⟩ := okHead_elim p fs hok
  rcases href with href | ⟨sr, href, hsr⟩
  · exact ⟨_, by
      simp only [headStep, headStep_fs2_ref gen fs rid ia ctr, href, apply_ite Prod.snd]
      rfl⟩
  · by_cases ht : sr = ""
    · subst ht
      exact ⟨_, by
        simp only [headStep, headStep_fs2_ref gen fs rid ia ctr, href, apply_ite Prod.snd]
        norm_num [jTruthy]
        rfl⟩
    · have hsp : p (JVal.str sr) = true := by
        rcases hsr with hsr | hsr
        · exact absurd hsr ht
        · exact hsr
      obtain ⟨s, hm⟩ := Option.isSome_iff_exists.mp (hp _ hsp)
      have hjt : jTruthy (JVal.str sr) = true := by simp [jTruthy, ht]
      exact ⟨_, by
        simp only [headStep, headStep_fs2_ref gen fs rid ia ctr, href, apply_ite Prod.snd]
        simp [hjt, jHashable, hm]
        rfl⟩

theorem forall2_lookup_none (fs fs' : Fields) (h : List.Forall₂ fieldRel fs fs')
    (k : String) (hk : lookupKey fs k = none) : lookupKey fs' k = none := by
  induction h with
  | nil => rfl
  | @cons a b l1 l2 h1 h2 ih =>
      obtain ⟨ka, va⟩ := a
      obtain ⟨kb, vb⟩ := b
      have hkb : kb = ka := h1.1
      by_cases hka : ka = k
      · rw [lookupKey, if_pos hka] at hk
        cases hk
      · rw [lookupKey, if_neg hka] at hk
        rw [lookupKey, hkb, if_neg hka]
        exact ih hk

theorem forall2_lookup_some (fs fs' : Fields) (h : List.Forall₂ fieldRel fs fs')
    (k : String) (v : JVal) (hk : lookupKey fs k = some v) :
    ∃ v', lookupKey fs' k = some v' ∧ valRel v v' := by
  induction h with
  | nil => cases hk
  | @cons a b l1 l2 h1 h2 ih =>
      obtain ⟨ka, va⟩ := a
      obtain ⟨kb, vb⟩ := b
      have hkb : kb = ka := h1.1
      by_cases hka : ka = k
      · rw [lookupKey, if_pos hka] at hk
        injection hk with hk
        subst hk
        exact ⟨vb, by rw [lookupKey, hkb, if_pos hka], h1.2⟩
      · rw [lookupKey, if_neg hka] at hk
        rw [lookupKey, hkb, if_neg hka]
        exact ih hk

theorem forall2_lookup_leaf (fs fs' : Fields) (h : List.Forall₂ fieldRel fs fs')
    (k : String) (v : JVal) (hk : lookupKey fs k = some v) (hl : isLeaf v = true) :
    lookupKey fs' k = some v := by
  obtain ⟨v', hv', hrel⟩ := forall2_lookup_some fs fs' h k v hk
  rw [hv', hrel.1 hl]

theorem regen_align (gen : Nat → String) (m : Mapping) : ∀ fuel : Nat,
    (∀ fs rid ia ctr out, regenerate_ids gen m fuel fs rid ia ctr = .ok out →
      ctr ≤ out.2)
    ∧ (∀ fs ctr out, regenerate_ids_fields gen m fuel fs ctr = .ok out →
      ctr ≤ out.2 ∧ List.Forall₂ fieldRel fs out.1)
    ∧ (∀ es ia ctr out, regenerate_ids_of_list gen m fuel es ia ctr = .ok out →
      ctr ≤ out.2 ∧ List.Forall₂ elemRel es out.1) := by
  intro fuel
  induction fuel with
  | zero =>
      refine ⟨?_, ?_, ?_⟩
      · intro fs rid ia ctr out h
        simp only [regenerate_ids] at h
        cases h
      · intro fs ctr out h
        simp only [regenerate_ids_fields] at h
        cases h
      · intro es ia ctr out h
        simp only [regenerate_ids_of_list] at h
        cases h
  | succ fuel ih =>
      obtain ⟨ih1, ih2, ih3⟩ := ih
      refine ⟨?_, ?_, ?_⟩
      · intro fs rid ia ctr out h
        rw [regen_unfold] at h
        rcases hh : headStep gen m fs rid ia ctr with e | q
        · rw [hh] at h; simp only [] at h
          cases h
        · rw [hh] at h; simp only [] at h
          obtain ⟨fs3, ctr1⟩ := q
          have hctr1 := (headStep_ok_elim gen m fs rid ia ctr fs3 ctr1 hh).1
          have := (ih2 fs3 ctr1 out h).1
          have : ctr ≤ ctr1 := by
            rw [hctr1]
            cases rid <;> simp <;> omega
          omega
      · intro fs ctr out h
        match fs with
        | [] =>
            simp only [regenerate_ids_fields] at h
            injection h with h
            rw [← h]
            exact ⟨Nat.le_refl ctr, List.Forall₂.nil⟩
        | (f, v) :: rest =>
            match v with
            | .str sv =>
                simp only [regenerate_ids_fields] at h
                rcases hr : regenerate_ids_fields gen m fuel rest ctr with e | q
                · rw [hr] at h; simp only [] at h
                  cases h
                · rw [hr] at h; simp only [] at h
                  injection h with h
                  obtain ⟨hc, hrel⟩ := ih2 rest ctr q hr
                  rw [← h]
                  exact ⟨hc, List.Forall₂.cons ⟨rfl, valRel_leaf _ (by simp [isLeaf])⟩ hrel⟩
            | .int nv =>
                simp only [regenerate_ids_fields] at h
                rcases hr : regenerate_ids_fields gen m fuel rest ctr with e | q
                · rw [hr] at h; simp only [] at h
                  cases h
                · rw [hr] at h; simp only [] at h
                  injection h with h
                  obtain ⟨hc, hrel⟩ := ih2 rest ctr q hr
                  rw [← h]
                  exact ⟨hc, List.Forall₂.cons ⟨rfl, valRel_leaf _ (by simp [isLeaf])⟩ hrel⟩
            | .bool bv =>
                simp only [regenerate_ids_fields] at h
                rcases hr : regenerate_ids_fields gen m fuel rest ctr with e | q
                · rw [hr] at h; simp only [] at h
                  cases h
                · rw [hr] at h; simp only [] at h
                  injection h with h
                  obtain ⟨hc, hrel⟩ := ih2 rest ctr q hr
                  rw [← h]
                  exact ⟨hc, List.Forall₂.cons ⟨rfl, valRel_leaf _ (by simp [isLeaf])⟩ hrel⟩
            | .null =>
                simp only [regenerate_ids_fields] at h
                rcases hr : regenerate_ids_fields gen m fuel rest ctr with e | q
                · rw [hr] at h; simp only [] at h
                  cases h
                · rw [hr] at h; simp only [] at h
                  injection h with h
                  obtain ⟨hc, hrel⟩ := ih2 rest ctr q hr
                  rw [← h]
                  exact ⟨hc, List.Forall₂.cons ⟨rfl, valRel_leaf _ (by simp [isLeaf])⟩ hrel⟩
            | .arr es =>
                simp only [regenerate_ids_fields] at h
                rcases hl : regenerate_ids_of_list gen m fuel es
                    (f = "arguments" || f = "device_id") ctr with e | ql
                · rw [hl] at h; simp only [] at h
                  cases h
                · rw [hl] at h; simp only [] at h
                  obtain ⟨es', ctr1⟩ := ql
                  rcases hr : regenerate_ids_fields gen m fuel rest ctr1 with e | q
                  · rw [hr] at h; simp only [] at h
                    cases h
                  · rw [hr] at h; simp only [] at h
                    injection h with h
                    obtain ⟨hc1, hrel1⟩ := ih3 es _ ctr (es', ctr1) hl
                    obtain ⟨hc2, hrel2⟩ := ih2 rest ctr1 q hr
                    rw [← h]
                    refine ⟨Nat.le_trans hc1 hc2, List.Forall₂.cons ⟨rfl, valRel_arr es es' hrel1⟩ hrel2⟩
            | .obj gs =>
                simp only [regenerate_ids_fields] at h
                rcases ho : regenerate_ids gen m fuel gs true
                    (f = "arguments" || f = "device_id") ctr with e | qo
                · rw [ho] at h; simp only [] at h
                  cases h
                · rw [ho] at h; simp only [] at h
                  obtain ⟨gs', ctr1⟩ := qo
                  rcases hr : regenerate_ids_fields gen m fuel rest ctr1 with e | q
                  · rw [hr] at h; simp only [] at h
                    cases h
                  · rw [hr] at h; simp only [] at h
                    injection h with h
                    have hc1 := ih1 gs true _ ctr (gs', ctr1) ho
                    obtain ⟨hc2, hrel2⟩ := ih2 rest ctr1 q hr
                    rw [← h]
                    exact ⟨Nat.le_trans hc1 hc2, List.Forall₂.cons ⟨rfl, valRel_obj gs gs'⟩ hrel2⟩
      · intro es ia ctr out h
        match es with
        | [] =>
            simp only [regenerate_ids_of_list] at h
            injection h with h
            rw [← h]
            exact ⟨Nat.le_refl ctr, List.Forall₂.nil⟩
        | e :: rest =>
            match e with
            | .obj gs =>
                simp only [regenerate_ids_of_list] at h
                rcases ho : regenerate_ids gen m fuel gs true ia ctr with er | qo
                · rw [ho] at h; simp only [] at h
                  cases h
                · rw [ho] at h; simp only [] at h
                  obtain ⟨gs', ctr1⟩ := qo
                  rcases hr : regenerate_ids_of_list gen m fuel rest ia ctr1 with er | q
                  · rw [hr] at h; simp only [] at h
                    cases h
                  · rw [hr] at h; simp only [] at h
                    injection h with h
                    have hc1 := ih1 gs true ia ctr (gs', ctr1) ho
                    obtain ⟨hc2, hrel2⟩ := ih3 rest ia ctr1 q hr
                    rw [← h]
                    exact ⟨Nat.le_trans hc1 hc2, List.Forall₂.cons (elemRel_obj gs gs') hrel2⟩
            | .str sv =>
                simp only [regenerate_ids_of_list] at h
                rcases hr : regenerate_ids_of_list gen m fuel rest ia ctr with er | q
                · rw [hr] at h; simp only [] at h
                  cases h
                · rw [hr] at h; simp only [] at h
                  injection h with h
                  obtain ⟨hc, hrel⟩ := ih3 rest ia ctr q hr
                  rw [← h]
                  exact ⟨hc, List.Forall₂.cons (elemRel_nonobj _ (by simp [isObjB])) hrel⟩
            | .int nv =>
                simp only [regenerate_ids_of_list] at h
                rcases hr : regenerate_ids_of_list gen m fuel rest ia ctr with er | q
                · rw [hr] at h; simp only [] at h
                  cases h
                · rw [hr] at h; simp only [] at h
                  injection h with h
                  obtain ⟨hc, hrel⟩ := ih3 rest ia ctr q hr
                  rw [← h]
                  exact ⟨hc, List.Forall₂.cons (elemRel_nonobj _ (by simp [isObjB])) hrel⟩
            | .bool bv =>
                simp only [regenerate_ids_of_list] at h
                rcases hr : regenerate_ids_of_list gen m fuel rest ia ctr with er | q
                · rw [hr] at h; simp only [] at h
                  cases h
                · rw [hr] at h; simp only [] at h
                  injection h with h
                  obtain ⟨hc, hrel⟩ := ih3 rest ia ctr q hr
                  rw [← h]
                  exact ⟨hc, List.Forall₂.cons (elemRel_nonobj _ (by simp [isObjB])) hrel⟩
            | .null =>
                simp only [regenerate_ids_of_list] at h
                rcases hr : regenerate_ids_of_list gen m fuel rest ia ctr with er | q
                · rw [hr] at h; simp only [] at h
                  cases h
                · rw [hr] at h; simp only [] at h
                  injection h with h
                  obtain ⟨hc, hrel⟩ := ih3 rest ia ctr q hr
                  rw [← h]
                  exact ⟨hc, List.Forall₂.cons (elemRel_nonobj _ (by simp [isObjB])) hrel⟩
            | .arr es2 =>
                simp only [regenerate_ids_of_list] at h
                rcases hr : regenerate_ids_of_list gen m fuel rest ia ctr with er | q
                · rw [hr] at h; simp only [] at h
                  cases h
                · rw [hr] at h; simp only [] at h
                  injection h with h
                  obtain ⟨hc, hrel⟩ := ih3 rest ia ctr q hr
                  rw [← h]
                  exact ⟨hc, List.Forall₂.cons (elemRel_nonobj _ (by simp [isObjB])) hrel⟩

theorem regen_ids_ctr_le (gen : Nat → String) (m : Mapping) (fuel : Nat) (fs : Fields)
    (rid ia : Bool) (ctr : Nat) (fs' : Fields) (ctr' : Nat)
    (h : regenerate_ids gen m fuel fs rid ia ctr = .ok (fs', ctr')) : ctr ≤ ctr' :=
  (regen_align gen m fuel).1 fs rid ia ctr (fs', ctr') h

theorem regen_fields_align (gen : Nat → String) (m : Mapping) (fuel : Nat) (fs : Fields)
    (ctr : Nat) (fs' : Fields) (ctr' : Nat)
    (h : regenerate_ids_fields gen m fuel fs ctr = .ok (fs', ctr')) :
    ctr ≤ ctr' ∧ List.Forall₂ fieldRel fs fs' :=
  (regen_align gen m fuel).2.1 fs ctr (fs', ctr') h

theorem regen_list_align (gen : Nat → String) (m : Mapping) (fuel : Nat) (es : List JVal)
    (ia : Bool) (ctr : Nat) (es' : List JVal) (ctr' : Nat)
    (h : regenerate_ids_of_list gen m fuel es ia ctr = .ok (es', ctr')) :
    ctr ≤ ctr' ∧ List.Forall₂ elemRel es es' :=
  (regen_align gen m fuel).2.2 es ia ctr (es', ctr') h

theorem regen_obj_elim (gen : Nat → String) (m : Mapping) (fuel : Nat) (fs : Fields)
    (rid ia : Bool) (ctr : Nat) (fs' : Fields) (ctr' : Nat)
    (h : regenerate_ids gen m fuel fs rid ia ctr = .ok (fs', ctr')) :
    ∃ fuel2 fs3 ctr1, fuel = fuel2 + 1 ∧
      headStep gen m fs rid ia ctr = .ok (fs3, ctr1) ∧
      regenerate_ids_fields gen m fuel2 fs3 ctr1 = .ok (fs', ctr') := by
  match fuel with
  | 0 =>
      simp only [regenerate_ids] at h
      cases h
  | fuel + 1 =>
      rw [regen_unfold] at h
      rcases hh : headStep gen m fs rid ia ctr with e | ⟨fs3, ctr1⟩
      · rw [hh] at h; simp only [] at h
        cases h
      · rw [hh] at h; simp only [] at h
        exact ⟨fuel, fs3, ctr1, rfl, rfl, h⟩

theorem lookup_headFs2_ne (gen : Nat → String) (fs : Fields) (rid ia : Bool)
    (ctr : Nat) (k : String) (hk : k ≠ "id") :
    lookupKey
      (if ia = true then popKey (if rid = true then setKey fs "id" (.str (gen ctr)) else fs) "id"
       else (if rid = true then setKey fs "id" (.str (gen ctr)) else fs)) k
      = lookupKey fs k := by
  cases rid <;> cases ia <;>
    simp [lookupKey_popKey_ne _ _ _ hk, lookupKey_setKey_ne _ _ _ _ hk]

theorem regen_obj_fs3_lookup (gen : Nat → String) (m : Mapping) (fuel : Nat) (fs : Fields)
    (rid ia : Bool) (ctr : Nat) (fs' : Fields) (ctr' : Nat)
    (h : regenerate_ids gen m fuel fs rid ia ctr = .ok (fs', ctr'))
    (k : String) (hk1 : k ≠ "id") (hk2 : k ≠ "reference") :
    ∃ fs3, List.Forall₂ fieldRel fs3 fs' ∧ lookupKey fs3 k = lookupKey fs k := by
  obtain ⟨fuel2, fs3, ctr1, -, hh, hf⟩ :=
    regen_obj_elim gen m fuel fs rid ia ctr fs' ctr' h
  obtain ⟨-, hcase⟩ := headStep_ok_elim gen m fs rid ia ctr fs3 ctr1 hh
  refine ⟨fs3, (regen_fields_align gen m fuel2 fs3 ctr1 fs' ctr' hf).2, ?_⟩
  rcases hcase with ⟨v, s, -, -, -, -, hfs3⟩ | ⟨-, hfs3⟩
  · rw [hfs3, lookupKey_setKey_ne _ _ _ _ hk2]
    exact lookup_headFs2_ne gen fs rid ia ctr k hk1
  · rw [hfs3]
    exact lookup_headFs2_ne gen fs rid ia ctr k hk1

theorem regen_obj_keep_leaf (gen : Nat → String) (m : Mapping) (fuel : Nat) (fs : Fields)
    (rid ia : Bool) (ctr : Nat) (fs' : Fields) (ctr' : Nat)
    (h : regenerate_ids gen m fuel fs rid ia ctr = .ok (fs', ctr'))
    (k : String) (hk1 : k ≠ "id") (hk2 : k ≠ "reference")
    (v : JVal) (hv : lookupKey fs k = some v) (hl : isLeaf v = true) :
    lookupKey fs' k = some v := by
  obtain ⟨fs3, hrel, heq⟩ := regen_obj_fs3_lookup gen m fuel fs rid ia ctr fs' ctr' h k hk1 hk2
  exact forall2_lookup_leaf fs3 fs' hrel k v (by rw [heq, hv]) hl

theorem regen_obj_keep_none (gen : Nat → String) (m : Mapping) (fuel : Nat) (fs : Fields)
    (rid ia : Bool) (ctr : Nat) (fs' : Fields) (ctr' : Nat)
    (h : regenerate_ids gen m fuel fs rid ia ctr = .ok (fs', ctr'))
    (k : String) (hk1 : k ≠ "id") (hk2 : k ≠ "reference")
    (hv : lookupKey fs k = none) : lookupKey fs' k = none := by
  obtain ⟨fs3, hrel, heq⟩ := regen_obj_fs3_lookup gen m fuel fs rid ia ctr fs' ctr' h k hk1 hk2
  exact forall2_lookup_none fs3 fs' hrel k (by rw [heq, hv])

theorem regen_obj_keep_arr (gen : Nat → String) (m : Mapping) (fuel : Nat) (fs : Fields)
    (rid ia : Bool) (ctr : Nat) (fs' : Fields) (ctr' : Nat)
    (h : regenerate_ids gen m fuel fs rid ia ctr = .ok (fs', ctr'))
    (k : String) (hk1 : k ≠ "id") (hk2 : k ≠ "reference")
    (es : List JVal) (hv : lookupKey fs k = some (.arr es)) :
    ∃ es', lookupKey fs' k = some (.arr es') ∧ List.Forall₂ elemRel es es' := by
  obtain ⟨fs3, hrel, heq⟩ := regen_obj_fs3_lookup gen m fuel fs rid ia ctr fs' ctr' h k hk1 hk2
  obtain ⟨v', hv', hvr⟩ := forall2_lookup_some fs3 fs' hrel k _ (by rw [heq, hv])
  obtain ⟨es', heq', hF⟩ := hvr.2.1 es rfl
  exact ⟨es', by rw [hv', heq'], hF⟩

theorem regen_obj_id_pop (gen : Nat → String) (m : Mapping) (fuel : Nat) (fs : Fields)
    (rid : Bool) (ctr : Nat) (fs' : Fields) (ctr' : Nat)
    (h : regenerate_ids gen m fuel fs rid true ctr = .ok (fs', ctr'))
    (hnd : (keysOf fs).Nodup) : lookupKey fs' "id" = none := by
  obtain ⟨fuel2, fs3, ctr1, -, hh, hf⟩ :=
    regen_obj_elim gen m fuel fs rid true ctr fs' ctr' h
  obtain ⟨-, hcase⟩ := headStep_ok_elim gen m fs rid true ctr fs3 ctr1 hh
  have hnd1 : (keysOf (if rid = true then setKey fs "id" (.str (gen ctr)) else fs)).Nodup := by
    cases rid <;> simp [hnd, nodup_keysOf_setKey _ _ _ hnd]
  have hid2 : lookupKey
      (if (true : Bool) = true then
        popKey (if rid = true then setKey fs "id" (.str (gen ctr)) else fs) "id"
       else (if rid = true then setKey fs "id" (.str (gen ctr)) else fs)) "id" = none := by
    rw [if_pos rfl]
    exact lookupKey_popKey_self _ _ hnd1
  have h3 : lookupKey fs3 "id" = none := by
    rcases hcase with ⟨v, s, -, -, -, -, hfs3⟩ | ⟨-, hfs3⟩
    · rw [hfs3, lookupKey_setKey_ne _ _ _ _ (by decide : "id" ≠ "reference")]
      exact hid2
    · rw [hfs3]
      exact hid2
  exact forall2_lookup_none fs3 fs'
    (regen_fields_align gen m fuel2 fs3 ctr1 fs' ctr' hf).2 "id" h3

theorem regen_obj_id_fresh (gen : Nat → String) (m : Mapping) (fuel : Nat) (fs : Fields)
    (ctr : Nat) (fs' : Fields) (ctr' : Nat)
    (h : regenerate_ids gen m fuel fs true false ctr = .ok (fs', ctr')) :
    lookupKey fs' "id" = some (.str (gen ctr)) := by
  obtain ⟨fuel2, fs3, ctr1, -, hh, hf⟩ :=
    regen_obj_elim gen m fuel fs true false ctr fs' ctr' h
  obtain ⟨-, hcase⟩ := headStep_ok_elim gen m fs true false ctr fs3 ctr1 hh
  have hid2 : lookupKey
      (if (false : Bool) = true then
        popKey (if (true : Bool) = true then setKey fs "id" (.str (gen ctr)) else fs) "id"
       else (if (true : Bool) = true then setKey fs "id" (.str (gen ctr)) else fs)) "id"
      = some (.str (gen ctr)) := by
    simp [lookupKey_setKey_self]
  have h3 : lookupKey fs3 "id" = some (.str (gen ctr)) := by
    rcases hcase with ⟨v, s, -, -, -, -, hfs3⟩ | ⟨-, hfs3⟩
    · rw [hfs3, lookupKey_setKey_ne _ _ _ _ (by decide : "id" ≠ "reference")]
      exact hid2
    · rw [hfs3]
      exact hid2
  exact forall2_lookup_leaf fs3 fs'
    (regen_fields_align gen m fuel2 fs3 ctr1 fs' ctr' hf).2 "id" _ h3 (by simp [isLeaf])

theorem regen_obj_id_keep (gen : Nat → String) (m : Mapping) (fuel : Nat) (fs : Fields)
    (ctr : Nat) (fs' : Fields) (ctr' : Nat)
    (h : regenerate_ids gen m fuel fs false false ctr = .ok (fs', ctr'))
    (v : JVal) (hv : lookupKey fs "id" = some v) (hl : isLeaf v = true) :
    lookupKey fs' "id" = some v := by
  obtain ⟨fuel2, fs3, ctr1, -, hh, hf⟩ :=
    regen_obj_elim gen m fuel fs false false ctr fs' ctr' h
  obtain ⟨-, hcase⟩ := headStep_ok_elim gen m fs false false ctr fs3 ctr1 hh
  have h3 : lookupKey fs3 "id" = some v := by
    rcases hcase with ⟨w, s, -, -, -, -, hfs3⟩ | ⟨-, hfs3⟩
    · rw [hfs3, lookupKey_setKey_ne _ _ _ _ (by decide : "id" ≠ "reference")]
      simpa using hv
    · rw [hfs3]
      simpa using hv
  exact forall2_lookup_leaf fs3 fs'
    (regen_fields_align gen m fuel2 fs3 ctr1 fs' ctr' hf).2 "id" v h3 hl

theorem regen_obj_ref_truthy (gen : Nat → String) (m : Mapping) (fuel : Nat) (fs : Fields)
    (rid ia : Bool) (ctr : Nat) (fs' : Fields) (ctr' : Nat)
    (h : regenerate_ids gen m fuel fs rid ia ctr = .ok (fs', ctr'))
    (v : JVal) (hv : lookupKey fs "reference" = some v) (ht : jTruthy v = true) :
    ∃ s, jHashable v = true ∧ mapLookup m v = some s ∧
      lookupKey fs' "reference" = some (.str s) := by
  obtain ⟨fuel2, fs3, ctr1, -, hh, hf⟩ :=
    regen_obj_elim gen m fuel fs rid ia ctr fs' ctr' h
  obtain ⟨-, hcase⟩ := headStep_ok_elim gen m fs rid ia ctr fs3 ctr1 hh
  have href2 := lookup_headFs2_ne gen fs rid ia ctr "reference" (by decide)
  rcases hcase with ⟨w, s, hw, hwt, hwh, hwm, hfs3⟩ | ⟨hfalsy, hfs3⟩
  · rw [href2, hv] at hw
    injection hw with hw
    subst hw
    refine ⟨s, hwh, hwm, ?_⟩
    have h3 : lookupKey fs3 "reference" = some (.str s) := by
      rw [hfs3]
      exact lookupKey_setKey_self _ _ _
    exact forall2_lookup_leaf fs3 fs'
      (regen_fields_align gen m fuel2 fs3 ctr1 fs' ctr' hf).2 "reference" _ h3 (by simp [isLeaf])
  · have := hfalsy v (by rw [href2, hv])
    rw [ht] at this
    cases this

theorem regen_obj_ref_falsy (gen : Nat → String) (m : Mapping) (fuel : Nat) (fs : Fields)
    (rid ia : Bool) (ctr : Nat) (fs' : Fields) (ctr' : Nat)
    (h : regenerate_ids gen m fuel fs rid ia ctr = .ok (fs', ctr'))
    (v : JVal) (hv : lookupKey fs "reference" = some v) (ht : jTruthy v = false)
    (hl : isLeaf v = true) : lookupKey fs' "reference" = some v := by
  obtain ⟨fuel2, fs3, ctr1, -, hh, hf⟩ :=
    regen_obj_elim gen m fuel fs rid ia ctr fs' ctr' h
  obtain ⟨-, hcase⟩ := headStep_ok_elim gen m fs rid ia ctr fs3 ctr1 hh
  have href2 := lookup_headFs2_ne gen fs rid ia ctr "reference" (by decide)
  have h3 : lookupKey fs3 "reference" = some v := by
    rcases hcase with ⟨w, s, hw, hwt, hwh, hwm, hfs3⟩ | ⟨hfalsy, hfs3⟩
    · rw [href2, hv] at hw
      injection hw with hw
      subst hw
      rw [hwt] at ht
      cases ht
    · rw [hfs3, href2]
      exact hv
  exact forall2_lookup_leaf fs3 fs'
    (regen_fields_align gen m fuel2 fs3 ctr1 fs' ctr' hf).2 "reference" v h3 hl

theorem regen_obj_ref_none (gen : Nat → String) (m : Mapping) (fuel : Nat) (fs : Fields)
    (rid ia : Bool) (ctr : Nat) (fs' : Fields) (ctr' : Nat)
    (h : regenerate_ids gen m fuel fs rid ia ctr = .ok (fs', ctr'))
    (hv : lookupKey fs "reference" = none) : lookupKey fs' "reference" = none := by
  obtain ⟨fuel2, fs3, ctr1, -, hh, hf⟩ :=
    regen_obj_elim gen m fuel fs rid ia ctr fs' ctr' h
  obtain ⟨-, hcase⟩ := headStep_ok_elim gen m fs rid ia ctr fs3 ctr1 hh
  have href2 := lookup_headFs2_ne gen fs rid ia ctr "reference" (by decide)
  have h3 : lookupKey fs3 "reference" = none := by
    rcases hcase with ⟨w, s, hw, hwt, hwh, hwm, hfs3⟩ | ⟨hfalsy, hfs3⟩
    · rw [href2, hv] at hw
      cases hw
    · rw [hfs3, href2]
      exact hv
  exact forall2_lookup_none fs3 fs'
    (regen_fields_align gen m fuel2 fs3 ctr1 fs' ctr' hf).2 "reference" h3

theorem regen_obj_ctr_fresh (gen : Nat → String) (m : Mapping) (fuel : Nat) (fs : Fields)
    (ia : Bool) (ctr : Nat) (fs' : Fields) (ctr' : Nat)
    (h : regenerate_ids gen m fuel fs true ia ctr = .ok (fs', ctr')) :
    ctr + 1 ≤ ctr' := by
  obtain ⟨fuel2, fs3, ctr1, -, hh, hf⟩ :=
    regen_obj_elim gen m fuel fs true ia ctr fs' ctr' h
  obtain ⟨hctr1, -⟩ := headStep_ok_elim gen m fs true ia ctr fs3 ctr1 hh
  have := (regen_fields_align gen m fuel2 fs3 ctr1 fs' ctr' hf).1
  rw [if_pos rfl] at hctr1
  omega

theorem regen_success (gen : Nat → String) (m : Mapping) (p : JVal → Bool)
    (hp : ∀ v, p v = true → (mapLookup m v).isSome = true) : ∀ fuel : Nat,
    (∀ fs rid ia ctr, fsize fs + 3 ≤ fuel → okObj p fs = true →
      ∃ out, regenerate_ids gen m fuel fs rid ia ctr = .ok out)
    ∧ (∀ fs ctr, fsize fs + 1 ≤ fuel → okFields p fs = true →
      ∃ out, regenerate_ids_fields gen m fuel fs ctr = .ok out)
    ∧ (∀ es ia ctr, lsize es + 1 ≤ fuel → okElems p es = true →
      ∃ out, regenerate_ids_of_list gen m fuel es ia ctr = .ok out) := by
  intro fuel
  induction fuel with
  | zero =>
      refine ⟨?_, ?_, ?_⟩
      · intro fs rid ia ctr hs
        omega
      · intro fs ctr hs
        omega
      · intro es ia ctr hs
        omega
  | succ fuel ih =>
      obtain ⟨ih1, ih2, ih3⟩ := ih
      refine ⟨?_, ?_, ?_⟩
      · intro fs rid ia ctr hs hok
        rw [okObj, Bool.and_eq_true] at hok
        obtain ⟨fs3, hh⟩ := headStep_ok_intro gen m p fs rid ia ctr hok.1 hp
        obtain ⟨-, hcase⟩ :=
          headStep_ok_elim gen m fs rid ia ctr fs3 (if rid then ctr + 1 else ctr) hh
        have hfs1ok : okFields p (if rid = true then setKey fs "id" (.str (gen ctr)) else fs)
            = true := by
          cases rid
          · simpa using hok.2
          · simpa using okFields_setKey p fs "id" _ (by simp [isLeaf]) hok.2
        have hfs2ok : okFields p
            (if ia = true then
              popKey (if rid = true then setKey fs "id" (.str (gen ctr)) else fs) "id"
             else (if rid = true then setKey fs "id" (.str (gen ctr)) else fs)) = true := by
          cases ia
          · simpa using hfs1ok
          · simpa using okFields_popKey p _ "id" hfs1ok
        have hfs3ok : okFields p fs3 = true := by
          rcases hcase with ⟨v, sw, hw, hwt, hwh, hwm, hfs3⟩ | ⟨-, hfs3⟩
          · rw [hfs3]
            exact okFields_setKey p _ "reference" _ (by simp [isLeaf]) hfs2ok
          · rw [hfs3]
            exact hfs2ok
        have hfs1sz : fsize (if rid = true then setKey fs "id" (.str (gen ctr)) else fs)
            ≤ fsize fs + 1 := by
          cases rid
          · simp
          · simpa using fsize_setKey_le fs "id" _ (by simp [jsize])
        have hfs2sz : fsize
            (if ia = true then
              popKey (if rid = true then setKey fs "id" (.str (gen ctr)) else fs) "id"
             else (if rid = true then setKey fs "id" (.str (gen ctr)) else fs))
            ≤ fsize fs + 1 := by
          cases ia
          · simpa using hfs1sz
          · simp only [eq_self_iff_true, if_true]
            exact Nat.le_trans (fsize_popKey_le _ "id") hfs1sz
        have hfs3sz : fsize fs3 ≤ fsize fs + 1 := by
          rcases hcase with ⟨v, sw, hw, hwt, hwh, hwm, hfs3⟩ | ⟨-, hfs3⟩
          · rw [hfs3]
            exact Nat.le_trans (fsize_setKey_of_lookup _ "reference" _ _ (by simp [jsize]) hw) hfs2sz
          · rw [hfs3]
            exact hfs2sz
        obtain ⟨out, hout⟩ := ih2 fs3 (if rid then ctr + 1 else ctr) (by omega) hfs3ok
        refine ⟨out, ?_⟩
        rw [regen_unfold, hh]
        simpa using hout
      · intro fs ctr hs hok
        match fs with
        | [] => exact ⟨_, by simp only [regenerate_ids_fields]; rfl⟩
        | (f, v) :: rest =>
            rw [fsize] at hs
            rw [okFields, Bool.and_eq_true] at hok
            match v with
            | .str sv =>
                obtain ⟨⟨rest', ctr'⟩, hr⟩ := ih2 rest ctr (by omega) hok.2
                exact ⟨_, by simp only [regenerate_ids_fields]; rw [hr]⟩
            | .int nv =>
                obtain ⟨⟨rest', ctr'⟩, hr⟩ := ih2 rest ctr (by omega) hok.2
                exact ⟨_, by simp only [regenerate_ids_fields]; rw [hr]⟩
            | .bool bv =>
                obtain ⟨⟨rest', ctr'⟩, hr⟩ := ih2 rest ctr (by omega) hok.2
                exact ⟨_, by simp only [regenerate_ids_fields]; rw [hr]⟩
            | .null =>
                obtain ⟨⟨rest', ctr'⟩, hr⟩ := ih2 rest ctr (by omega) hok.2
                exact ⟨_, by simp only [regenerate_ids_fields]; rw [hr]⟩
            | .arr es =>
                have hes : okElems p es = true := by
                  have := hok.1
                  rwa [okVal] at this
                have hsz : jsize (JVal.arr es) = 1 + lsize es := by rw [jsize]
                obtain ⟨⟨es', ctr1⟩, hl⟩ :=
                  ih3 es (f = "arguments" || f = "device_id") ctr (by omega) hes
                obtain ⟨⟨rest', ctr'⟩, hr⟩ := ih2 rest ctr1 (by omega) hok.2
                exact ⟨_, by simp only [regenerate_ids_fields]; rw [hl]; simp only []; rw [hr]⟩
            | .obj gs =>
                have hgs : okObj p gs = true := by
                  have := hok.1
                  rwa [okVal] at this
                have hsz : jsize (JVal.obj gs) = 2 + fsize gs := by rw [jsize]
                obtain ⟨⟨gs', ctr1⟩, ho⟩ :=
                  ih1 gs true (f = "arguments" || f = "device_id") ctr (by omega) hgs
                obtain ⟨⟨rest', ctr'⟩, hr⟩ := ih2 rest ctr1 (by omega) hok.2
                exact ⟨_, by simp only [regenerate_ids_fields]; rw [ho]; simp only []; rw [hr]⟩
      · intro es ia ctr hs hok
        match es with
        | [] => exact ⟨_, by simp only [regenerate_ids_of_list]; rfl⟩
        | e :: rest =>
            rw [lsize] at hs
            match e with
            | .obj gs =>
                simp only [okElems, Bool.and_eq_true] at hok
                have hgs : okObj p gs = true := by
                  rw [okObj, Bool.and_eq_true]
                  exact ⟨hok.1.1, hok.1.2⟩
                have hsz : jsize (JVal.obj gs) = 2 + fsize gs := by rw [jsize]
                obtain ⟨⟨gs', ctr1⟩, ho⟩ := ih1 gs true ia ctr (by omega) hgs
                obtain ⟨⟨rest', ctr'⟩, hr⟩ := ih3 rest ia ctr1 (by omega) hok.2
                exact ⟨_, by simp only [regenerate_ids_of_list]; rw [ho]; simp only []; rw [hr]⟩
            | .str sv =>
                simp only [okElems] at hok
                obtain ⟨⟨rest', ctr'⟩, hr⟩ := ih3 rest ia ctr (by omega) hok
                exact ⟨_, by simp only [regenerate_ids_of_list]; rw [hr]⟩
            | .int nv =>
                simp only [okElems] at hok
                obtain ⟨⟨rest', ctr'⟩, hr⟩ := ih3 rest ia ctr (by omega) hok
                exact ⟨_, by simp only [regenerate_ids_of_list]; rw [hr]⟩
            | .bool bv =>
                simp only [okElems] at hok
                obtain ⟨⟨rest', ctr'⟩, hr⟩ := ih3 rest ia ctr (by omega) hok
                exact ⟨_, by simp only [regenerate_ids_of_list]; rw [hr]⟩
            | .null =>
                simp only [okElems] at hok
                obtain ⟨⟨rest', ctr'⟩, hr⟩ := ih3 rest ia ctr (by omega) hok
                exact ⟨_, by simp only [regenerate_ids_of_list]; rw [hr]⟩
            | .arr es2 =>
                simp only [okElems] at hok
                obtain ⟨⟨rest', ctr'⟩, hr⟩ := ih3 rest ia ctr (by omega) hok
                exact ⟨_, by simp only [regenerate_ids_of_list]; rw [hr]⟩

theorem regen_refs (gen : Nat → String) (m : Mapping) (p : JVal → Bool)
    (hmv : ∀ v s, mapLookup m v = some s → s ≠ "") : ∀ fuel : Nat,
    (∀ fs rid ia ctr fs' ctr', okObj p fs = true →
      regenerate_ids gen m fuel fs rid ia ctr = .ok (fs', ctr') →
      (∀ r ∈ refsObj fs, jHashable r = true ∧ (mapLookup m r).isSome = true)
      ∧ refsObj fs' = (refsObj fs).map (mres m))
    ∧ (∀ fs ctr fs' ctr', okFields p fs = true →
      regenerate_ids_fields gen m fuel fs ctr = .ok (fs', ctr') →
      (∀ r ∈ refsFields fs, jHashable r = true ∧ (mapLookup m r).isSome = true)
      ∧ refsFields fs' = (refsFields fs).map (mres m))
    ∧ (∀ es ia ctr es' ctr', okElems p es = true →
      regenerate_ids_of_list gen m fuel es ia ctr = .ok (es', ctr') →
      (∀ r ∈ refsElems es, jHashable r = true ∧ (mapLookup m r).isSome = true)
      ∧ refsElems es' = (refsElems es).map (mres m)) := by
  intro fuel
  induction fuel with
  | zero =>
      refine ⟨?_, ?_, ?_⟩
      · intro fs rid ia ctr fs' ctr' hok h
        simp only [regenerate_ids] at h
        cases h
      · intro fs ctr fs' ctr' hok h
        simp only [regenerate_ids_fields] at h
        cases h
      · intro es ia ctr es' ctr' hok h
        simp only [regenerate_ids_of_list] at h
        cases h
  | succ fuel ih =>
      obtain ⟨ih1, ih2, ih3⟩ := ih
      refine ⟨?_, ?_, ?_⟩
      · intro fs rid ia ctr fs' ctr' hok h
        rw [okObj, Bool.and_eq_true] at hok
        obtain ⟨fuel2, fs3, ctr1, hfe, hh, hf⟩ :=
          regen_obj_elim gen m (fuel + 1) fs rid ia ctr fs' ctr' h
        have hfu : fuel2 = fuel := by omega
        subst hfu
        obtain ⟨-, hcase⟩ := headStep_ok_elim gen m fs rid ia ctr fs3 ctr1 hh
        obtain ⟨hnd, hid, href⟩ := okHead_elim p fs hok.1
        have hidleaf : ∀ w, lookupKey fs "id" = some w → isLeaf w = true := by
          intro w hw
          rcases hid with hid | ⟨si, hid⟩
          · rw [hw] at hid
            cases hid
          · rw [hw] at hid
            injection hid with hid
            rw [hid]
            simp [isLeaf]
        have hrefleaf : ∀ w, lookupKey fs "reference" = some w → isLeaf w = true := by
          intro w hw
          rcases href with href | ⟨sr, href, -⟩
          · rw [hw] at href
            cases href
          · rw [hw] at href
            injection href with href
            rw [href]
            simp [isLeaf]
        have hfs1r : refsFields (if rid = true then setKey fs "id" (.str (gen ctr)) else fs)
            = refsFields fs := by
          cases rid
          · simp
          · simpa using refsFields_setKey fs "id" _ hidleaf (by simp [isLeaf])
        have hfs1leaf : ∀ w,
            lookupKey (if rid = true then setKey fs "id" (.str (gen ctr)) else fs) "id" = some w →
            isLeaf w = true := by
          cases rid
          · simpa using hidleaf
          · intro w hw
            rw [if_pos rfl, lookupKey_setKey_self] at hw
            injection hw with hw
            rw [← hw]
            simp [isLeaf]
        have hfs2r : refsFields
            (if ia = true then
              popKey (if rid = true then setKey fs "id" (.str (gen ctr)) else fs) "id"
             else (if rid = true then setKey fs "id" (.str (gen ctr)) else fs))
            = refsFields fs := by
          cases ia
          · simpa using hfs1r
          · rw [if_pos rfl, refsFields_popKey _ "id" hfs1leaf]
            exact hfs1r
        have hfs2ref : lookupKey
            (if ia = true then
              popKey (if rid = true then setKey fs "id" (.str (gen ctr)) else fs) "id"
             else (if rid = true then setKey fs "id" (.str (gen ctr)) else fs)) "reference"
            = lookupKey fs "reference" :=
          lookup_headFs2_ne gen fs rid ia ctr "reference" (by decide)
        have hfs2refleaf : ∀ w, lookupKey
            (if ia = true then
              popKey (if rid = true then setKey fs "id" (.str (gen ctr)) else fs) "id"
             else (if rid = true then setKey fs "id" (.str (gen ctr)) else fs)) "reference"
            = some w → isLeaf w = true := by
          intro w hw
          rw [hfs2ref] at hw
          exact hrefleaf w hw
        have hfs3r : refsFields fs3 = refsFields fs := by
          rcases hcase with ⟨v, sw, hw, hwt, hwh, hwm, hfs3⟩ | ⟨-, hfs3⟩
          · rw [hfs3, refsFields_setKey _ "reference" _ hfs2refleaf (by simp [isLeaf])]
            exact hfs2r
          · rw [hfs3]
            exact hfs2r
        have hfs1ok : okFields p (if rid = true then setKey fs "id" (.str (gen ctr)) else fs)
            = true := by
          cases rid
          · simpa using hok.2
          · simpa using okFields_setKey p fs "id" _ (by simp [isLeaf]) hok.2
        have hfs2ok : okFields p
            (if ia = true then
              popKey (if rid = true then setKey fs "id" (.str (gen ctr)) else fs) "id"
             else (if rid = true then setKey fs "id" (.str (gen ctr)) else fs)) = true := by
          cases ia
          · simpa using hfs1ok
          · simpa using okFields_popKey p _ "id" hfs1ok
        have hfs3ok : okFields p fs3 = true := by
          rcases hcase with ⟨v, sw, hw, hwt, hwh, hwm, hfs3⟩ | ⟨-, hfs3⟩
          · rw [hfs3]
            exact okFields_setKey p _ "reference" _ (by simp [isLeaf]) hfs2ok
          · rw [hfs3]
            exact hfs2ok
        obtain ⟨ihres, ihmap⟩ := ih2 fs3 ctr1 fs' ctr' hfs3ok hf
        rw [hfs3r] at ihres ihmap
        rcases href with href | ⟨sr, href, hsr⟩
        · have hrh : refHead fs = [] := by rw [refHead, href]
          have hrh' : refHead fs' = [] := by
            rw [refHead, regen_obj_ref_none gen m (fuel2 + 1) fs rid ia ctr fs' ctr' h href]
          constructor
          · intro r hr
            rw [refsObj, hrh, List.nil_append] at hr
            exact ihres r hr
          · rw [refsObj, refsObj, hrh, hrh', List.nil_append, List.nil_append, ihmap]
        · by_cases hse : sr = ""
          · subst hse
            have hrh : refHead fs = [] := by
              simp [refHead, href, jTruthy]
            have hrh' : refHead fs' = [] := by
              simp [refHead,
                regen_obj_ref_falsy gen m (fuel2 + 1) fs rid ia ctr fs' ctr' h _ href
                  (by norm_num [jTruthy]) (by simp [isLeaf]), jTruthy]
            constructor
            · intro r hr
              rw [refsObj, hrh, List.nil_append] at hr
              exact ihres r hr
            · rw [refsObj, refsObj, hrh, hrh', List.nil_append, List.nil_append, ihmap]
          · have htr : jTruthy (JVal.str sr) = true := by simp [jTruthy, hse]
            obtain ⟨sw, hwh, hwm, hout⟩ :=
              regen_obj_ref_truthy gen m (fuel2 + 1) fs rid ia ctr fs' ctr' h _ href htr
            have hrh : refHead fs = [JVal.str sr] := by simp [refHead, href, htr]
            have hswne : sw ≠ "" := hmv _ _ hwm
            have hrh' : refHead fs' = [JVal.str sw] := by
              simp [refHead, hout, jTruthy, hswne]
            constructor
            · intro r hr
              rw [refsObj, hrh] at hr
              rcases List.mem_cons.mp hr with hr | hr
              · subst hr
                exact ⟨hwh, by rw [hwm]; rfl⟩
              · exact ihres r hr
            · rw [refsObj, refsObj, hrh, hrh', ihmap]
              simp only [List.map, List.cons_append, List.nil_append, mres, hwm]
              rfl
      · intro fs ctr fs' ctr' hok h
        match fs with
        | [] =>
            simp only [regenerate_ids_fields] at h
            injection h with h
            obtain ⟨h1, h2⟩ := Prod.mk.injEq .. ▸ h
            constructor
            · intro r hr
              cases hr
            · rw [← h1]
              simp [refsFields, refsElems]
        | (f, v) :: rest =>
            simp only [okFields, Bool.and_eq_true] at hok
            match v with
            | .str sv =>
                simp only [regenerate_ids_fields] at h
                rcases hr : regenerate_ids_fields gen m fuel rest ctr with e | ⟨rest', ctr2⟩ <;>
                  rw [hr] at h <;> simp only [] at h
                · cases h
                · injection h with h
                  obtain ⟨ihres, ihmap⟩ := ih2 rest ctr rest' ctr2 hok.2 hr
                  constructor
                  · intro r hmem
                    rw [refsFields] at hmem
                    simp only [refsVal, List.nil_append] at hmem
                    exact ihres r hmem
                  · obtain ⟨h1, -⟩ := Prod.mk.inj h
                    rw [← h1]
                    rw [refsFields, refsFields]
                    simp only [refsVal, List.nil_append]
                    exact ihmap
            | .int nv =>
                simp only [regenerate_ids_fields] at h
                rcases hr : regenerate_ids_fields gen m fuel rest ctr with e | ⟨rest', ctr2⟩ <;>
                  rw [hr] at h <;> simp only [] at h
                · cases h
                · injection h with h
                  obtain ⟨ihres, ihmap⟩ := ih2 rest ctr rest' ctr2 hok.2 hr
                  constructor
                  · intro r hmem
                    rw [refsFields] at hmem
                    simp only [refsVal, List.nil_append] at hmem
                    exact ihres r hmem
                  · obtain ⟨h1, -⟩ := Prod.mk.inj h
                    rw [← h1]
                    rw [refsFields, refsFields]
                    simp only [refsVal, List.nil_append]
                    exact ihmap
            | .bool bv =>
                simp only [regenerate_ids_fields] at h
                rcases hr : regenerate_ids_fields gen m fuel rest ctr with e | ⟨rest', ctr2⟩ <;>
                  rw [hr] at h <;> simp only [] at h
                · cases h
                · injection h with h
                  obtain ⟨ihres, ihmap⟩ := ih2 rest ctr rest' ctr2 hok.2 hr
                  constructor
                  · intro r hmem
                    rw [refsFields] at hmem
                    simp only [refsVal, List.nil_append] at hmem
                    exact ihres r hmem
                  · obtain ⟨h1, -⟩ := Prod.mk.inj h
                    rw [← h1]
                    rw [refsFields, refsFields]
                    simp only [refsVal, List.nil_append]
                    exact ihmap
            | .null =>
                simp only [regenerate_ids_fields] at h
                rcases hr : regenerate_ids_fields gen m fuel rest ctr with e | ⟨rest', ctr2⟩ <;>
                  rw [hr] at h <;> simp only [] at h
                · cases h
                · injection h with h
                  obtain ⟨ihres, ihmap⟩ := ih2 rest ctr rest' ctr2 hok.2 hr
                  constructor
                  · intro r hmem
                    rw [refsFields] at hmem
                    simp only [refsVal, List.nil_append] at hmem
                    exact ihres r hmem
                  · obtain ⟨h1, -⟩ := Prod.mk.inj h
                    rw [← h1]
                    rw [refsFields, refsFields]
                    simp only [refsVal, List.nil_append]
                    exact ihmap
            | .arr es =>
                simp only [regenerate_ids_fields] at h
                rcases hl : regenerate_ids_of_list gen m fuel es
                    (f = "arguments" || f = "device_id") ctr with e | ⟨es2, ctr1⟩ <;>
                  rw [hl] at h <;> simp only [] at h
                · cases h
                · rcases hr : regenerate_ids_fields gen m fuel rest ctr1 with e | ⟨rest', ctr2⟩ <;>
                    rw [hr] at h <;> simp only [] at h
                  · cases h
                  · injection h with h
                    have hes : okElems p es = true := by
                      have := hok.1
                      rwa [okVal] at this
                    obtain ⟨ihres1, ihmap1⟩ := ih3 es _ ctr es2 ctr1 hes hl
                    obtain ⟨ihres2, ihmap2⟩ := ih2 rest ctr1 rest' ctr2 hok.2 hr
                    constructor
                    · intro r hmem
                      rw [refsFields] at hmem
                      simp only [refsVal] at hmem
                      rcases List.mem_append.mp hmem with hmem | hmem
                      · exact ihres1 r hmem
                      · exact ihres2 r hmem
                    · obtain ⟨h1, -⟩ := Prod.mk.inj h
                      rw [← h1]
                      rw [refsFields, refsFields]
                      simp only [refsVal]
                      rw [List.map_append, ihmap1, ihmap2]
            | .obj gs =>
                simp only [regenerate_ids_fields] at h
                rcases ho : regenerate_ids gen m fuel gs true
                    (f = "arguments" || f = "device_id") ctr with e | ⟨gs', ctr1⟩ <;>
                  rw [ho] at h <;> simp only [] at h
                · cases h
                · rcases hr : regenerate_ids_fields gen m fuel rest ctr1 with e | ⟨rest', ctr2⟩ <;>
                    rw [hr] at h <;> simp only [] at h
                  · cases h
                  · injection h with h
                    have hgs : okObj p gs = true := by
                      have := hok.1
                      rwa [okVal] at this
                    obtain ⟨ihres1, ihmap1⟩ := ih1 gs true _ ctr gs' ctr1 hgs ho
                    obtain ⟨ihres2, ihmap2⟩ := ih2 rest ctr1 rest' ctr2 hok.2 hr
                    constructor
                    · intro r hmem
                      rw [refsFields] at hmem
                      simp only [refsVal] at hmem
                      rcases List.mem_append.mp hmem with hmem | hmem
                      · exact ihres1 r (by rwa [refsObj])
                      · exact ihres2 r hmem
                    · obtain ⟨h1, -⟩ := Prod.mk.inj h
                      rw [← h1]
                      rw [refsFields, refsFields]
                      simp only [refsVal]
                      rw [List.map_append]
                      have e1 : refHead gs' ++ refsFields gs' = (refHead gs ++ refsFields gs).map (mres m) := by
                        have := ihmap1
                        rwa [refsObj, refsObj] at this
                      rw [e1, ihmap2]
      · intro es ia ctr es' ctr' hok h
        match es with
        | [] =>
            simp only [regenerate_ids_of_list] at h
            injection h with h
            obtain ⟨h1, h2⟩ := Prod.mk.injEq .. ▸ h
            constructor
            · intro r hr
              cases hr
            · rw [← h1]
              simp [refsFields, refsElems]
        | e :: rest =>
            match e with
            | .obj gs =>
                simp only [okElems, Bool.and_eq_true] at hok
                simp only [regenerate_ids_of_list] at h
                rcases ho : regenerate_ids gen m fuel gs true ia ctr with er | ⟨gs', ctr1⟩ <;>
                  rw [ho] at h <;> simp only [] at h
                · cases h
                · rcases hr : regenerate_ids_of_list gen m fuel rest ia ctr1 with er | ⟨rest', ctr2⟩ <;>
                    rw [hr] at h <;> simp only [] at h
                  · cases h
                  · injection h with h
                    have hgs : okObj p gs = true := by
                      rw [okObj, Bool.and_eq_true]
                      exact ⟨hok.1.1, hok.1.2⟩
                    obtain ⟨ihres1, ihmap1⟩ := ih1 gs true ia ctr gs' ctr1 hgs ho
                    obtain ⟨ihres2, ihmap2⟩ := ih3 rest ia ctr1 rest' ctr2 hok.2 hr
                    constructor
                    · intro r hmem
                      rw [refsElems] at hmem
                      rcases List.mem_append.mp hmem with hmem | hmem
                      rcases List.mem_append.mp hmem with hmem | hmem
                      · exact ihres1 r (by rw [refsObj]; exact List.mem_append_left _ hmem)
                      · exact ihres1 r (by rw [refsObj]; exact List.mem_append_right _ hmem)
                      · exact ihres2 r hmem
                    · obtain ⟨h1, -⟩ := Prod.mk.inj h
                      rw [← h1]
                      have e1 : refHead gs' ++ refsFields gs'
                          = (refHead gs ++ refsFields gs).map (mres m) := by
                        have := ihmap1
                        rwa [refsObj, refsObj] at this
                      rw [refsElems, refsElems, List.map_append, e1, ihmap2]
            | .str sv =>
                simp only [okElems] at hok
                simp only [regenerate_ids_of_list] at h
                rcases hr : regenerate_ids_of_list gen m fuel rest ia ctr with er | ⟨rest', ctr2⟩ <;>
                  rw [hr] at h <;> simp only [] at h
                · cases h
                · injection h with h
                  obtain ⟨ihres, ihmap⟩ := ih3 rest ia ctr rest' ctr2 hok hr
                  constructor
                  · intro r hmem
                    simp only [refsElems] at hmem
                    exact ihres r hmem
                  · obtain ⟨h1, -⟩ := Prod.mk.inj h
                    rw [← h1]
                    simp only [refsElems]
                    exact ihmap
            | .int nv =>
                simp only [okElems] at hok
                simp only [regenerate_ids_of_list] at h
                rcases hr : regenerate_ids_of_list gen m fuel rest ia ctr with er | ⟨rest', ctr2⟩ <;>
                  rw [hr] at h <;> simp only [] at h
                · cases h
                · injection h with h
                  obtain ⟨ihres, ihmap⟩ := ih3 rest ia ctr rest' ctr2 hok hr
                  constructor
                  · intro r hmem
                    simp only [refsElems] at hmem
                    exact ihres r hmem
                  · obtain ⟨h1, -⟩ := Prod.mk.inj h
                    rw [← h1]
                    simp only [refsElems]
                    exact ihmap
            | .bool bv =>
                simp only [okElems] at hok
                simp only [regenerate_ids_of_list] at h
                rcases hr : regenerate_ids_of_list gen m fuel rest ia ctr with er | ⟨rest', ctr2⟩ <;>
                  rw [hr] at h <;> simp only [] at h
                · cases h
                · injection h with h
                  obtain ⟨ihres, ihmap⟩ := ih3 rest ia ctr rest' ctr2 hok hr
                  constructor
                  · intro r hmem
                    simp only [refsElems] at hmem
                    exact ihres r hmem
                  · obtain ⟨h1, -⟩ := Prod.mk.inj h
                    rw [← h1]
                    simp only [refsElems]
                    exact ihmap
            | .null =>
                simp only [okElems] at hok
                simp only [regenerate_ids_of_list] at h
                rcases hr : regenerate_ids_of_list gen m fuel rest ia ctr with er | ⟨rest', ctr2⟩ <;>
                  rw [hr] at h <;> simp only [] at h
                · cases h
                · injection h with h
                  obtain ⟨ihres, ihmap⟩ := ih3 rest ia ctr rest' ctr2 hok hr
                  constructor
                  · intro r hmem
                    simp only [refsElems] at hmem
                    exact ihres r hmem
                  · obtain ⟨h1, -⟩ := Prod.mk.inj h
                    rw [← h1]
                    simp only [refsElems]
                    exact ihmap
            | .arr es2 =>
                simp only [okElems] at hok
                simp only [regenerate_ids_of_list] at h
                rcases hr : regenerate_ids_of_list gen m fuel rest ia ctr with er | ⟨rest', ctr2⟩ <;>
                  rw [hr] at h <;> simp only [] at h
                · cases h
                · injection h with h
                  obtain ⟨ihres, ihmap⟩ := ih3 rest ia ctr rest' ctr2 hok hr
                  constructor
                  · intro r hmem
                    simp only [refsElems] at hmem
                    exact ihres r hmem
                  · obtain ⟨h1, -⟩ := Prod.mk.inj h
                    rw [← h1]
                    simp only [refsElems]
                    exact ihmap

theorem popKey_of_none (fs : Fields) (k : String) (hm : lookupKey fs k = none) :
    popKey fs k = fs := by
  induction fs with
  | nil => rfl
  | cons hd tl ih =>
      obtain ⟨k1, v1⟩ := hd
      by_cases hk : k1 = k
      · rw [lookupKey, if_pos hk] at hm
        cases hm
      · rw [lookupKey, if_neg hk] at hm
        rw [popKey, if_neg hk, ih hm]

theorem allIdsF_cons (k : String) (v : JVal) (rest : Fields) :
    allIdsF ((k, v) :: rest) = idContrib k v ++ allIdsF rest := by
  rw [allIdsF, idContrib, List.append_assoc]

theorem allIdsF_setKey_replace (fs : Fields) (k : String) (v w : JVal)
    (hm : lookupKey fs k = some w) :
    ∃ pre post, allIdsF fs = pre ++ (idContrib k w ++ post)
      ∧ allIdsF (setKey fs k v) = pre ++ (idContrib k v ++ post) := by
  induction fs with
  | nil => cases hm
  | cons hd tl ih =>
      obtain ⟨k1, v1⟩ := hd
      by_cases hk : k1 = k
      · subst hk
        rw [lookupKey, if_pos rfl] at hm
        injection hm with hm
        subst hm
        refine ⟨[], allIdsF tl, ?_, ?_⟩
        · rw [allIdsF_cons, List.nil_append]
        · rw [setKey, if_pos rfl, allIdsF_cons, List.nil_append]
      · rw [lookupKey, if_neg hk] at hm
        obtain ⟨pre, post, h1, h2⟩ := ih hm
        refine ⟨idContrib k1 v1 ++ pre, post, ?_, ?_⟩
        · rw [allIdsF_cons, h1, List.append_assoc]
        · rw [setKey, if_neg hk, allIdsF_cons, h2, List.append_assoc]

theorem allIdsF_setKey_append (fs : Fields) (k : String) (v : JVal)
    (hm : lookupKey fs k = none) :
    allIdsF (setKey fs k v) = allIdsF fs ++ idContrib k v := by
  induction fs with
  | nil => simp [setKey, allIdsF_cons, allIdsF, idContrib]
  | cons hd tl ih =>
      obtain ⟨k1, v1⟩ := hd
      by_cases hk : k1 = k
      · rw [lookupKey, if_pos hk] at hm
        cases hm
      · rw [lookupKey, if_neg hk] at hm
        rw [setKey, if_neg hk, allIdsF_cons, allIdsF_cons, ih hm, List.append_assoc]

theorem allIdsF_popKey_replace (fs : Fields) (k : String) (w : JVal)
    (hm : lookupKey fs k = some w) :
    ∃ pre post, allIdsF fs = pre ++ (idContrib k w ++ post)
      ∧ allIdsF (popKey fs k) = pre ++ post := by
  induction fs with
  | nil => cases hm
  | cons hd tl ih =>
      obtain ⟨k1, v1⟩ := hd
      by_cases hk : k1 = k
      · subst hk
        rw [lookupKey, if_pos rfl] at hm
        injection hm with hm
        subst hm
        refine ⟨[], allIdsF tl, ?_, ?_⟩
        · rw [allIdsF_cons, List.nil_append]
        · rw [popKey, if_pos rfl, List.nil_append]
      · rw [lookupKey, if_neg hk] at hm
        obtain ⟨pre, post, h1, h2⟩ := ih hm
        refine ⟨idContrib k1 v1 ++ pre, post, ?_, ?_⟩
        · rw [allIdsF_cons, h1, List.append_assoc]
        · rw [popKey, if_neg hk, allIdsF_cons, h2, List.append_assoc]

theorem fieldsIdOk_setKey (fs : Fields) (k : String) (v : JVal)
    (hv : isLeaf v = true) (h : fieldsIdOk fs = true) :
    fieldsIdOk (setKey fs k v) = true := by
  induction fs with
  | nil => simp [setKey, fieldsIdOk, hv]
  | cons hd tl ih =>
      obtain ⟨k1, v1⟩ := hd
      rw [fieldsIdOk, List.all_cons, Bool.and_eq_true] at h
      by_cases hk : k1 = k
      · rw [setKey, if_pos hk, fieldsIdOk, List.all_cons, Bool.and_eq_true]
        exact ⟨by simp [hv], h.2⟩
      · rw [setKey, if_neg hk, fieldsIdOk, List.all_cons, Bool.and_eq_true]
        exact ⟨h.1, ih h.2⟩

theorem fieldsIdOk_popKey (fs : Fields) (k : String) (h : fieldsIdOk fs = true) :
    fieldsIdOk (popKey fs k) = true := by
  induction fs with
  | nil => simp [popKey, fieldsIdOk]
  | cons hd tl ih =>
      obtain ⟨k1, v1⟩ := hd
      rw [fieldsIdOk, List.all_cons, Bool.and_eq_true] at h
      by_cases hk : k1 = k
      · rw [popKey, if_pos hk]
        exact h.2
      · rw [popKey, if_neg hk, fieldsIdOk, List.all_cons, Bool.and_eq_true]
        exact ⟨h.1, ih h.2⟩

theorem countGen_refl (gen : Nat → String) (v : JVal) (a : Nat) :
    countGen gen v a a = 0 := by
  simp [countGen]

theorem countGen_trans (gen : Nat → String) (v : JVal) (a b c : Nat)
    (h1 : a ≤ b) (h2 : b ≤ c) :
    countGen gen v a b + countGen gen v b c = countGen gen v a c := by
  rw [countGen, countGen, countGen, ← List.countP_append]
  congr 1
  have hr := List.range'_append a (b - a) (c - b) 1
  have e1 : a + 1 * (b - a) = b := by omega
  have e2 : c - b + (b - a) = c - a := by omega
  rw [e1, e2] at hr
  exact hr

theorem countGen_single (gen : Nat → String) (v : JVal) (a : Nat) :
    countGen gen v a (a + 1) = if JVal.str (gen a) = v then 1 else 0 := by
  have e1 : a + 1 - a = 1 := by omega
  rw [countGen, e1, List.range'_succ, List.countP_cons]
  simp [List.range']

theorem countGen_inj_aux (gen : Nat → String) (hinj : Function.Injective gen)
    (k : Nat) : ∀ n a, countGen gen (.str (gen k)) a (a + n)
      = if a ≤ k ∧ k < a + n then 1 else 0 := by
  intro n
  induction n with
  | zero =>
      intro a
      rw [Nat.add_zero, countGen_refl]
      rw [if_neg (by omega : ¬(a ≤ k ∧ k < a))]
  | succ n ihn =>
      intro a
      have e1 : a + (n + 1) - a = n + 1 := by omega
      rw [countGen, e1, List.range'_succ, List.countP_cons]
      have e2 : List.countP (fun x => decide (JVal.str (gen x) = JVal.str (gen k)))
          (List.range' (a + 1) n) = countGen gen (.str (gen k)) (a + 1) (a + 1 + n) := by
        rw [countGen, (show a + 1 + n - (a + 1) = n by omega)]
      rw [e2, ihn (a + 1)]
      simp only [decide_eq_true_eq]
      by_cases hak : a = k
      · subst hak
        rw [if_neg (by omega : ¬(a + 1 ≤ a ∧ a < a + 1 + n))]
        rw [if_pos (rfl : JVal.str (gen a) = JVal.str (gen a))]
        rw [if_pos (by omega : a ≤ a ∧ a < a + (n + 1))]
      · have hne : ¬(JVal.str (gen a) = JVal.str (gen k)) := by
          intro hh
          injection hh with hh
          exact hak (hinj hh)
        rw [if_neg hne]
        by_cases hk2 : a + 1 ≤ k ∧ k < a + 1 + n
        · rw [if_pos hk2]
          rw [if_pos (by omega : a ≤ k ∧ k < a + (n + 1))]
        · rw [if_neg hk2]
          rw [if_neg (by omega : ¬(a ≤ k ∧ k < a + (n + 1)))]

theorem countGen_inj (gen : Nat → String) (hinj : Function.Injective gen)
    (k a b : Nat) (hab : a ≤ b) : countGen gen (.str (gen k)) a b
      = if a ≤ k ∧ k < b then 1 else 0 := by
  have e1 : b = a + (b - a) := by omega
  rw [e1, countGen_inj_aux gen hinj k (b - a) a]

theorem count_idContrib_id_str (s : String) (v : JVal) :
    (idContrib "id" (.str s)).count v = if JVal.str s = v then 1 else 0 := by
  rw [idContrib, if_pos rfl, allIdsV_of_isLeaf (JVal.str s) (by simp [isLeaf]),
    List.append_nil]
  by_cases hv : JVal.str s = v
  · subst hv
    simp [List.count_cons]
  · rw [if_neg hv]
    simp [List.count_cons, List.count_nil,
      (show v ≠ JVal.str s from fun hh => hv hh.symm)]

theorem count_idContrib_leaf_ne (k : String) (w : JVal) (hk : k ≠ "id")
    (hw : isLeaf w = true) : idContrib k w = [] := by
  rw [idContrib, if_neg hk, allIdsV_of_isLeaf w hw]
  rfl

theorem headStep_count (gen : Nat → String) (m : Mapping) (p : JVal → Bool)
    (fs : Fields) (rid ia : Bool) (ctr : Nat) (fs3 : Fields) (ctr1 : Nat)
    (hok : okObj p fs = true)
    (hh : headStep gen m fs rid ia ctr = .ok (fs3, ctr1)) :
    okFields p fs3 = true ∧ fieldsIdOk fs3 = true ∧
    (∀ v, (allIdsF fs3).count v ≤ (allIdsF fs).count v + countGen gen v ctr ctr1) ∧
    ctr ≤ ctr1 := by
  rw [okObj, Bool.and_eq_true] at hok
  obtain ⟨hctr1, hcase⟩ := headStep_ok_elim gen m fs rid ia ctr fs3 ctr1 hh
  obtain ⟨hnd, hid, href⟩ := okHead_elim p fs hok.1
  have hidleaf : ∀ w, lookupKey fs "id" = some w → isLeaf w = true := by
    intro w hw
    rcases hid with hid | ⟨si, hid⟩
    · rw [hw] at hid
      cases hid
    · rw [hw] at hid
      injection hid with hid
      rw [hid]
      simp [isLeaf]
  have hrefleaf : ∀ w, lookupKey fs "reference" = some w → isLeaf w = true := by
    intro w hw
    rcases href with href | ⟨sr, href, -⟩
    · rw [hw] at href
      cases href
    · rw [hw] at href
      injection href with href
      rw [href]
      simp [isLeaf]
  have hcount1 : ∀ v, (allIdsF (if rid = true then setKey fs "id" (.str (gen ctr)) else fs)).count v
      ≤ (allIdsF fs).count v + countGen gen v ctr ctr1 := by
    intro v
    cases rid
    · simp only [Bool.false_eq_true, if_false]
      rw [hctr1]
      simp [countGen_refl]
    · simp only [eq_self_iff_true, if_true]
      have hcg : countGen gen v ctr ctr1 = if JVal.str (gen ctr) = v then 1 else 0 := by
        rw [hctr1]
        simp only [eq_self_iff_true, if_true]
        exact countGen_single gen v ctr
      rw [hcg]
      rcases hlk : lookupKey fs "id" with _ | w
      · rw [allIdsF_setKey_append fs "id" _ hlk, List.count_append,
          count_idContrib_id_str]
      · obtain ⟨pre, post, h1, h2⟩ := allIdsF_setKey_replace fs "id" (.str (gen ctr)) w hlk
        rw [h1, h2, List.count_append, List.count_append, List.count_append,
          List.count_append, count_idContrib_id_str]
        omega
  have hcount2 : ∀ v, (allIdsF
      (if ia = true then popKey (if rid = true then setKey fs "id" (.str (gen ctr)) else fs) "id"
       else (if rid = true then setKey fs "id" (.str (gen ctr)) else fs))).count v
      ≤ (allIdsF (if rid = true then setKey fs "id" (.str (gen ctr)) else fs)).count v := by
    intro v
    cases ia
    · simp
    · simp only [eq_self_iff_true, if_true]
      rcases hlk : lookupKey (if rid = true then setKey fs "id" (.str (gen ctr)) else fs) "id"
          with _ | w
      · rw [popKey_of_none _ _ hlk]
      · obtain ⟨pre, post, h1, h2⟩ := allIdsF_popKey_replace _ "id" w hlk
        rw [h1, h2, List.count_append, List.count_append, List.count_append]
        omega
  have hcount3 : ∀ v, (allIdsF fs3).count v ≤ (allIdsF
      (if ia = true then popKey (if rid = true then setKey fs "id" (.str (gen ctr)) else fs) "id"
       else (if rid = true then setKey fs "id" (.str (gen ctr)) else fs))).count v := by
    intro v
    rcases hcase with ⟨w, sw, hw, hwt, hwh, hwm, hfs3⟩ | ⟨-, hfs3⟩
    · have hwleaf : isLeaf w = true := by
        apply hrefleaf
        rw [← lookup_headFs2_ne gen fs rid ia ctr "reference" (by decide)]
        exact hw
      obtain ⟨pre, post, h1, h2⟩ := allIdsF_setKey_replace _ "reference" (.str sw) w hw
      rw [hfs3, h1, h2]
      rw [count_idContrib_leaf_ne "reference" w (by decide) hwleaf,
        count_idContrib_leaf_ne "reference" (.str sw) (by decide) (by simp [isLeaf])]
    · rw [hfs3]
  have hfs1ok : okFields p (if rid = true then setKey fs "id" (.str (gen ctr)) else fs)
      = true := by
    cases rid
    · simpa using hok.2
    · simpa using okFields_setKey p fs "id" _ (by simp [isLeaf]) hok.2
  have hfs2ok : okFields p
      (if ia = true then popKey (if rid = true then setKey fs "id" (.str (gen ctr)) else fs) "id"
       else (if rid = true then setKey fs "id" (.str (gen ctr)) else fs)) = true := by
    cases ia
    · simpa using hfs1ok
    · simpa using okFields_popKey p _ "id" hfs1ok
  have hfs3ok : okFields p fs3 = true := by
    rcases hcase with ⟨w, sw, hw, hwt, hwh, hwm, hfs3⟩ | ⟨-, hfs3⟩
    · rw [hfs3]
      exact okFields_setKey p _ "reference" _ (by simp [isLeaf]) hfs2ok
    · rw [hfs3]
      exact hfs2ok
  have hfid : fieldsIdOk fs = true := fieldsIdOk_of_okHead p fs hok.1
  have hfid1 : fieldsIdOk (if rid = true then setKey fs "id" (.str (gen ctr)) else fs)
      = true := by
    cases rid
    · simpa using hfid
    · simpa using fieldsIdOk_setKey fs "id" _ (by simp [isLeaf]) hfid
  have hfid2 : fieldsIdOk
      (if ia = true then popKey (if rid = true then setKey fs "id" (.str (gen ctr)) else fs) "id"
       else (if rid = true then setKey fs "id" (.str (gen ctr)) else fs)) = true := by
    cases ia
    · simpa using hfid1
    · simpa using fieldsIdOk_popKey _ "id" hfid1
  have hfid3 : fieldsIdOk fs3 = true := by
    rcases hcase with ⟨w, sw, hw, hwt, hwh, hwm, hfs3⟩ | ⟨-, hfs3⟩
    · rw [hfs3]
      exact fieldsIdOk_setKey _ "reference" _ (by simp [isLeaf]) hfid2
    · rw [hfs3]
      exact hfid2
  refine ⟨hfs3ok, hfid3, ?_, ?_⟩
  · intro v
    have := hcount1 v
    have := hcount2 v
    have := hcount3 v
    omega
  · rw [hctr1]
    cases rid <;> simp <;> omega

theorem regen_count (gen : Nat → String) (m : Mapping) (p : JVal → Bool) : ∀ fuel : Nat,
    (∀ fs rid ia ctr fs' ctr', okObj p fs = true →
      regenerate_ids gen m fuel fs rid ia ctr = .ok (fs', ctr') →
      ∀ v, (allIdsF fs').count v ≤ (allIdsF fs).count v + countGen gen v ctr ctr')
    ∧ (∀ fs ctr fs' ctr', okFields p fs = true → fieldsIdOk fs = true →
      regenerate_ids_fields gen m fuel fs ctr = .ok (fs', ctr') →
      ∀ v, (allIdsF fs').count v ≤ (allIdsF fs).count v + countGen gen v ctr ctr')
    ∧ (∀ es ia ctr es' ctr', okElems p es = true →
      regenerate_ids_of_list gen m fuel es ia ctr = .ok (es', ctr') →
      ∀ v, (allIdsL es').count v ≤ (allIdsL es).count v + countGen gen v ctr ctr') := by
  intro fuel
  induction fuel with
  | zero =>
      refine ⟨?_, ?_, ?_⟩
      · intro fs rid ia ctr fs' ctr' hok h
        simp only [regenerate_ids] at h
        cases h
      · intro fs ctr fs' ctr' hok hfid h
        simp only [regenerate_ids_fields] at h
        cases h
      · intro es ia ctr es' ctr' hok h
        simp only [regenerate_ids_of_list] at h
        cases h
  | succ fuel ih =>
      obtain ⟨ih1, ih2, ih3⟩ := ih
      refine ⟨?_, ?_, ?_⟩
      · intro fs rid ia ctr fs' ctr' hok h
        obtain ⟨fuel2, fs3, ctr1, hfe, hh, hf⟩ :=
          regen_obj_elim gen m (fuel + 1) fs rid ia ctr fs' ctr' h
        have hfu : fuel2 = fuel := by omega
        rw [hfu] at hf
        obtain ⟨hok3, hfid3, hcnt3, hc31⟩ := headStep_count gen m p fs rid ia ctr fs3 ctr1 hok hh
        have hcf := ih2 fs3 ctr1 fs' ctr' hok3 hfid3 hf
        have hc1 := (regen_fields_align gen m fuel fs3 ctr1 fs' ctr' hf).1
        intro v
        have e1 := countGen_trans gen v ctr ctr1 ctr' hc31 hc1
        have := hcnt3 v
        have := hcf v
        omega
      · intro fs ctr fs' ctr' hok hfid h
        match fs with
        | [] =>
            simp only [regenerate_ids_fields] at h
            injection h with h
            obtain ⟨h1, h2⟩ := Prod.mk.inj h
            intro v
            rw [← h1]
            simp only [allIdsF, List.count_nil]
            omega
        | (f, v0) :: rest =>
            simp only [okFields, Bool.and_eq_true] at hok
            rw [fieldsIdOk, List.all_cons, Bool.and_eq_true] at hfid
            have hfidr : fieldsIdOk rest = true := hfid.2
            match v0 with
            | .str sv =>
                simp only [regenerate_ids_fields] at h
                rcases hr : regenerate_ids_fields gen m fuel rest ctr with e | ⟨rest', ctr2⟩ <;>
                  rw [hr] at h <;> simp only [] at h
                · cases h
                · injection h with h
                  obtain ⟨h1, h2⟩ := Prod.mk.inj h
                  intro v
                  rw [← h1, ← h2, allIdsF_cons, allIdsF_cons, List.count_append,
                    List.count_append]
                  have := ih2 rest ctr rest' ctr2 hok.2 hfidr hr v
                  omega
            | .int nv =>
                simp only [regenerate_ids_fields] at h
                rcases hr : regenerate_ids_fields gen m fuel rest ctr with e | ⟨rest', ctr2⟩ <;>
                  rw [hr] at h <;> simp only [] at h
                · cases h
                · injection h with h
                  obtain ⟨h1, h2⟩ := Prod.mk.inj h
                  intro v
                  rw [← h1, ← h2, allIdsF_cons, allIdsF_cons, List.count_append,
                    List.count_append]
                  have := ih2 rest ctr rest' ctr2 hok.2 hfidr hr v
                  omega
            | .bool bv =>
                simp only [regenerate_ids_fields] at h
                rcases hr : regenerate_ids_fields gen m fuel rest ctr with e | ⟨rest', ctr2⟩ <;>
                  rw [hr] at h <;> simp only [] at h
                · cases h
                · injection h with h
                  obtain ⟨h1, h2⟩ := Prod.mk.inj h
                  intro v
                  rw [← h1, ← h2, allIdsF_cons, allIdsF_cons, List.count_append,
                    List.count_append]
                  have := ih2 rest ctr rest' ctr2 hok.2 hfidr hr v
                  omega
            | .null =>
                simp only [regenerate_ids_fields] at h
                rcases hr : regenerate_ids_fields gen m fuel rest ctr with e | ⟨rest', ctr2⟩ <;>
                  rw [hr] at h <;> simp only [] at h
                · cases h
                · injection h with h
                  obtain ⟨h1, h2⟩ := Prod.mk.inj h
                  intro v
                  rw [← h1, ← h2, allIdsF_cons, allIdsF_cons, List.count_append,
                    List.count_append]
                  have := ih2 rest ctr rest' ctr2 hok.2 hfidr hr v
                  omega
            | .arr es =>
                have hfne : ¬(f = "id") := by
                  intro hf2
                  have := hfid.1
                  rw [hf2] at this
                  simp [isLeaf] at this
                simp only [regenerate_ids_fields] at h
                rcases hl : regenerate_ids_of_list gen m fuel es
                    (f = "arguments" || f = "device_id") ctr with e | ⟨es2, ctr1⟩ <;>
                  rw [hl] at h <;> simp only [] at h
                · cases h
                · rcases hr : regenerate_ids_fields gen m fuel rest ctr1 with e | ⟨rest', ctr2⟩ <;>
                    rw [hr] at h <;> simp only [] at h
                  · cases h
                  · injection h with h
                    obtain ⟨h1, h2⟩ := Prod.mk.inj h
                    have hes : okElems p es = true := by
                      have := hok.1
                      rwa [okVal] at this
                    intro v
                    rw [← h1, ← h2, allIdsF_cons, allIdsF_cons, List.count_append,
                      List.count_append]
                    simp only [idContrib, if_neg hfne, List.nil_append, allIdsV]
                    have hcl := ih3 es _ ctr es2 ctr1 hes hl v
                    have hcr := ih2 rest ctr1 rest' ctr2 hok.2 hfidr hr v
                    have hm1 := (regen_list_align gen m fuel es _ ctr es2 ctr1 hl).1
                    have hm2 := (regen_fields_align gen m fuel rest ctr1 rest' ctr2 hr).1
                    have := countGen_trans gen v ctr ctr1 ctr2 hm1 hm2
                    omega
            | .obj gs =>
                have hfne : ¬(f = "id") := by
                  intro hf2
                  have := hfid.1
                  rw [hf2] at this
                  simp [isLeaf] at this
                simp only [regenerate_ids_fields] at h
                rcases ho : regenerate_ids gen m fuel gs true
                    (f = "arguments" || f = "device_id") ctr with e | ⟨gs', ctr1⟩ <;>
                  rw [ho] at h <;> simp only [] at h
                · cases h
                · rcases hr : regenerate_ids_fields gen m fuel rest ctr1 with e | ⟨rest', ctr2⟩ <;>
                    rw [hr] at h <;> simp only [] at h
                  · cases h
                  · injection h with h
                    obtain ⟨h1, h2⟩ := Prod.mk.inj h
                    have hgs : okObj p gs = true := by
                      have := hok.1
                      rwa [okVal] at this
                    intro v
                    rw [← h1, ← h2, allIdsF_cons, allIdsF_cons, List.count_append,
                      List.count_append]
                    simp only [idContrib, if_neg hfne, List.nil_append, allIdsV]
                    have hcl := ih1 gs true _ ctr gs' ctr1 hgs ho v
                    have hcr := ih2 rest ctr1 rest' ctr2 hok.2 hfidr hr v
                    have hm1 := regen_ids_ctr_le gen m fuel gs true _ ctr gs' ctr1 ho
                    have hm2 := (regen_fields_align gen m fuel rest ctr1 rest' ctr2 hr).1
                    have := countGen_trans gen v ctr ctr1 ctr2 hm1 hm2
                    omega
      · intro es ia ctr es' ctr' hok h
        match es with
        | [] =>
            simp only [regenerate_ids_of_list] at h
            injection h with h
            obtain ⟨h1, h2⟩ := Prod.mk.inj h
            intro v
            rw [← h1]
            simp only [allIdsL, List.count_nil]
            omega
        | e :: rest =>
            match e with
            | .obj gs =>
                simp only [okElems, Bool.and_eq_true] at hok
                simp only [regenerate_ids_of_list] at h
                rcases ho : regenerate_ids gen m fuel gs true ia ctr with er | ⟨gs', ctr1⟩ <;>
                  rw [ho] at h <;> simp only [] at h
                · cases h
                · rcases hr : regenerate_ids_of_list gen m fuel rest ia ctr1
                      with er | ⟨rest', ctr2⟩ <;>
                    rw [hr] at h <;> simp only [] at h
                  · cases h
                  · injection h with h
                    obtain ⟨h1, h2⟩ := Prod.mk.inj h
                    have hgs : okObj p gs = true := by
                      rw [okObj, Bool.and_eq_true]
                      exact ⟨hok.1.1, hok.1.2⟩
                    intro v
                    rw [← h1, ← h2, allIdsL, allIdsL, List.count_append, List.count_append,
                      allIdsV, allIdsV]
                    have hcl := ih1 gs true ia ctr gs' ctr1 hgs ho v
                    have hcr := ih3 rest ia ctr1 rest' ctr2 hok.2 hr v
                    have hm1 := regen_ids_ctr_le gen m fuel gs true ia ctr gs' ctr1 ho
                    have hm2 := (regen_list_align gen m fuel rest ia ctr1 rest' ctr2 hr).1
                    have := countGen_trans gen v ctr ctr1 ctr2 hm1 hm2
                    omega
            | .str sv =>
                simp only [okElems] at hok
                simp only [regenerate_ids_of_list] at h
                rcases hr : regenerate_ids_of_list gen m fuel rest ia ctr
                    with er | ⟨rest', ctr2⟩ <;>
                  rw [hr] at h <;> simp only [] at h
                · cases h
                · injection h with h
                  obtain ⟨h1, h2⟩ := Prod.mk.inj h
                  intro v
                  rw [← h1, ← h2, allIdsL, allIdsL, List.count_append, List.count_append]
                  have := ih3 rest ia ctr rest' ctr2 hok hr v
                  omega
            | .int nv =>
                simp only [okElems] at hok
                simp only [regenerate_ids_of_list] at h
                rcases hr : regenerate_ids_of_list gen m fuel rest ia ctr
                    with er | ⟨rest', ctr2⟩ <;>
                  rw [hr] at h <;> simp only [] at h
                · cases h
                · injection h with h
                  obtain ⟨h1, h2⟩ := Prod.mk.inj h
                  intro v
                  rw [← h1, ← h2, allIdsL, allIdsL, List.count_append, List.count_append]
                  have := ih3 rest ia ctr rest' ctr2 hok hr v
                  omega
            | .bool bv =>
                simp only [okElems] at hok
                simp only [regenerate_ids_of_list] at h
                rcases hr : regenerate_ids_of_list gen m fuel rest ia ctr
                    with er | ⟨rest', ctr2⟩ <;>
                  rw [hr] at h <;> simp only [] at h
                · cases h
                · injection h with h
                  obtain ⟨h1, h2⟩ := Prod.mk.inj h
                  intro v
                  rw [← h1, ← h2, allIdsL, allIdsL, List.count_append, List.count_append]
                  have := ih3 rest ia ctr rest' ctr2 hok hr v
                  omega
            | .null =>
                simp only [okElems] at hok
                simp only [regenerate_ids_of_list] at h
                rcases hr : regenerate_ids_of_list gen m fuel rest ia ctr
                    with er | ⟨rest', ctr2⟩ <;>
                  rw [hr] at h <;> simp only [] at h
                · cases h
                · injection h with h
                  obtain ⟨h1, h2⟩ := Prod.mk.inj h
                  intro v
                  rw [← h1, ← h2, allIdsL, allIdsL, List.count_append, List.count_append]
                  have := ih3 rest ia ctr rest' ctr2 hok hr v
                  omega
            | .arr es2 =>
                simp only [okElems] at hok
                simp only [regenerate_ids_of_list] at h
                rcases hr : regenerate_ids_of_list gen m fuel rest ia ctr
                    with er | ⟨rest', ctr2⟩ <;>
                  rw [hr] at h <;> simp only [] at h
                · cases h
                · injection h with h
                  obtain ⟨h1, h2⟩ := Prod.mk.inj h
                  intro v
                  rw [← h1, ← h2, allIdsL, allIdsL, List.count_append, List.count_append]
                  have := ih3 rest ia ctr rest' ctr2 hok hr v
                  omega

theorem regen_stray (gen : Nat → String) (m : Mapping) (p : JVal → Bool) : ∀ fuel : Nat,
    (∀ fs rid ia ctr fs' ctr', okObj p fs = true →
      regenerate_ids gen m fuel fs rid ia ctr = .ok (fs', ctr') →
      strayObj ia fs' = [])
    ∧ (∀ fs ctr fs' ctr', okFields p fs = true →
      regenerate_ids_fields gen m fuel fs ctr = .ok (fs', ctr') →
      strayFields fs' = [])
    ∧ (∀ es ia ctr es' ctr', okElems p es = true →
      regenerate_ids_of_list gen m fuel es ia ctr = .ok (es', ctr') →
      strayElems ia es' = []) := by
  intro fuel
  induction fuel with
  | zero =>
      refine ⟨?_, ?_, ?_⟩
      · intro fs rid ia ctr fs' ctr' hok h
        simp only [regenerate_ids] at h
        cases h
      · intro fs ctr fs' ctr' hok h
        simp only [regenerate_ids_fields] at h
        cases h
      · intro es ia ctr es' ctr' hok h
        simp only [regenerate_ids_of_list] at h
        cases h
  | succ fuel ih =>
      obtain ⟨ih1, ih2, ih3⟩ := ih
      refine ⟨?_, ?_, ?_⟩
      · intro fs rid ia ctr fs' ctr' hok h
        obtain ⟨fuel2, fs3, ctr1, hfe, hh, hf⟩ :=
          regen_obj_elim gen m (fuel + 1) fs rid ia ctr fs' ctr' h
        have hfu : fuel2 = fuel := by omega
        rw [hfu] at hf
        obtain ⟨hok3, -, -, -⟩ := headStep_count gen m p fs rid ia ctr fs3 ctr1 hok hh
        have hsf : strayFields fs' = [] := ih2 fs3 ctr1 fs' ctr' hok3 hf
        rw [strayObj, hsf]
        cases ia
        · simp
        · have hnd : (keysOf fs).Nodup := by
            rw [okObj, Bool.and_eq_true] at hok
            exact (okHead_elim p fs hok.1).1
          have hnone := regen_obj_id_pop gen m (fuel + 1) fs rid ctr fs' ctr' h hnd
          simp [idEntry, hnone]
      · intro fs ctr fs' ctr' hok h
        match fs with
        | [] =>
            simp only [regenerate_ids_fields] at h
            injection h with h
            obtain ⟨h1, h2⟩ := Prod.mk.inj h
            rw [← h1]
            rfl
        | (f, v0) :: rest =>
            simp only [okFields, Bool.and_eq_true] at hok
            match v0 with
            | .str sv =>
                simp only [regenerate_ids_fields] at h
                rcases hr : regenerate_ids_fields gen m fuel rest ctr with e | ⟨rest', ctr2⟩ <;>
                  rw [hr] at h <;> simp only [] at h
                · cases h
                · injection h with h
                  obtain ⟨h1, h2⟩ := Prod.mk.inj h
                  rw [← h1]
                  simp only [strayFields, strayVal, List.nil_append]
                  exact ih2 rest ctr rest' ctr2 hok.2 hr
            | .int nv =>
                simp only [regenerate_ids_fields] at h
                rcases hr : regenerate_ids_fields gen m fuel rest ctr with e | ⟨rest', ctr2⟩ <;>
                  rw [hr] at h <;> simp only [] at h
                · cases h
                · injection h with h
                  obtain ⟨h1, h2⟩ := Prod.mk.inj h
                  rw [← h1]
                  simp only [strayFields, strayVal, List.nil_append]
                  exact ih2 rest ctr rest' ctr2 hok.2 hr
            | .bool bv =>
                simp only [regenerate_ids_fields] at h
                rcases hr : regenerate_ids_fields gen m fuel rest ctr with e | ⟨rest', ctr2⟩ <;>
                  rw [hr] at h <;> simp only [] at h
                · cases h
                · injection h with h
                  obtain ⟨h1, h2⟩ := Prod.mk.inj h
                  rw [← h1]
                  simp only [strayFields, strayVal, List.nil_append]
                  exact ih2 rest ctr rest' ctr2 hok.2 hr
            | .null =>
                simp only [regenerate_ids_fields] at h
                rcases hr : regenerate_ids_fields gen m fuel rest ctr with e | ⟨rest', ctr2⟩ <;>
                  rw [hr] at h <;> simp only [] at h
                · cases h
                · injection h with h
                  obtain ⟨h1, h2⟩ := Prod.mk.inj h
                  rw [← h1]
                  simp only [strayFields, strayVal, List.nil_append]
                  exact ih2 rest ctr rest' ctr2 hok.2 hr
            | .arr es =>
                simp only [regenerate_ids_fields] at h
                rcases hl : regenerate_ids_of_list gen m fuel es
                    (f = "arguments" || f = "device_id") ctr with e | ⟨es2, ctr1⟩ <;>
                  rw [hl] at h <;> simp only [] at h
                · cases h
                · rcases hr : regenerate_ids_fields gen m fuel rest ctr1 with e | ⟨rest', ctr2⟩ <;>
                    rw [hr] at h <;> simp only [] at h
                  · cases h
                  · injection h with h
                    obtain ⟨h1, h2⟩ := Prod.mk.inj h
                    rw [← h1]
                    have hes : okElems p es = true := by
                      have := hok.1
                      rwa [okVal] at this
                    simp only [strayFields, strayVal]
                    rw [ih3 es _ ctr es2 ctr1 hes hl,
                      ih2 rest ctr1 rest' ctr2 hok.2 hr]
                    rfl
            | .obj gs =>
                simp only [regenerate_ids_fields] at h
                rcases ho : regenerate_ids gen m fuel gs true
                    (f = "arguments" || f = "device_id") ctr with e | ⟨gs', ctr1⟩ <;>
                  rw [ho] at h <;> simp only [] at h
                · cases h
                · rcases hr : regenerate_ids_fields gen m fuel rest ctr1 with e | ⟨rest', ctr2⟩ <;>
                    rw [hr] at h <;> simp only [] at h
                  · cases h
                  · injection h with h
                    obtain ⟨h1, h2⟩ := Prod.mk.inj h
                    rw [← h1]
                    have hgs : okObj p gs = true := by
                      have := hok.1
                      rwa [okVal] at this
                    have hso := ih1 gs true _ ctr gs' ctr1 hgs ho
                    rw [strayObj] at hso
                    simp only [strayFields, strayVal]
                    rw [hso, ih2 rest ctr1 rest' ctr2 hok.2 hr]
                    rfl
      · intro es ia ctr es' ctr' hok h
        match es with
        | [] =>
            simp only [regenerate_ids_of_list] at h
            injection h with h
            obtain ⟨h1, h2⟩ := Prod.mk.inj h
            rw [← h1]
            rfl
        | e :: rest =>
            match e with
            | .obj gs =>
                simp only [okElems, Bool.and_eq_true] at hok
                simp only [regenerate_ids_of_list] at h
                rcases ho : regenerate_ids gen m fuel gs true ia ctr with er | ⟨gs', ctr1⟩ <;>
                  rw [ho] at h <;> simp only [] at h
                · cases h
                · rcases hr : regenerate_ids_of_list gen m fuel rest ia ctr1
                      with er | ⟨rest', ctr2⟩ <;>
                    rw [hr] at h <;> simp only [] at h
                  · cases h
                  · injection h with h
                    obtain ⟨h1, h2⟩ := Prod.mk.inj h
                    rw [← h1]
                    have hgs : okObj p gs = true := by
                      rw [okObj, Bool.and_eq_true]
                      exact ⟨hok.1.1, hok.1.2⟩
                    have hso := ih1 gs true ia ctr gs' ctr1 hgs ho
                    rw [strayObj] at hso
                    obtain ⟨hsa, hsb⟩ := List.append_eq_nil.mp hso
                    simp only [strayElems]
                    simp [hsa, hsb, ih3 rest ia ctr1 rest' ctr2 hok.2 hr]
            | .str sv =>
                simp only [okElems] at hok
                simp only [regenerate_ids_of_list] at h
                rcases hr : regenerate_ids_of_list gen m fuel rest ia ctr
                    with er | ⟨rest', ctr2⟩ <;>
                  rw [hr] at h <;> simp only [] at h
                · cases h
                · injection h with h
                  obtain ⟨h1, h2⟩ := Prod.mk.inj h
                  rw [← h1]
                  simp only [strayElems]
                  exact ih3 rest ia ctr rest' ctr2 hok hr
            | .int nv =>
                simp only [okElems] at hok
                simp only [regenerate_ids_of_list] at h
                rcases hr : regenerate_ids_of_list gen m fuel rest ia ctr
                    with er | ⟨rest', ctr2⟩ <;>
                  rw [hr] at h <;> simp only [] at h
                · cases h
                · injection h with h
                  obtain ⟨h1, h2⟩ := Prod.mk.inj h
                  rw [← h1]
                  simp only [strayElems]
                  exact ih3 rest ia ctr rest' ctr2 hok hr
            | .bool bv =>
                simp only [okElems] at hok
                simp only [regenerate_ids_of_list] at h
                rcases hr : regenerate_ids_of_list gen m fuel rest ia ctr
                    with er | ⟨rest', ctr2⟩ <;>
                  rw [hr] at h <;> simp only [] at h
                · cases h
                · injection h with h
                  obtain ⟨h1, h2⟩ := Prod.mk.inj h
                  rw [← h1]
                  simp only [strayElems]
                  exact ih3 rest ia ctr rest' ctr2 hok hr
            | .null =>
                simp only [okElems] at hok
                simp only [regenerate_ids_of_list] at h
                rcases hr : regenerate_ids_of_list gen m fuel rest ia ctr
                    with er | ⟨rest', ctr2⟩ <;>
                  rw [hr] at h <;> simp only [] at h
                · cases h
                · injection h with h
                  obtain ⟨h1, h2⟩ := Prod.mk.inj h
                  rw [← h1]
                  simp only [strayElems]
                  exact ih3 rest ia ctr rest' ctr2 hok hr
            | .arr es2 =>
                simp only [okElems] at hok
                simp only [regenerate_ids_of_list] at h
                rcases hr : regenerate_ids_of_list gen m fuel rest ia ctr
                    with er | ⟨rest', ctr2⟩ <;>
                  rw [hr] at h <;> simp only [] at h
                · cases h
                · injection h with h
                  obtain ⟨h1, h2⟩ := Prod.mk.inj h
                  rw [← h1]
                  simp only [strayElems]
                  exact ih3 rest ia ctr rest' ctr2 hok hr

theorem mem_oldIds_iff_lastIdx (v : JVal) : ∀ as : List JVal,
    v ∈ oldIdsOf as ↔ (lastIdxOf as v).isSome := by
  intro as
  induction as with
  | nil => simp [oldIdsOf, lastIdxOf]
  | cons a rest ih =>
      cases a with
      | obj afs =>
          simp only [oldIdsOf, lastIdxOf, List.mem_append]
          rcases hr : lastIdxOf rest v with _ | j <;> rw [hr] at ih
          · rcases hl : lookupKey afs "id" with _ | w
            · simp [idEntry, hl, ih]
            · by_cases hwv : w = v
              · subst hwv
                simp [idEntry, hl, ih]
              · simp [idEntry, hl, ih, hwv, Ne.symm hwv]
          · simp [ih]
      | str sv =>
          simp only [oldIdsOf, lastIdxOf]
          rcases hr : lastIdxOf rest v with _ | j <;> rw [hr] at ih <;> simp [ih]
      | int nv =>
          simp only [oldIdsOf, lastIdxOf]
          rcases hr : lastIdxOf rest v with _ | j <;> rw [hr] at ih <;> simp [ih]
      | bool bv =>
          simp only [oldIdsOf, lastIdxOf]
          rcases hr : lastIdxOf rest v with _ | j <;> rw [hr] at ih <;> simp [ih]
      | null =>
          simp only [oldIdsOf, lastIdxOf]
          rcases hr : lastIdxOf rest v with _ | j <;> rw [hr] at ih <;> simp [ih]
      | arr es =>
          simp only [oldIdsOf, lastIdxOf]
          rcases hr : lastIdxOf rest v with _ | j <;> rw [hr] at ih <;> simp [ih]

theorem buildMap_lookup (gen : Nat → String) : ∀ (as : List JVal) (m0 : Mapping) (ctr : Nat)
    (v : JVal), mapLookup (buildMap gen as m0 ctr) v =
      (match lastIdxOf as v with
       | some j => some (gen (ctr + j))
       | none => mapLookup m0 v) := by
  intro as
  induction as with
  | nil => intro m0 ctr v; rfl
  | cons a rest ih =>
      intro m0 ctr v
      cases a with
      | obj afs =>
          rw [buildMap, ih]
          simp only [lastIdxOf]
          rcases hr : lastIdxOf rest v with _ | j
          · rcases hl : lookupKey afs "id" with _ | prev
            · simp only [hl]
              simp [hl]
            · by_cases hpv : prev = v
              · subst hpv
                simp [hl, mapLookup_insert_self]
              · simp only [hl]
                simp [hl, hpv, mapLookup_insert_ne m0 prev v (gen ctr) (Ne.symm hpv)]
          · simp only []
            rw [show ctr + (j + 1) = ctr + 1 + j by omega]
      | str sv =>
          simp only [buildMap]
          rw [ih]
          simp only [lastIdxOf]
          rcases hr : lastIdxOf rest v with _ | j
          · simp
          · simp only []
            rw [show ctr + (j + 1) = ctr + 1 + j by omega]
      | int nv =>
          simp only [buildMap]
          rw [ih]
          simp only [lastIdxOf]
          rcases hr : lastIdxOf rest v with _ | j
          · simp
          · simp only []
            rw [show ctr + (j + 1) = ctr + 1 + j by omega]
      | bool bv =>
          simp only [buildMap]
          rw [ih]
          simp only [lastIdxOf]
          rcases hr : lastIdxOf rest v with _ | j
          · simp
          · simp only []
            rw [show ctr + (j + 1) = ctr + 1 + j by omega]
      | null =>
          simp only [buildMap]
          rw [ih]
          simp only [lastIdxOf]
          rcases hr : lastIdxOf rest v with _ | j
          · simp
          · simp only []
            rw [show ctr + (j + 1) = ctr + 1 + j by omega]
      | arr es =>
          simp only [buildMap]
          rw [ih]
          simp only [lastIdxOf]
          rcases hr : lastIdxOf rest v with _ | j
          · simp
          · simp only []
            rw [show ctr + (j + 1) = ctr + 1 + j by omega]

theorem workflowMapping_lookup (gen : Nat → String) (wf : Fields) (ctr : Nat) (v : JVal) :
    mapLookup (workflowMapping gen wf ctr) v =
      (lastIdxOf (wfActions wf) v).map (fun j => gen (ctr + 1 + j)) := by
  rw [workflowMapping, buildMap_lookup]
  rcases h : lastIdxOf (wfActions wf) v with _ | j <;> rfl

theorem isLeaf_of_jHashable (v : JVal) (h : jHashable v = true) : isLeaf v = true := by
  cases v <;> simp_all [jHashable, isLeaf]

theorem mapping_pass_elim (gen : Nat → String) : ∀ (as : List JVal) (m0 : Mapping) (ctr : Nat)
    (as1 : List JVal) (m : Mapping) (ctr1 : Nat),
    mapping_pass gen as m0 ctr = .ok (as1, m, ctr1) →
    m = buildMap gen as m0 ctr ∧ ctr1 = ctr + as.length ∧ as1.length = as.length ∧
    ∀ i, i < as.length → ∃ afs prev,
      as[i]? = some (.obj afs) ∧ lookupKey afs "id" = some prev ∧ jHashable prev = true ∧
      as1[i]? = some (.obj (setKey afs "id" (.str (gen (ctr + i))))) := by
  intro as
  induction as with
  | nil =>
      intro m0 ctr as1 m ctr1 h
      simp only [mapping_pass] at h
      injection h with h
      obtain ⟨h1, h23⟩ := Prod.mk.inj h
      obtain ⟨h2, h3⟩ := Prod.mk.inj h23
      refine ⟨h2.symm, by rw [← h3]; simp, by rw [← h1], ?_⟩
      intro i hi
      simp at hi
  | cons a rest ih =>
      intro m0 ctr as1 m ctr1 h
      cases a with
      | obj afs =>
          simp only [mapping_pass] at h
          rcases hl : lookupKey afs "id" with _ | prev <;> rw [hl] at h <;> simp only [] at h
          · cases h
          · by_cases hh : jHashable prev
            · rw [if_pos hh] at h
              rcases hmp : mapping_pass gen rest (mapInsert m0 prev (gen ctr)) (ctr + 1)
                  with e | ⟨rest1, m2, ctr2⟩ <;> rw [hmp] at h <;> simp only [] at h
              · cases h
              · injection h with h
                obtain ⟨h1, h23⟩ := Prod.mk.inj h
                obtain ⟨h2, h3⟩ := Prod.mk.inj h23
                obtain ⟨hmb, hctr, hlen, hget⟩ := ih _ _ _ _ _ hmp
                refine ⟨?_, ?_, ?_, ?_⟩
                · rw [← h2, hmb]
                  simp only [buildMap, hl]
                · rw [← h3, hctr, List.length_cons]
                  omega
                · rw [← h1, List.length_cons, List.length_cons, hlen]
                · intro i hi
                  match i with
                  | 0 =>
                      refine ⟨afs, prev, by simp, hl, hh, ?_⟩
                      rw [← h1]
                      simp
                  | i + 1 =>
                      rw [List.length_cons] at hi
                      obtain ⟨afs2, prev2, hg1, hg2, hg3, hg4⟩ := hget i (by omega)
                      refine ⟨afs2, prev2, by simpa using hg1, hg2, hg3, ?_⟩
                      rw [← h1]
                      rw [show ctr + (i + 1) = ctr + 1 + i by omega]
                      simpa using hg4
            · rw [if_neg hh] at h
              cases h
      | str sv =>
          simp only [mapping_pass] at h
          cases h
      | int nv =>
          simp only [mapping_pass] at h
          cases h
      | bool bv =>
          simp only [mapping_pass] at h
          cases h
      | null =>
          simp only [mapping_pass] at h
          cases h
      | arr es =>
          simp only [mapping_pass] at h
          cases h

theorem mapping_pass_ids (gen : Nat → String) : ∀ (as : List JVal) (m0 : Mapping) (ctr : Nat)
    (as1 : List JVal) (m : Mapping) (ctr1 : Nat),
    mapping_pass gen as m0 ctr = .ok (as1, m, ctr1) →
    oldIdsOf as1 = (List.range' ctr as.length).map (fun k => JVal.str (gen k)) := by
  intro as
  induction as with
  | nil =>
      intro m0 ctr as1 m ctr1 h
      simp only [mapping_pass] at h
      injection h with h
      obtain ⟨h1, -⟩ := Prod.mk.inj h
      rw [← h1]
      rfl
  | cons a rest ih =>
      intro m0 ctr as1 m ctr1 h
      cases a with
      | obj afs =>
          simp only [mapping_pass] at h
          rcases hl : lookupKey afs "id" with _ | prev <;> rw [hl] at h <;> simp only [] at h
          · cases h
          · by_cases hh : jHashable prev
            · rw [if_pos hh] at h
              rcases hmp : mapping_pass gen rest (mapInsert m0 prev (gen ctr)) (ctr + 1)
                  with e | ⟨rest1, m2, ctr2⟩ <;> rw [hmp] at h <;> simp only [] at h
              · cases h
              · injection h with h
                obtain ⟨h1, -⟩ := Prod.mk.inj h
                rw [← h1, List.length_cons, List.range'_succ, List.map_cons, oldIdsOf]
                rw [ih _ _ _ _ _ hmp]
                simp [idEntry, lookupKey_setKey_self]
            · rw [if_neg hh] at h
              cases h
      | str sv =>
          simp only [mapping_pass] at h
          cases h
      | int nv =>
          simp only [mapping_pass] at h
          cases h
      | bool bv =>
          simp only [mapping_pass] at h
          cases h
      | null =>
          simp only [mapping_pass] at h
          cases h
      | arr es =>
          simp only [mapping_pass] at h
          cases h

theorem mapping_pass_refs (gen : Nat → String) : ∀ (as : List JVal) (m0 : Mapping) (ctr : Nat)
    (as1 : List JVal) (m : Mapping) (ctr1 : Nat),
    mapping_pass gen as m0 ctr = .ok (as1, m, ctr1) →
    refsElems as1 = refsElems as := by
  intro as
  induction as with
  | nil =>
      intro m0 ctr as1 m ctr1 h
      simp only [mapping_pass] at h
      injection h with h
      obtain ⟨h1, -⟩ := Prod.mk.inj h
      rw [← h1]
  | cons a rest ih =>
      intro m0 ctr as1 m ctr1 h
      cases a with
      | obj afs =>
          simp only [mapping_pass] at h
          rcases hl : lookupKey afs "id" with _ | prev <;> rw [hl] at h <;> simp only [] at h
          · cases h
          · by_cases hh : jHashable prev
            · rw [if_pos hh] at h
              rcases hmp : mapping_pass gen rest (mapInsert m0 prev (gen ctr)) (ctr + 1)
                  with e | ⟨rest1, m2, ctr2⟩ <;> rw [hmp] at h <;> simp only [] at h
              · cases h
              · injection h with h
                obtain ⟨h1, -⟩ := Prod.mk.inj h
                rw [← h1]
                simp only [refsElems]
                rw [ih _ _ _ _ _ hmp]
                have hrh : refHead (setKey afs "id" (.str (gen ctr))) = refHead afs := by
                  rw [refHead, refHead,
                    lookupKey_setKey_ne _ _ _ _ (by decide : "reference" ≠ "id")]
                have hrf : refsFields (setKey afs "id" (.str (gen ctr))) = refsFields afs := by
                  apply refsFields_setKey
                  · intro w hw
                    rw [hl] at hw
                    injection hw with hw
                    rw [← hw]
                    exact isLeaf_of_jHashable prev hh
                  · simp [isLeaf]
                rw [hrh, hrf]
            · rw [if_neg hh] at h
              cases h
      | str sv =>
          simp only [mapping_pass] at h
          cases h
      | int nv =>
          simp only [mapping_pass] at h
          cases h
      | bool bv =>
          simp only [mapping_pass] at h
          cases h
      | null =>
          simp only [mapping_pass] at h
          cases h
      | arr es =>
          simp only [mapping_pass] at h
          cases h

theorem mapping_pass_count (gen : Nat → String) : ∀ (as : List JVal) (m0 : Mapping) (ctr : Nat)
    (as1 : List JVal) (m : Mapping) (ctr1 : Nat),
    mapping_pass gen as m0 ctr = .ok (as1, m, ctr1) →
    ∀ v, (allIdsL as1).count v ≤ (allIdsL as).count v + countGen gen v ctr ctr1 := by
  intro as
  induction as with
  | nil =>
      intro m0 ctr as1 m ctr1 h
      simp only [mapping_pass] at h
      injection h with h
      obtain ⟨h1, h23⟩ := Prod.mk.inj h
      obtain ⟨-, h3⟩ := Prod.mk.inj h23
      intro v
      rw [← h1]
      simp [allIdsL]
  | cons a rest ih =>
      intro m0 ctr as1 m ctr1 h
      cases a with
      | obj afs =>
          simp only [mapping_pass] at h
          rcases hl : lookupKey afs "id" with _ | prev <;> rw [hl] at h <;> simp only [] at h
          · cases h
          · by_cases hh : jHashable prev
            · rw [if_pos hh] at h
              rcases hmp : mapping_pass gen rest (mapInsert m0 prev (gen ctr)) (ctr + 1)
                  with e | ⟨rest1, m2, ctr2⟩ <;> rw [hmp] at h <;> simp only [] at h
              · cases h
              · injection h with h
                obtain ⟨h1, h23⟩ := Prod.mk.inj h
                obtain ⟨-, h3⟩ := Prod.mk.inj h23
                intro v
                rw [← h1, ← h3]
                have hc2 : ctr + 1 ≤ ctr2 := by
                  obtain ⟨-, hctr, -, -⟩ := mapping_pass_elim gen _ _ _ _ _ _ hmp
                  omega
                have e1 : countGen gen v ctr (ctr + 1) + countGen gen v (ctr + 1) ctr2
                    = countGen gen v ctr ctr2 :=
                  countGen_trans gen v ctr (ctr + 1) ctr2 (by omega) hc2
                have hrec := ih _ _ _ _ _ hmp v
                obtain ⟨pre, post, hp1, hp2⟩ :=
                  allIdsF_setKey_replace afs "id" (.str (gen ctr)) prev hl
                simp only [allIdsL, allIdsV]
                rw [hp1, hp2, List.count_append, List.count_append, List.count_append,
                  List.count_append, List.count_append, List.count_append,
                  count_idContrib_id_str]
                have hsingle := countGen_single gen v ctr
                omega
            · rw [if_neg hh] at h
              cases h
      | str sv =>
          simp only [mapping_pass] at h
          cases h
      | int nv =>
          simp only [mapping_pass] at h
          cases h
      | bool bv =>
          simp only [mapping_pass] at h
          cases h
      | null =>
          simp only [mapping_pass] at h
          cases h
      | arr es =>
          simp only [mapping_pass] at h
          cases h

theorem mapping_pass_success (gen : Nat → String) : ∀ (as : List JVal) (m0 : Mapping)
    (ctr : Nat),
    (∀ a ∈ as, ∃ afs prev, a = .obj afs ∧ lookupKey afs "id" = some prev ∧
      jHashable prev = true) →
    ∃ out, mapping_pass gen as m0 ctr = .ok out := by
  intro as
  induction as with
  | nil =>
      intro m0 ctr hok
      exact ⟨_, rfl⟩
  | cons a rest ih =>
      intro m0 ctr hok
      obtain ⟨afs, prev, ha, hl, hh⟩ := hok a (List.mem_cons_self a rest)
      subst ha
      obtain ⟨out, hout⟩ := ih (mapInsert m0 prev (gen ctr)) (ctr + 1)
        (fun a ha => hok a (List.mem_cons_of_mem _ ha))
      obtain ⟨rest1, m2, ctr2⟩ := out
      refine ⟨(.obj (setKey afs "id" (.str (gen ctr))) :: rest1, m2, ctr2), ?_⟩
      simp only [mapping_pass, hl, if_pos hh, hout]

theorem mapping_pass_nondict (gen : Nat → String) : ∀ (as : List JVal) (m0 : Mapping)
    (ctr : Nat), (∃ a ∈ as, isObjB a = false) →
    ∀ out, mapping_pass gen as m0 ctr ≠ .ok out := by
  intro as
  induction as with
  | nil =>
      intro m0 ctr hex
      obtain ⟨a, ha, -⟩ := hex
      simp at ha
  | cons a rest ih =>
      intro m0 ctr hex out h
      obtain ⟨b, hb, hbo⟩ := hex
      rcases List.mem_cons.mp hb with hbeq | hbr
      · subst hbeq
        cases b with
        | obj afs => simp [isObjB] at hbo
        | str sv => simp only [mapping_pass] at h; cases h
        | int nv => simp only [mapping_pass] at h; cases h
        | bool bv => simp only [mapping_pass] at h; cases h
        | null => simp only [mapping_pass] at h; cases h
        | arr es => simp only [mapping_pass] at h; cases h
      · cases a with
        | obj afs =>
            simp only [mapping_pass] at h
            rcases hl : lookupKey afs "id" with _ | prev <;> rw [hl] at h <;> simp only [] at h
            · cases h
            · by_cases hh : jHashable prev
              · rw [if_pos hh] at h
                rcases hmp : mapping_pass gen rest (mapInsert m0 prev (gen ctr)) (ctr + 1)
                    with e | ⟨rest1, m2, ctr2⟩ <;> rw [hmp] at h <;> simp only [] at h
                · cases h
                · exact ih _ _ ⟨b, hbr, hbo⟩ _ hmp
              · rw [if_neg hh] at h
                cases h
        | str sv => simp only [mapping_pass] at h; cases h
        | int nv => simp only [mapping_pass] at h; cases h
        | bool bv => simp only [mapping_pass] at h; cases h
        | null => simp only [mapping_pass] at h; cases h
        | arr es => simp only [mapping_pass] at h; cases h

theorem okObj_setKey_str (p : JVal → Bool) (fs : Fields) (k : String) (s : String)
    (hk : k ≠ "reference") (h : okObj p fs = true) :
    okObj p (setKey fs k (.str s)) = true := by
  rw [okObj, Bool.and_eq_true] at h
  obtain ⟨hnd, hid, href⟩ := okHead_elim p fs h.1
  rw [okObj, Bool.and_eq_true]
  refine ⟨?_, okFields_setKey p fs k _ (by simp [isLeaf]) h.2⟩
  rw [okHead, Bool.and_eq_true, Bool.and_eq_true]
  refine ⟨⟨decide_eq_true (nodup_keysOf_setKey fs k _ hnd), ?_⟩, ?_⟩
  · by_cases hkid : k = "id"
    · subst hkid
      rw [lookupKey_setKey_self]
    · rw [lookupKey_setKey_ne fs k "id" _ (Ne.symm hkid)]
      rcases hid with hid | ⟨si, hid⟩ <;> rw [hid]
  · rw [lookupKey_setKey_ne fs k "reference" _ (Ne.symm hk)]
    rcases href with href | ⟨sr, href, hp⟩
    · rw [href]
    · rw [href]
      rcases hp with hp | hp
      · subst hp
        simp
      · simp [hp]

theorem regen_obj_id_none (gen : Nat → String) (m : Mapping) (fuel : Nat) (fs : Fields)
    (ia : Bool) (ctr : Nat) (fs' : Fields) (ctr' : Nat)
    (h : regenerate_ids gen m fuel fs false ia ctr = .ok (fs', ctr'))
    (hv : lookupKey fs "id" = none) : lookupKey fs' "id" = none := by
  obtain ⟨fuel2, fs3, ctr1, -, hh, hf⟩ :=
    regen_obj_elim gen m fuel fs false ia ctr fs' ctr' h
  obtain ⟨-, hcase⟩ := headStep_ok_elim gen m fs false ia ctr fs3 ctr1 hh
  have hid2 : lookupKey
      (if ia = true then popKey (if (false : Bool) = true then
        setKey fs "id" (.str (gen ctr)) else fs) "id"
       else (if (false : Bool) = true then setKey fs "id" (.str (gen ctr)) else fs)) "id"
      = none := by
    cases ia
    · simpa using hv
    · simp only [if_pos rfl, Bool.false_eq_true, if_false]
      rw [popKey_of_none fs "id" hv]
      exact hv
  have h3 : lookupKey fs3 "id" = none := by
    rcases hcase with ⟨v, s2, -, -, -, -, hfs3⟩ | ⟨-, hfs3⟩
    · rw [hfs3, lookupKey_setKey_ne _ _ _ _ (by decide : "id" ≠ "reference")]
      exact hid2
    · rw [hfs3]
      exact hid2
  exact forall2_lookup_none fs3 fs'
    (regen_fields_align gen m fuel2 fs3 ctr1 fs' ctr' hf).2 "id" h3

theorem action_rewrite_pass_elim (gen : Nat → String) (m : Mapping) : ∀ (as : List JVal)
    (ctr : Nat) (as' : List JVal) (ctr' : Nat),
    action_rewrite_pass gen m as ctr = .ok (as', ctr') →
    as'.length = as.length ∧ ctr ≤ ctr' ∧
    ∀ i, i < as.length → ∃ afs afs' c1 c2,
      as[i]? = some (.obj afs) ∧ as'[i]? = some (.obj afs') ∧
      regenerate_ids gen m (fuelFor afs) afs false false c1 = .ok (afs', c2) ∧
      ctr ≤ c1 ∧ c2 ≤ ctr' := by
  intro as
  induction as with
  | nil =>
      intro ctr as' ctr' h
      simp only [action_rewrite_pass] at h
      injection h with h
      obtain ⟨h1, h2⟩ := Prod.mk.inj h
      refine ⟨by rw [← h1], by omega, ?_⟩
      intro i hi
      simp at hi
  | cons a rest ih =>
      intro ctr as' ctr' h
      cases a with
      | obj afs =>
          simp only [action_rewrite_pass] at h
          rcases hr : regenerate_ids gen m (fuelFor afs) afs false false ctr
              with e | ⟨afs2, ctrm⟩ <;> rw [hr] at h <;> simp only [] at h
          · cases h
          · rcases hrest : action_rewrite_pass gen m rest ctrm
                with e | ⟨rest2, ctr2⟩ <;> rw [hrest] at h <;> simp only [] at h
            · cases h
            · injection h with h
              obtain ⟨h1, h2⟩ := Prod.mk.inj h
              obtain ⟨hlen, hle, hget⟩ := ih _ _ _ hrest
              have hm1 : ctr ≤ ctrm :=
                regen_ids_ctr_le gen m (fuelFor afs) afs false false ctr afs2 ctrm hr
              refine ⟨by rw [← h1, List.length_cons, List.length_cons, hlen], by omega, ?_⟩
              intro i hi
              match i with
              | 0 =>
                  refine ⟨afs, afs2, ctr, ctrm, by simp, ?_, hr, by omega, by omega⟩
                  rw [← h1]
                  simp
              | i + 1 =>
                  rw [List.length_cons] at hi
                  obtain ⟨bfs, bfs', c1, c2, hg1, hg2, hg3, hg4, hg5⟩ := hget i (by omega)
                  refine ⟨bfs, bfs', c1, c2, by simpa using hg1, ?_, hg3, by omega, by omega⟩
                  rw [← h1]
                  simpa using hg2
      | str sv =>
          simp only [action_rewrite_pass] at h
          cases h
      | int nv =>
          simp only [action_rewrite_pass] at h
          cases h
      | bool bv =>
          simp only [action_rewrite_pass] at h
          cases h
      | null =>
          simp only [action_rewrite_pass] at h
          cases h
      | arr es =>
          simp only [action_rewrite_pass] at h
          cases h

theorem action_rewrite_pass_success (gen : Nat → String) (m : Mapping) (p : JVal → Bool)
    (hp : ∀ v, p v = true → (mapLookup m v).isSome = true) : ∀ (as : List JVal) (ctr : Nat),
    (∀ a ∈ as, ∃ afs, a = .obj afs ∧ okObj p afs = true) →
    ∃ out, action_rewrite_pass gen m as ctr = .ok out := by
  intro as
  induction as with
  | nil =>
      intro ctr hok
      exact ⟨([], ctr), rfl⟩
  | cons a rest ih =>
      intro ctr hok
      obtain ⟨afs, ha, hobj⟩ := hok a (List.mem_cons_self a rest)
      subst ha
      obtain ⟨⟨afs2, ctrm⟩, hr⟩ :=
        (regen_success gen m p hp (fuelFor afs)).1 afs false false ctr
          (by rw [fuelFor]) hobj
      obtain ⟨⟨rest2, ctr2⟩, hrest⟩ := ih ctrm
        (fun a ha => hok a (List.mem_cons_of_mem _ ha))
      refine ⟨(.obj afs2 :: rest2, ctr2), ?_⟩
      simp only [action_rewrite_pass, hr, hrest]

theorem action_rewrite_pass_refs (gen : Nat → String) (m : Mapping) (p : JVal → Bool)
    (hmv : ∀ v s, mapLookup m v = some s → s ≠ "") : ∀ (as : List JVal)
    (ctr : Nat) (as' : List JVal) (ctr' : Nat),
    (∀ a ∈ as, ∃ afs, a = .obj afs ∧ okObj p afs = true) →
    action_rewrite_pass gen m as ctr = .ok (as', ctr') →
    refsElems as' = (refsElems as).map (mres m) := by
  intro as
  induction as with
  | nil =>
      intro ctr as' ctr' hok h
      simp only [action_rewrite_pass] at h
      injection h with h
      obtain ⟨h1, -⟩ := Prod.mk.inj h
      rw [← h1]
      rfl
  | cons a rest ih =>
      intro ctr as' ctr' hok h
      obtain ⟨afs, ha, hobj⟩ := hok a (List.mem_cons_self a rest)
      subst ha
      simp only [action_rewrite_pass] at h
      rcases hr : regenerate_ids gen m (fuelFor afs) afs false false ctr
          with e | ⟨afs2, ctrm⟩ <;> rw [hr] at h <;> simp only [] at h
      · cases h
      · rcases hrest : action_rewrite_pass gen m rest ctrm
            with e | ⟨rest2, ctr2⟩ <;> rw [hrest] at h <;> simp only [] at h
        · cases h
        · injection h with h
          obtain ⟨h1, -⟩ := Prod.mk.inj h
          rw [← h1]
          have hcons : ∀ (gs : Fields) (tl : List JVal),
              refsElems (.obj gs :: tl) = refsObj gs ++ refsElems tl := by
            intro gs tl
            rw [refsElems, refsObj, List.append_assoc]
          rw [hcons, hcons, List.map_append]
          have href := ((regen_refs gen m p hmv (fuelFor afs)).1 afs false false ctr afs2 ctrm
            hobj hr).2
          rw [href, ih _ _ _ (fun a ha => hok a (List.mem_cons_of_mem _ ha)) hrest]

theorem action_rewrite_pass_ids (gen : Nat → String) (m : Mapping) : ∀ (as : List JVal)
    (ctr : Nat) (as' : List JVal) (ctr' : Nat),
    (∀ a ∈ as, ∀ afs, a = .obj afs → ∀ w, lookupKey afs "id" = some w → isLeaf w = true) →
    action_rewrite_pass gen m as ctr = .ok (as', ctr') →
    oldIdsOf as' = oldIdsOf as := by
  intro as
  induction as with
  | nil =>
      intro ctr as' ctr' hok h
      simp only [action_rewrite_pass] at h
      injection h with h
      obtain ⟨h1, -⟩ := Prod.mk.inj h
      rw [← h1]
  | cons a rest ih =>
      intro ctr as' ctr' hok h
      cases a with
      | obj afs =>
          simp only [action_rewrite_pass] at h
          rcases hr : regenerate_ids gen m (fuelFor afs) afs false false ctr
              with e | ⟨afs2, ctrm⟩ <;> rw [hr] at h <;> simp only [] at h
          · cases h
          · rcases hrest : action_rewrite_pass gen m rest ctrm
                with e | ⟨rest2, ctr2⟩ <;> rw [hrest] at h <;> simp only [] at h
            · cases h
            · injection h with h
              obtain ⟨h1, -⟩ := Prod.mk.inj h
              rw [← h1, oldIdsOf, oldIdsOf,
                ih _ _ _ (fun a ha => hok a (List.mem_cons_of_mem _ ha)) hrest]
              have hident : idEntry afs2 = idEntry afs := by
                rcases hl : lookupKey afs "id" with _ | w
                · rw [idEntry, idEntry, hl,
                    regen_obj_id_none gen m (fuelFor afs) afs false ctr afs2 ctrm hr hl]
                · have hw : isLeaf w = true :=
                    hok (.obj afs) (List.mem_cons_self _ _) afs rfl w hl
                  rw [idEntry, idEntry, hl,
                    regen_obj_id_keep gen m (fuelFor afs) afs ctr afs2 ctrm hr w hl hw]
              rw [hident]
      | str sv =>
          simp only [action_rewrite_pass] at h
          cases h
      | int nv =>
          simp only [action_rewrite_pass] at h
          cases h
      | bool bv =>
          simp only [action_rewrite_pass] at h
          cases h
      | null =>
          simp only [action_rewrite_pass] at h
          cases h
      | arr es =>
          simp only [action_rewrite_pass] at h
          cases h

theorem action_rewrite_pass_count (gen : Nat → String) (m : Mapping) (p : JVal → Bool) :
    ∀ (as : List JVal) (ctr : Nat) (as' : List JVal) (ctr' : Nat),
    (∀ a ∈ as, ∃ afs, a = .obj afs ∧ okObj p afs = true) →
    action_rewrite_pass gen m as ctr = .ok (as', ctr') →
    ∀ v, (allIdsL as').count v ≤ (allIdsL as).count v + countGen gen v ctr ctr' := by
  intro as
  induction as with
  | nil =>
      intro ctr as' ctr' hok h
      simp only [action_rewrite_pass] at h
      injection h with h
      obtain ⟨h1, h2⟩ := Prod.mk.inj h
      intro v
      rw [← h1]
      simp [allIdsL]
  | cons a rest ih =>
      intro ctr as' ctr' hok h
      obtain ⟨afs, ha, hobj⟩ := hok a (List.mem_cons_self a rest)
      subst ha
      simp only [action_rewrite_pass] at h
      rcases hr : regenerate_ids gen m (fuelFor afs) afs false false ctr
          with e | ⟨afs2, ctrm⟩ <;> rw [hr] at h <;> simp only [] at h
      · cases h
      · rcases hrest : action_rewrite_pass gen m rest ctrm
            with e | ⟨rest2, ctr2⟩ <;> rw [hrest] at h <;> simp only [] at h
        · cases h
        · injection h with h
          obtain ⟨h1, h2⟩ := Prod.mk.inj h
          intro v
          rw [← h1, ← h2]
          simp only [allIdsL, allIdsV, List.count_append]
          have hc1 := (regen_count gen m p (fuelFor afs)).1 afs false false ctr afs2 ctrm
            hobj hr v
          have hc2 := ih _ _ _ (fun a ha => hok a (List.mem_cons_of_mem _ ha)) hrest v
          have hm1 : ctr ≤ ctrm :=
            regen_ids_ctr_le gen m (fuelFor afs) afs false false ctr afs2 ctrm hr
          have hm2 : ctrm ≤ ctr2 := (action_rewrite_pass_elim gen m rest ctrm rest2 ctr2
            hrest).2.1
          have := countGen_trans gen v ctr ctrm ctr2 hm1 hm2
          omega

theorem action_rewrite_pass_stray (gen : Nat → String) (m : Mapping) (p : JVal → Bool) :
    ∀ (as : List JVal) (ctr : Nat) (as' : List JVal) (ctr' : Nat),
    (∀ a ∈ as, ∃ afs, a = .obj afs ∧ okObj p afs = true) →
    action_rewrite_pass gen m as ctr = .ok (as', ctr') →
    ∀ a' ∈ as', ∃ afs', a' = .obj afs' ∧ strayFields afs' = [] := by
  intro as
  induction as with
  | nil =>
      intro ctr as' ctr' hok h
      simp only [action_rewrite_pass] at h
      injection h with h
      obtain ⟨h1, -⟩ := Prod.mk.inj h
      intro a' ha'
      rw [← h1] at ha'
      simp at ha'
  | cons a rest ih =>
      intro ctr as' ctr' hok h
      obtain ⟨afs, ha, hobj⟩ := hok a (List.mem_cons_self a rest)
      subst ha
      simp only [action_rewrite_pass] at h
      rcases hr : regenerate_ids gen m (fuelFor afs) afs false false ctr
          with e | ⟨afs2, ctrm⟩ <;> rw [hr] at h <;> simp only [] at h
      · cases h
      · rcases hrest : action_rewrite_pass gen m rest ctrm
            with e | ⟨rest2, ctr2⟩ <;> rw [hrest] at h <;> simp only [] at h
        · cases h
        · injection h with h
          obtain ⟨h1, -⟩ := Prod.mk.inj h
          intro a' ha'
          rw [← h1] at ha'
          rcases List.mem_cons.mp ha' with ha' | ha'
          · refine ⟨afs2, ha', ?_⟩
            have := (regen_stray gen m p (fuelFor afs)).1 afs false false ctr afs2 ctrm
              hobj hr
            rw [strayObj] at this
            simpa using this
          · exact ih _ _ _ (fun a ha => hok a (List.mem_cons_of_mem _ ha)) hrest a' ha'

theorem branch_pass_cons_elim (gen : Nat → String) (m : Mapping) (bfs : Fields)
    (rest : List JVal) (ctr : Nat) (out : List JVal × Nat)
    (h : branch_pass gen m (.obj bfs :: rest) ctr = .ok out) :
    ∃ sv s dv d bfs2 ctrm rest2 ctr2,
      lookupKey bfs "source_id" = some sv ∧ jHashable sv = true ∧ mapLookup m sv = some s ∧
      lookupKey bfs "destination_id" = some dv ∧ jHashable dv = true ∧
      mapLookup m dv = some d ∧
      regenerate_ids gen m (fuelFor (withEndpoints bfs s d)) (withEndpoints bfs s d)
        true false ctr = .ok (bfs2, ctrm) ∧
      branch_pass gen m rest ctrm = .ok (rest2, ctr2) ∧
      out = (.obj bfs2 :: rest2, ctr2) := by
  simp only [branch_pass] at h
  rcases hs : lookupKey bfs "source_id" with _ | sv <;> rw [hs] at h <;> simp only [] at h
  · cases h
  · by_cases hsh : jHashable sv
    · rw [if_pos hsh] at h
      rcases hms : mapLookup m sv with _ | s <;> rw [hms] at h <;> simp only [] at h
      · cases h
      · rcases hd : lookupKey (setKey bfs "source_id" (.str s)) "destination_id"
            with _ | dv <;> rw [hd] at h <;> simp only [] at h
        · cases h
        · by_cases hdh : jHashable dv
          · rw [if_pos hdh] at h
            rcases hmd : mapLookup m dv with _ | d <;> rw [hmd] at h <;> simp only [] at h
            · cases h
            · rcases hr : regenerate_ids gen m
                  (fuelFor (setKey (setKey bfs "source_id" (.str s)) "destination_id"
                    (.str d)))
                  (setKey (setKey bfs "source_id" (.str s)) "destination_id" (.str d))
                  true false ctr with e | ⟨bfs2, ctrm⟩ <;> rw [hr] at h <;>
                simp only [] at h
              · cases h
              · rcases hrest : branch_pass gen m rest ctrm with e | ⟨rest2, ctr2⟩ <;>
                  rw [hrest] at h <;> simp only [] at h
                · cases h
                · injection h with h
                  have hdb : lookupKey bfs "destination_id" = some dv := by
                    rw [← lookupKey_setKey_ne bfs "source_id" "destination_id" (.str s)
                      (by decide)]
                    exact hd
                  exact ⟨sv, s, dv, d, bfs2, ctrm, rest2, ctr2, rfl, hsh, hms, hdb, hdh,
                    hmd, hr, hrest, h.symm⟩
          · rw [if_neg hdh] at h
            cases h
    · rw [if_neg hsh] at h
      cases h

theorem branch_pass_ctr_le (gen : Nat → String) (m : Mapping) : ∀ (bs : List JVal)
    (ctr : Nat) (bs' : List JVal) (ctr' : Nat),
    branch_pass gen m bs ctr = .ok (bs', ctr') → ctr ≤ ctr' := by
  intro bs
  induction bs with
  | nil =>
      intro ctr bs' ctr' h
      simp only [branch_pass] at h
      injection h with h
      obtain ⟨-, h2⟩ := Prod.mk.inj h
      omega
  | cons b rest ih =>
      intro ctr bs' ctr' h
      cases b with
      | obj bfs =>
          obtain ⟨sv, s, dv, d, bfs2, ctrm, rest2, ctr2, -, -, -, -, -, -, hr, hrest, hout⟩ :=
            branch_pass_cons_elim gen m bfs rest ctr _ h
          obtain ⟨-, h2⟩ := Prod.mk.inj hout
          have h1 := regen_ids_ctr_le gen m _ _ true false ctr bfs2 ctrm hr
          have h3 := ih ctrm rest2 ctr2 hrest
          omega
      | str sv => simp only [branch_pass] at h; cases h
      | int nv => simp only [branch_pass] at h; cases h
      | bool bv => simp only [branch_pass] at h; cases h
      | null => simp only [branch_pass] at h; cases h
      | arr es => simp only [branch_pass] at h; cases h

theorem branch_pass_runs (gen : Nat → String) (m : Mapping) : ∀ (bs : List JVal)
    (ctr : Nat) (bs' : List JVal) (ctr' : Nat),
    branch_pass gen m bs ctr = .ok (bs', ctr') →
    ∀ b ∈ bs, ∃ bfs sv s dv d bfs2 c1 c2,
      b = .obj bfs ∧
      lookupKey bfs "source_id" = some sv ∧ jHashable sv = true ∧ mapLookup m sv = some s ∧
      lookupKey bfs "destination_id" = some dv ∧ jHashable dv = true ∧
      mapLookup m dv = some d ∧
      regenerate_ids gen m (fuelFor (withEndpoints bfs s d)) (withEndpoints bfs s d)
        true false c1 = .ok (bfs2, c2) ∧
      ctr ≤ c1 ∧ c2 ≤ ctr' := by
  intro bs
  induction bs with
  | nil =>
      intro ctr bs' ctr' h b hb
      simp at hb
  | cons b0 rest ih =>
      intro ctr bs' ctr' h b hb
      cases b0 with
      | obj bfs =>
          obtain ⟨sv, s, dv, d, bfs2, ctrm, rest2, ctr2, hs, hsh, hms, hdb, hdh, hmd, hr,
            hrest, hout⟩ := branch_pass_cons_elim gen m bfs rest ctr _ h
          obtain ⟨-, h2⟩ := Prod.mk.inj hout
          rcases List.mem_cons.mp hb with hbeq | hbr
          · have hc2 : ctrm ≤ ctr2 := branch_pass_ctr_le gen m rest ctrm rest2 ctr2 hrest
            exact ⟨bfs, sv, s, dv, d, bfs2, ctr, ctrm, hbeq, hs, hsh, hms, hdb, hdh, hmd,
              hr, by omega, by omega⟩
          · obtain ⟨cfs, sv2, s2, dv2, d2, cfs2, c1, c2, hh⟩ := ih ctrm rest2 ctr2 hrest b hbr
            have hc1 : ctr ≤ ctrm := regen_ids_ctr_le gen m _ _ true false ctr bfs2 ctrm hr
            exact ⟨cfs, sv2, s2, dv2, d2, cfs2, c1, c2, hh.1, hh.2.1, hh.2.2.1, hh.2.2.2.1,
              hh.2.2.2.2.1, hh.2.2.2.2.2.1, hh.2.2.2.2.2.2.1, hh.2.2.2.2.2.2.2.1,
              by have h8 := hh.2.2.2.2.2.2.2.2.1; omega,
              by have h9 := hh.2.2.2.2.2.2.2.2.2; omega⟩
      | str sv => simp only [branch_pass] at h; cases h
      | int nv => simp only [branch_pass] at h; cases h
      | bool bv => simp only [branch_pass] at h; cases h
      | null => simp only [branch_pass] at h; cases h
      | arr es => simp only [branch_pass] at h; cases h

theorem withEndpoints_lookup_src (bfs : Fields) (s d : String) :
    lookupKey (withEndpoints bfs s d) "source_id" = some (.str s) := by
  rw [withEndpoints,
    lookupKey_setKey_ne _ "destination_id" "source_id" _ (by decide),
    lookupKey_setKey_self]

theorem withEndpoints_lookup_dst (bfs : Fields) (s d : String) :
    lookupKey (withEndpoints bfs s d) "destination_id" = some (.str d) := by
  rw [withEndpoints, lookupKey_setKey_self]

theorem withEndpoints_lookup_ne (bfs : Fields) (s d : String) (k : String)
    (h1 : k ≠ "source_id") (h2 : k ≠ "destination_id") :
    lookupKey (withEndpoints bfs s d) k = lookupKey bfs k := by
  rw [withEndpoints, lookupKey_setKey_ne _ "destination_id" k _ h2,
    lookupKey_setKey_ne _ "source_id" k _ h1]

theorem okObj_withEndpoints (p : JVal → Bool) (bfs : Fields) (s d : String)
    (h : okObj p bfs = true) : okObj p (withEndpoints bfs s d) = true := by
  rw [withEndpoints]
  exact okObj_setKey_str p _ "destination_id" d (by decide)
    (okObj_setKey_str p bfs "source_id" s (by decide) h)

theorem refsObj_withEndpoints (bfs : Fields) (s d : String) (sv dv : JVal)
    (hsv : lookupKey bfs "source_id" = some sv) (hsl : isLeaf sv = true)
    (hdv : lookupKey bfs "destination_id" = some dv) (hdl : isLeaf dv = true) :
    refsObj (withEndpoints bfs s d) = refsObj bfs := by
  have hd1 : lookupKey (setKey bfs "source_id" (.str s)) "destination_id" = some dv := by
    rw [lookupKey_setKey_ne _ "source_id" "destination_id" _ (by decide)]
    exact hdv
  rw [refsObj, refsObj]
  have hrh : refHead (withEndpoints bfs s d) = refHead bfs := by
    rw [refHead, refHead, withEndpoints_lookup_ne bfs s d "reference" (by decide) (by decide)]
  have hrf : refsFields (withEndpoints bfs s d) = refsFields bfs := by
    rw [withEndpoints]
    rw [refsFields_setKey _ "destination_id" _ ?hold1 (by simp [isLeaf]),
      refsFields_setKey _ "source_id" _ ?hold2 (by simp [isLeaf])]
    case hold1 =>
      intro w hw
      rw [hd1] at hw
      injection hw with hw
      rw [← hw]
      exact hdl
    case hold2 =>
      intro w hw
      rw [hsv] at hw
      injection hw with hw
      rw [← hw]
      exact hsl
  rw [hrh, hrf]

theorem allIdsF_withEndpoints_count (bfs : Fields) (s d : String) (sv dv : JVal)
    (hsv : lookupKey bfs "source_id" = some sv) (hsl : isLeaf sv = true)
    (hdv : lookupKey bfs "destination_id" = some dv) (hdl : isLeaf dv = true) (v : JVal) :
    (allIdsF (withEndpoints bfs s d)).count v = (allIdsF bfs).count v := by
  have hd1 : lookupKey (setKey bfs "source_id" (.str s)) "destination_id" = some dv := by
    rw [lookupKey_setKey_ne _ "source_id" "destination_id" _ (by decide)]
    exact hdv
  obtain ⟨pre1, post1, ha1, ha2⟩ := allIdsF_setKey_replace bfs "source_id" (.str s) sv hsv
  obtain ⟨pre2, post2, hb1, hb2⟩ :=
    allIdsF_setKey_replace (setKey bfs "source_id" (.str s)) "destination_id" (.str d) dv hd1
  have e1 : (allIdsF (withEndpoints bfs s d)).count v
      = (allIdsF (setKey bfs "source_id" (.str s))).count v := by
    rw [withEndpoints, hb2, hb1,
      count_idContrib_leaf_ne "destination_id" dv (by decide) hdl,
      count_idContrib_leaf_ne "destination_id" (.str d) (by decide) (by simp [isLeaf])]
  have e2 : (allIdsF (setKey bfs "source_id" (.str s))).count v
      = (allIdsF bfs).count v := by
    rw [ha2, ha1, count_idContrib_leaf_ne "source_id" sv (by decide) hsl,
      count_idContrib_leaf_ne "source_id" (.str s) (by decide) (by simp [isLeaf])]
  rw [e1, e2]

theorem branch_pass_success (gen : Nat → String) (m : Mapping) (p : JVal → Bool)
    (hp : ∀ v, p v = true → (mapLookup m v).isSome = true) : ∀ (bs : List JVal) (ctr : Nat),
    (∀ b ∈ bs, ∃ bfs sv dv, b = .obj bfs ∧ okObj p bfs = true ∧
      lookupKey bfs "source_id" = some sv ∧ jHashable sv = true ∧
      (mapLookup m sv).isSome = true ∧
      lookupKey bfs "destination_id" = some dv ∧ jHashable dv = true ∧
      (mapLookup m dv).isSome = true) →
    ∃ out, branch_pass gen m bs ctr = .ok out := by
  intro bs
  induction bs with
  | nil =>
      intro ctr hok
      exact ⟨([], ctr), rfl⟩
  | cons b rest ih =>
      intro ctr hok
      obtain ⟨bfs, sv, dv, hb, hobj, hsv, hsh, hms, hdv, hdh, hmd⟩ :=
        hok b (List.mem_cons_self b rest)
      subst hb
      obtain ⟨s, hs⟩ := Option.isSome_iff_exists.mp hms
      obtain ⟨d, hd⟩ := Option.isSome_iff_exists.mp hmd
      have hd1 : lookupKey (setKey bfs "source_id" (.str s)) "destination_id" = some dv := by
        rw [lookupKey_setKey_ne _ "source_id" "destination_id" _ (by decide)]
        exact hdv
      obtain ⟨⟨bfs2, ctrm⟩, hr⟩ :=
        (regen_success gen m p hp (fuelFor (withEndpoints bfs s d))).1
          (withEndpoints bfs s d) true false ctr (by rw [fuelFor])
          (okObj_withEndpoints p bfs s d hobj)
      obtain ⟨⟨rest2, ctr2⟩, hrest⟩ := ih ctrm
        (fun b hb => hok b (List.mem_cons_of_mem _ hb))
      refine ⟨(.obj bfs2 :: rest2, ctr2), ?_⟩
      rw [withEndpoints] at hr
      simp only [branch_pass, hsv, if_pos hsh, hs, hd1, if_pos hdh, hd, hr, hrest]

theorem branch_pass_pairs (gen : Nat → String) (m : Mapping) : ∀ (bs : List JVal)
    (ctr : Nat) (bs' : List JVal) (ctr' : Nat),
    branch_pass gen m bs ctr = .ok (bs', ctr') →
    branchPairsOf bs' = (branchPairsOf bs).map
      (fun q => (relabel m q.1, relabel m q.2)) := by
  intro bs
  induction bs with
  | nil =>
      intro ctr bs' ctr' h
      simp only [branch_pass] at h
      injection h with h
      obtain ⟨h1, -⟩ := Prod.mk.inj h
      rw [← h1]
      rfl
  | cons b rest ih =>
      intro ctr bs' ctr' h
      cases b with
      | obj bfs =>
          obtain ⟨sv, s, dv, d, bfs2, ctrm, rest2, ctr2, hs, hsh, hms, hdb, hdh, hmd, hr,
            hrest, hout⟩ := branch_pass_cons_elim gen m bfs rest ctr _ h
          obtain ⟨h1, -⟩ := Prod.mk.inj hout
          rw [h1]
          have hsrc : lookupKey bfs2 "source_id" = some (.str s) :=
            regen_obj_keep_leaf gen m _ _ true false ctr bfs2 ctrm hr "source_id"
              (by decide) (by decide) _ (withEndpoints_lookup_src bfs s d) (by simp [isLeaf])
          have hdst : lookupKey bfs2 "destination_id" = some (.str d) :=
            regen_obj_keep_leaf gen m _ _ true false ctr bfs2 ctrm hr "destination_id"
              (by decide) (by decide) _ (withEndpoints_lookup_dst bfs s d) (by simp [isLeaf])
          simp only [branchPairsOf, hsrc, hdst, hs, hdb, List.map_append]
          rw [ih _ _ _ hrest]
          simp [relabel, hms, hmd]
      | str sv => simp only [branch_pass] at h; cases h
      | int nv => simp only [branch_pass] at h; cases h
      | bool bv => simp only [branch_pass] at h; cases h
      | null => simp only [branch_pass] at h; cases h
      | arr es => simp only [branch_pass] at h; cases h

theorem branch_pass_refs (gen : Nat → String) (m : Mapping) (p : JVal → Bool)
    (hmv : ∀ v s, mapLookup m v = some s → s ≠ "") : ∀ (bs : List JVal)
    (ctr : Nat) (bs' : List JVal) (ctr' : Nat),
    (∀ b ∈ bs, ∃ bfs, b = .obj bfs ∧ okObj p bfs = true) →
    branch_pass gen m bs ctr = .ok (bs', ctr') →
    refsElems bs' = (refsElems bs).map (mres m) := by
  intro bs
  induction bs with
  | nil =>
      intro ctr bs' ctr' hok h
      simp only [branch_pass] at h
      injection h with h
      obtain ⟨h1, -⟩ := Prod.mk.inj h
      rw [← h1]
      rfl
  | cons b rest ih =>
      intro ctr bs' ctr' hok h
      obtain ⟨bfs, hb, hobj⟩ := hok b (List.mem_cons_self b rest)
      subst hb
      obtain ⟨sv, s, dv, d, bfs2, ctrm, rest2, ctr2, hs, hsh, hms, hdb, hdh, hmd, hr,
        hrest, hout⟩ := branch_pass_cons_elim gen m bfs rest ctr _ h
      obtain ⟨h1, -⟩ := Prod.mk.inj hout
      rw [h1]
      have hcons : ∀ (gs : Fields) (tl : List JVal),
          refsElems (.obj gs :: tl) = refsObj gs ++ refsElems tl := by
        intro gs tl
        rw [refsElems, refsObj, List.append_assoc]
      rw [hcons, hcons, List.map_append]
      have hwe := refsObj_withEndpoints bfs s d sv dv hs (isLeaf_of_jHashable sv hsh)
        hdb (isLeaf_of_jHashable dv hdh)
      have href := ((regen_refs gen m p hmv (fuelFor (withEndpoints bfs s d))).1
        (withEndpoints bfs s d) true false ctr bfs2 ctrm
        (okObj_withEndpoints p bfs s d hobj) hr).2
      rw [href, hwe, ih _ _ _ (fun b hb => hok b (List.mem_cons_of_mem _ hb)) hrest]

theorem branch_pass_ids_fresh (gen : Nat → String) (m : Mapping) : ∀ (bs : List JVal)
    (ctr : Nat) (bs' : List JVal) (ctr' : Nat),
    branch_pass gen m bs ctr = .ok (bs', ctr') →
    ∀ v ∈ oldIdsOf bs', ∃ k, ctr ≤ k ∧ k < ctr' ∧ v = .str (gen k) := by
  intro bs
  induction bs with
  | nil =>
      intro ctr bs' ctr' h v hv
      simp only [branch_pass] at h
      injection h with h
      obtain ⟨h1, -⟩ := Prod.mk.inj h
      rw [← h1] at hv
      simp [oldIdsOf] at hv
  | cons b rest ih =>
      intro ctr bs' ctr' h v hv
      cases b with
      | obj bfs =>
          obtain ⟨sv, s, dv, d, bfs2, ctrm, rest2, ctr2, hs, hsh, hms, hdb, hdh, hmd, hr,
            hrest, hout⟩ := branch_pass_cons_elim gen m bfs rest ctr _ h
          obtain ⟨h1, h2⟩ := Prod.mk.inj hout
          rw [h1] at hv
          rw [oldIdsOf, List.mem_append] at hv
          have hcm : ctr + 1 ≤ ctrm :=
            regen_obj_ctr_fresh gen m _ _ false ctr bfs2 ctrm hr
          have hc2 : ctrm ≤ ctr2 := branch_pass_ctr_le gen m rest ctrm rest2 ctr2 hrest
          rcases hv with hv | hv
          · have hid := regen_obj_id_fresh gen m _ _ ctr bfs2 ctrm hr
            rw [idEntry, hid] at hv
            simp only [List.mem_singleton] at hv
            exact ⟨ctr, by omega, by omega, hv⟩
          · obtain ⟨k, hk1, hk2, hk3⟩ := ih ctrm rest2 ctr2 hrest v hv
            exact ⟨k, by omega, by omega, hk3⟩
      | str sv => simp only [branch_pass] at h; cases h
      | int nv => simp only [branch_pass] at h; cases h
      | bool bv => simp only [branch_pass] at h; cases h
      | null => simp only [branch_pass] at h; cases h
      | arr es => simp only [branch_pass] at h; cases h

theorem branch_pass_count (gen : Nat → String) (m : Mapping) (p : JVal → Bool) :
    ∀ (bs : List JVal) (ctr : Nat) (bs' : List JVal) (ctr' : Nat),
    (∀ b ∈ bs, ∃ bfs, b = .obj bfs ∧ okObj p bfs = true) →
    branch_pass gen m bs ctr = .ok (bs', ctr') →
    ∀ v, (allIdsL bs').count v ≤ (allIdsL bs).count v + countGen gen v ctr ctr' := by
  intro bs
  induction bs with
  | nil =>
      intro ctr bs' ctr' hok h
      simp only [branch_pass] at h
      injection h with h
      obtain ⟨h1, h2⟩ := Prod.mk.inj h
      intro v
      rw [← h1]
      simp [allIdsL]
  | cons b rest ih =>
      intro ctr bs' ctr' hok h
      obtain ⟨bfs, hb, hobj⟩ := hok b (List.mem_cons_self b rest)
      subst hb
      obtain ⟨sv, s, dv, d, bfs2, ctrm, rest2, ctr2, hs, hsh, hms, hdb, hdh, hmd, hr,
        hrest, hout⟩ := branch_pass_cons_elim gen m bfs rest ctr _ h
      obtain ⟨h1, h2⟩ := Prod.mk.inj hout
      intro v
      rw [h1, h2]
      simp only [allIdsL, allIdsV, List.count_append]
      have hc1 := (regen_count gen m p (fuelFor (withEndpoints bfs s d))).1
        (withEndpoints bfs s d) true false ctr bfs2 ctrm
        (okObj_withEndpoints p bfs s d hobj) hr v
      have hwe := allIdsF_withEndpoints_count bfs s d sv dv hs
        (isLeaf_of_jHashable sv hsh) hdb (isLeaf_of_jHashable dv hdh) v
      have hc2 := ih ctrm rest2 ctr2 (fun b hb => hok b (List.mem_cons_of_mem _ hb)) hrest v
      have hm1 : ctr ≤ ctrm := regen_ids_ctr_le gen m _ _ true false ctr bfs2 ctrm hr
      have hm2 : ctrm ≤ ctr2 := branch_pass_ctr_le gen m rest ctrm rest2 ctr2 hrest
      have := countGen_trans gen v ctr ctrm ctr2 hm1 hm2
      omega

theorem branch_pass_stray (gen : Nat → String) (m : Mapping) (p : JVal → Bool) :
    ∀ (bs : List JVal) (ctr : Nat) (bs' : List JVal) (ctr' : Nat),
    (∀ b ∈ bs, ∃ bfs, b = .obj bfs ∧ okObj p bfs = true) →
    branch_pass gen m bs ctr = .ok (bs', ctr') →
    ∀ b' ∈ bs', ∃ bfs', b' = .obj bfs' ∧ strayFields bfs' = [] := by
  intro bs
  induction bs with
  | nil =>
      intro ctr bs' ctr' hok h b' hb'
      simp only [branch_pass] at h
      injection h with h
      obtain ⟨h1, -⟩ := Prod.mk.inj h
      rw [← h1] at hb'
      simp at hb'
  | cons b rest ih =>
      intro ctr bs' ctr' hok h b' hb'
      obtain ⟨bfs, hb, hobj⟩ := hok b (List.mem_cons_self b rest)
      subst hb
      obtain ⟨sv, s, dv, d, bfs2, ctrm, rest2, ctr2, hs, hsh, hms, hdb, hdh, hmd, hr,
        hrest, hout⟩ := branch_pass_cons_elim gen m bfs rest ctr _ h
      obtain ⟨h1, -⟩ := Prod.mk.inj hout
      rw [h1] at hb'
      rcases List.mem_cons.mp hb' with hb' | hb'
      · refine ⟨bfs2, hb', ?_⟩
        have := (regen_stray gen m p (fuelFor (withEndpoints bfs s d))).1
          (withEndpoints bfs s d) true false ctr bfs2 ctrm
          (okObj_withEndpoints p bfs s d hobj) hr
        rw [strayObj] at this
        simpa using this
      · exact ih ctrm rest2 ctr2 (fun b hb => hok b (List.mem_cons_of_mem _ hb)) hrest b' hb'

theorem getIterList_ok (fs : Fields) (key : String) (out : List JVal)
    (h : getIterList fs key = .ok out) :
    out = (match lookupKey fs key with | some (.arr es) => es | _ => []) := by
  rw [getIterList] at h
  rcases hl : lookupKey fs key with _ | v
  · rw [hl] at h
    simp only [] at h
    injection h with h
    exact h.symm
  · cases v with
    | arr es =>
        rw [hl] at h
        simp only [] at h
        injection h with h
        exact h.symm
    | obj gs =>
        rw [hl] at h
        simp only [] at h
        by_cases hg : gs.isEmpty
        · rw [if_pos hg] at h
          injection h with h
          exact h.symm
        · rw [if_neg hg] at h
          cases h
    | str s2 =>
        rw [hl] at h
        simp only [] at h
        by_cases hg : (s2 == "")
        · rw [if_pos hg] at h
          injection h with h
          exact h.symm
        · rw [if_neg hg] at h
          cases h
    | int n =>
        rw [hl] at h
        simp only [] at h
        cases h
    | bool b =>
        rw [hl] at h
        simp only [] at h
        cases h
    | null =>
        rw [hl] at h
        simp only [] at h
        cases h

theorem putList_lookup_ne (w : Fields) (key : String) (es2 : List JVal) (k : String)
    (hk : k ≠ key) :
    lookupKey (putList w key es2) k = lookupKey w k := by
  rw [putList]
  rcases hl : lookupKey w key with _ | v
  · rfl
  · cases v with
    | arr es => exact lookupKey_setKey_ne w key k _ hk
    | obj gs => rfl
    | str s2 => rfl
    | int n => rfl
    | bool b => rfl
    | null => rfl

theorem putList_lookup_self (w : Fields) (key : String) (es2 : List JVal) :
    lookupKey (putList w key es2) key =
    (match lookupKey w key with | some (.arr _) => some (.arr es2) | x => x) := by
  rw [putList]
  rcases hl : lookupKey w key with _ | v
  · simp [hl]
  · cases v with
    | arr es => simp [hl, lookupKey_setKey_self]
    | obj gs => simp [hl]
    | str s2 => simp [hl]
    | int n => simp [hl]
    | bool b => simp [hl]
    | null => simp [hl]

theorem workflowMapping_isSome (gen : Nat → String) (wf : Fields) (ctr : Nat) (v : JVal) :
    (mapLookup (workflowMapping gen wf ctr) v).isSome = true ↔
      v ∈ oldIdsOf (wfActions wf) := by
  rw [workflowMapping_lookup, mem_oldIds_iff_lastIdx]
  cases h : lastIdxOf (wfActions wf) v <;> simp [h]

theorem workflowMapping_values (gen : Nat → String) (wf : Fields) (ctr : Nat)
    (hgen : ∀ k, gen k ≠ "") :
    ∀ v s, mapLookup (workflowMapping gen wf ctr) v = some s → s ≠ "" := by
  intro v s h
  rw [workflowMapping_lookup] at h
  rcases hj : lastIdxOf (wfActions wf) v with _ | j <;> rw [hj] at h
  · cases h
  · have h2 : some (gen (ctr + 1 + j)) = some s := h
    injection h2 with h2
    rw [← h2]
    exact hgen _

theorem oldIds_str (as : List JVal)
    (h : ∀ a ∈ as, ∀ afs, a = .obj afs → ∃ s2, lookupKey afs "id" = some (.str s2)) :
    ∀ v ∈ oldIdsOf as, ∃ s2, v = .str s2 := by
  induction as with
  | nil =>
      intro v hv
      simp [oldIdsOf] at hv
  | cons a rest ih =>
      intro v hv
      cases a with
      | obj afs =>
          rw [oldIdsOf, List.mem_append] at hv
          rcases hv with hv | hv
          · obtain ⟨s2, hs2⟩ := h (.obj afs) (List.mem_cons_self _ _) afs rfl
            rw [idEntry, hs2] at hv
            simp only [List.mem_singleton] at hv
            exact ⟨s2, hv⟩
          · exact ih (fun a ha => h a (List.mem_cons_of_mem _ ha)) v hv
      | str sv =>
          simp only [oldIdsOf] at hv
          exact ih (fun a ha => h a (List.mem_cons_of_mem _ ha)) v hv
      | int nv =>
          simp only [oldIdsOf] at hv
          exact ih (fun a ha => h a (List.mem_cons_of_mem _ ha)) v hv
      | bool bv =>
          simp only [oldIdsOf] at hv
          exact ih (fun a ha => h a (List.mem_cons_of_mem _ ha)) v hv
      | null =>
          simp only [oldIdsOf] at hv
          exact ih (fun a ha => h a (List.mem_cons_of_mem _ ha)) v hv
      | arr es =>
          simp only [oldIdsOf] at hv
          exact ih (fun a ha => h a (List.mem_cons_of_mem _ ha)) v hv

theorem valid_shape_elim (wf : Fields) (h : validWorkflowShape wf = true) :
    ∃ as, lookupKey wf "actions" = some (.arr as) ∧ wfActions wf = as ∧
    (∀ a ∈ as, ∃ afs s2, a = .obj afs ∧ lookupKey afs "id" = some (.str s2) ∧
      okObj (fun v => decide (v ∈ oldIdsOf as)) afs = true) ∧
    (∃ sv, lookupKey wf "start" = some sv ∧ sv ∈ oldIdsOf as) ∧
    (lookupKey wf "branches" = none ∨ ∃ bs, lookupKey wf "branches" = some (.arr bs) ∧
      ∀ b ∈ bs, ∃ bfs sv dv, b = .obj bfs ∧
        lookupKey bfs "source_id" = some sv ∧ sv ∈ oldIdsOf as ∧
        lookupKey bfs "destination_id" = some dv ∧ dv ∈ oldIdsOf as ∧
        okObj (fun v => decide (v ∈ oldIdsOf as)) bfs = true) := by
  rw [validWorkflowShape] at h
  rcases ha : lookupKey wf "actions" with _ | av <;> rw [ha] at h <;> simp only [] at h
  · cases h
  · cases av with
    | arr as =>
        rw [Bool.and_eq_true, Bool.and_eq_true] at h
        obtain ⟨⟨hacts, hstart⟩, hbr⟩ := h
        refine ⟨as, rfl, by rw [wfActions, ha], ?_, ?_, ?_⟩
        · intro a hamem
          have := List.all_eq_true.mp hacts a hamem
          cases a with
          | obj afs =>
              rw [Bool.and_eq_true] at this
              obtain ⟨hid, hobj⟩ := this
              rcases hl : lookupKey afs "id" with _ | w <;> rw [hl] at hid
              · cases hid
              · cases w with
                | str s2 => exact ⟨afs, s2, rfl, hl, hobj⟩
                | int n => cases hid
                | bool b => cases hid
                | null => cases hid
                | arr es => cases hid
                | obj gs => cases hid
          | str sv => cases this
          | int nv => cases this
          | bool bv => cases this
          | null => cases this
          | arr es => cases this
        · rcases hst : lookupKey wf "start" with _ | sv <;> rw [hst] at hstart
          · cases hstart
          · exact ⟨sv, rfl, of_decide_eq_true hstart⟩
        · rcases hb : lookupKey wf "branches" with _ | bv <;> rw [hb] at hbr
          · exact Or.inl rfl
          · cases bv with
            | arr bs =>
                refine Or.inr ⟨bs, rfl, ?_⟩
                intro b hbmem
                have := List.all_eq_true.mp hbr b hbmem
                cases b with
                | obj bfs =>
                    rw [Bool.and_eq_true, Bool.and_eq_true] at this
                    obtain ⟨⟨hsv, hdv⟩, hobj⟩ := this
                    rcases hls : lookupKey bfs "source_id" with _ | sv <;> rw [hls] at hsv
                    · cases hsv
                    · rcases hld : lookupKey bfs "destination_id" with _ | dv <;>
                        rw [hld] at hdv
                      · cases hdv
                      · exact ⟨bfs, sv, dv, rfl, hls, of_decide_eq_true hsv, hld,
                          of_decide_eq_true hdv, hobj⟩
                | str sv => cases this
                | int nv => cases this
                | bool bv => cases this
                | null => cases this
                | arr es => cases this
            | obj gs => cases hbr
            | str s2 => cases hbr
            | int n => cases hbr
            | bool b => cases hbr
            | null => cases hbr
    | obj gs => cases h
    | str s2 => cases h
    | int n => cases h
    | bool b => cases h
    | null => cases h

theorem wf_run_elim (gen : Nat → String) (wf : Fields) (ctr : Nat) (wf' : Fields) (ctr' : Nat)
    (h : regenerate_workflow_ids gen wf ctr = .ok (wf', ctr')) :
    ∃ as1 m ctr1 as2 ctr2 bs1 ctr3 sv s,
      mapping_pass gen (wfActions wf) [] (ctr + 1) = .ok (as1, m, ctr1) ∧
      action_rewrite_pass gen m as1 ctr1 = .ok (as2, ctr2) ∧
      branch_pass gen m (wfBranches wf) ctr2 = .ok (bs1, ctr3) ∧
      lookupKey wf "start" = some sv ∧ jHashable sv = true ∧ mapLookup m sv = some s ∧
      ctr' = ctr3 ∧
      lookupKey wf' "id" = some (.str (gen ctr)) ∧
      wfStart wf' = some (.str s) ∧
      wfActions wf' = as2 ∧
      wfBranches wf' = bs1 ∧
      (∀ k, k ≠ "id" → k ≠ "actions" → k ≠ "branches" → k ≠ "start" →
        lookupKey wf' k = lookupKey wf k) ∧
      wf' = setKey (putList (putList (setKey wf "id" (.str (gen ctr))) "actions" as2)
        "branches" bs1) "start" (.str s) := by
  simp only [regenerate_workflow_ids] at h
  rcases hga : getIterList (setKey wf "id" (.str (gen ctr))) "actions" with e | as0 <;>
    rw [hga] at h <;> simp only [] at h
  · cases h
  · have has0 : as0 = wfActions wf := by
      have h0 := getIterList_ok _ _ _ hga
      rw [lookupKey_setKey_ne wf "id" "actions" _ (by decide)] at h0
      rw [h0, wfActions]
    subst has0
    rcases hmp : mapping_pass gen (wfActions wf) [] (ctr + 1) with e | ⟨as1, m, ctr1⟩ <;>
      rw [hmp] at h <;> simp only [] at h
    · cases h
    · rcases harp : action_rewrite_pass gen m as1 ctr1 with e | ⟨as2, ctr2⟩ <;>
        rw [harp] at h <;> simp only [] at h
      · cases h
      · rcases hgb : getIterList (putList (setKey wf "id" (.str (gen ctr))) "actions" as2)
            "branches" with e | bs0 <;> rw [hgb] at h <;> simp only [] at h
        · cases h
        · have hbs0 : bs0 = wfBranches wf := by
            have h0 := getIterList_ok _ _ _ hgb
            rw [putList_lookup_ne _ _ _ "branches" (by decide),
              lookupKey_setKey_ne wf "id" "branches" _ (by decide)] at h0
            rw [h0, wfBranches]
          subst hbs0
          rcases hbp : branch_pass gen m (wfBranches wf) ctr2 with e | ⟨bs1, ctr3⟩ <;>
            rw [hbp] at h <;> simp only [] at h
          · cases h
          · rcases hst : lookupKey (putList (putList (setKey wf "id" (.str (gen ctr)))
                "actions" as2) "branches" bs1) "start" with _ | sv <;>
              rw [hst] at h <;> simp only [] at h
            · cases h
            · by_cases hsh : jHashable sv
              · rw [if_pos hsh] at h
                rcases hms : mapLookup m sv with _ | s2 <;> rw [hms] at h <;>
                  simp only [] at h
                · cases h
                · injection h with h
                  obtain ⟨h1, h2⟩ := Prod.mk.inj h
                  have hchain : ∀ k, k ≠ "id" → k ≠ "actions" → k ≠ "branches" →
                      lookupKey (putList (putList (setKey wf "id" (.str (gen ctr)))
                        "actions" as2) "branches" bs1) k = lookupKey wf k := by
                    intro k hk1 hk2 hk3
                    rw [putList_lookup_ne _ _ _ k hk3, putList_lookup_ne _ _ _ k hk2,
                      lookupKey_setKey_ne wf "id" k _ hk1]
                  have hstw : lookupKey wf "start" = some sv := by
                    rw [← hchain "start" (by decide) (by decide) (by decide)]
                    exact hst
                  have hnonarrA : (∀ zs : List JVal,
                      lookupKey wf "actions" ≠ some (.arr zs)) → as2 = [] := by
                    intro hna
                    have hwfa : wfActions wf = [] := by
                      rw [wfActions]
                      rcases hwa : lookupKey wf "actions" with _ | av
                      · rfl
                      · cases av with
                        | arr es => exact absurd hwa (hna es)
                        | obj gs => rfl
                        | str s3 => rfl
                        | int n => rfl
                        | bool b => rfl
                        | null => rfl
                    rw [hwfa] at hmp
                    simp only [mapping_pass] at hmp
                    injection hmp with hmp
                    obtain ⟨e1, -⟩ := Prod.mk.inj hmp
                    rw [← e1] at harp
                    simp only [action_rewrite_pass] at harp
                    injection harp with harp
                    obtain ⟨e2, -⟩ := Prod.mk.inj harp
                    exact e2.symm
                  have hnonarrB : (∀ zs : List JVal,
                      lookupKey wf "branches" ≠ some (.arr zs)) → bs1 = [] := by
                    intro hna
                    have hwfb : wfBranches wf = [] := by
                      rw [wfBranches]
                      rcases hwb : lookupKey wf "branches" with _ | bv
                      · rfl
                      · cases bv with
                        | arr es => exact absurd hwb (hna es)
                        | obj gs => rfl
                        | str s3 => rfl
                        | int n => rfl
                        | bool b => rfl
                        | null => rfl
                    rw [hwfb] at hbp
                    simp only [branch_pass] at hbp
                    injection hbp with hbp
                    obtain ⟨e1, -⟩ := Prod.mk.inj hbp
                    exact e1.symm
                  refine ⟨as1, m, ctr1, as2, ctr2, bs1, ctr3, sv, s2, rfl, harp, hbp,
                    hstw, hsh, hms, h2.symm, ?_, ?_, ?_, ?_, ?_, h1.symm⟩
                  · rw [← h1, lookupKey_setKey_ne _ "start" "id" _ (by decide),
                      putList_lookup_ne _ _ _ "id" (by decide),
                      putList_lookup_ne _ _ _ "id" (by decide), lookupKey_setKey_self]
                  · rw [wfStart, ← h1, lookupKey_setKey_self]
                  · rw [wfActions, ← h1, lookupKey_setKey_ne _ "start" "actions" _
                      (by decide), putList_lookup_ne _ _ _ "actions" (by decide),
                      putList_lookup_self,
                      lookupKey_setKey_ne wf "id" "actions" _ (by decide)]
                    rcases hwa : lookupKey wf "actions" with _ | av
                    · simp only []
                      exact (hnonarrA (by simp [hwa])).symm
                    · cases av with
                      | arr es => simp only []
                      | obj gs =>
                          simp only []
                          exact (hnonarrA (by simp [hwa])).symm
                      | str s3 =>
                          simp only []
                          exact (hnonarrA (by simp [hwa])).symm
                      | int n =>
                          simp only []
                          exact (hnonarrA (by simp [hwa])).symm
                      | bool b =>
                          simp only []
                          exact (hnonarrA (by simp [hwa])).symm
                      | null =>
                          simp only []
                          exact (hnonarrA (by simp [hwa])).symm
                  · rw [wfBranches, ← h1, lookupKey_setKey_ne _ "start" "branches" _
                      (by decide), putList_lookup_self,
                      putList_lookup_ne _ _ _ "branches" (by decide),
                      lookupKey_setKey_ne wf "id" "branches" _ (by decide)]
                    rcases hwb : lookupKey wf "branches" with _ | bv
                    · simp only []
                      exact (hnonarrB (by simp [hwb])).symm
                    · cases bv with
                      | arr es => simp only []
                      | obj gs =>
                          simp only []
                          exact (hnonarrB (by simp [hwb])).symm
                      | str s3 =>
                          simp only []
                          exact (hnonarrB (by simp [hwb])).symm
                      | int n =>
                          simp only []
                          exact (hnonarrB (by simp [hwb])).symm
                      | bool b =>
                          simp only []
                          exact (hnonarrB (by simp [hwb])).symm
                      | null =>
                          simp only []
                          exact (hnonarrB (by simp [hwb])).symm
                  · intro k hk1 hk2 hk3 hk4
                    rw [← h1, lookupKey_setKey_ne _ "start" k _ hk4,
                      hchain k hk1 hk2 hk3]
              · rw [if_neg hsh] at h
                cases h

theorem wf_regen_success (gen : Nat → String) (wf : Fields) (ctr : Nat)
    (hv : validWorkflowShape wf = true) :
    ∃ wfout ctrout, regenerate_workflow_ids gen wf ctr = .ok (wfout, ctrout) := by
  obtain ⟨as, ha, hwa, hacts, ⟨sv, hstart, hsv⟩, hbr⟩ := valid_shape_elim wf hv
  have hstr : ∀ v ∈ oldIdsOf as, ∃ s2, v = .str s2 := by
    apply oldIds_str
    intro a hamem afs haeq
    obtain ⟨afs2, s2, he, hid, -⟩ := hacts a hamem
    rw [haeq] at he
    injection he with he
    exact ⟨s2, he ▸ hid⟩
  have hga : getIterList (setKey wf "id" (.str (gen ctr))) "actions" = .ok as := by
    rw [getIterList, lookupKey_setKey_ne wf "id" "actions" _ (by decide), ha]
  obtain ⟨⟨as1, m, ctr1⟩, hmp⟩ := mapping_pass_success gen as [] (ctr + 1) (by
    intro a hamem
    obtain ⟨afs, s2, he, hid, -⟩ := hacts a hamem
    exact ⟨afs, .str s2, he, hid, rfl⟩)
  have hmw : m = workflowMapping gen wf ctr := by
    obtain ⟨hm, -, -, -⟩ := mapping_pass_elim gen as [] (ctr + 1) as1 m ctr1 hmp
    rw [hm, workflowMapping, hwa]
  have hp : ∀ v, (fun v => decide (v ∈ oldIdsOf as)) v = true →
      (mapLookup m v).isSome = true := by
    intro v hpv
    rw [hmw]
    exact (workflowMapping_isSome gen wf ctr v).mpr (by
      rw [hwa]
      exact of_decide_eq_true hpv)
  obtain ⟨-, -, hlen, hget⟩ := mapping_pass_elim gen as [] (ctr + 1) as1 m ctr1 hmp
  have hconf : ∀ a1 ∈ as1, ∃ afs1, a1 = .obj afs1 ∧
      okObj (fun v => decide (v ∈ oldIdsOf as)) afs1 = true := by
    intro a1 hmem
    obtain ⟨i, hi⟩ := List.mem_iff_getElem?.mp hmem
    have hilt : i < as.length := by
      rw [← hlen]
      exact (List.getElem?_eq_some_iff.mp hi).choose
    obtain ⟨afs, prev, hg1, hg2, hg3, hg4⟩ := hget i hilt
    rw [hi] at hg4
    injection hg4 with hg4
    have hmemas : JVal.obj afs ∈ as := List.getElem?_mem hg1
    obtain ⟨afs2, s2, he, -, hobj⟩ := hacts (.obj afs) hmemas
    injection he with he
    refine ⟨setKey afs "id" (.str (gen (ctr + 1 + i))), hg4, ?_⟩
    exact okObj_setKey_str _ afs "id" _ (by decide) (he ▸ hobj)
  obtain ⟨⟨as2, ctr2⟩, harp⟩ := action_rewrite_pass_success gen m
    (fun v => decide (v ∈ oldIdsOf as)) hp as1 ctr1 hconf
  have hlb : lookupKey (putList (setKey wf "id" (.str (gen ctr))) "actions" as2)
      "branches" = lookupKey wf "branches" := by
    rw [putList_lookup_ne _ _ _ _ (by decide),
      lookupKey_setKey_ne wf "id" "branches" _ (by decide)]
  have hgb : getIterList (putList (setKey wf "id" (.str (gen ctr))) "actions" as2)
      "branches" = .ok (wfBranches wf) := by
    rw [getIterList, hlb]
    rcases hbr with hbn | ⟨bs, hbs, -⟩
    · rw [hbn]
      simp only []
      rw [wfBranches, hbn]
    · rw [hbs]
      simp only []
      rw [wfBranches, hbs]
  have hbconf : ∀ b ∈ wfBranches wf, ∃ bfs sv2 dv2, b = .obj bfs ∧
      okObj (fun v => decide (v ∈ oldIdsOf as)) bfs = true ∧
      lookupKey bfs "source_id" = some sv2 ∧ jHashable sv2 = true ∧
      (mapLookup m sv2).isSome = true ∧
      lookupKey bfs "destination_id" = some dv2 ∧ jHashable dv2 = true ∧
      (mapLookup m dv2).isSome = true := by
    intro b hbmem
    rcases hbr with hbn | ⟨bs, hbs, hbok⟩
    · rw [wfBranches, hbn] at hbmem
      simp at hbmem
    · rw [wfBranches, hbs] at hbmem
      obtain ⟨bfs, sv2, dv2, hbeq, hsl, hsmem, hdl, hdmem, hobj⟩ := hbok b hbmem
      obtain ⟨ss, hss⟩ := hstr sv2 hsmem
      obtain ⟨ds, hds⟩ := hstr dv2 hdmem
      exact ⟨bfs, sv2, dv2, hbeq, hobj, hsl, by rw [hss]; rfl,
        hp sv2 (decide_eq_true hsmem), hdl, by rw [hds]; rfl,
        hp dv2 (decide_eq_true hdmem)⟩
  obtain ⟨⟨bs1, ctr3⟩, hbp⟩ := branch_pass_success gen m
    (fun v => decide (v ∈ oldIdsOf as)) hp (wfBranches wf) ctr2 hbconf
  have hst3 : lookupKey (putList (putList (setKey wf "id" (.str (gen ctr)))
      "actions" as2) "branches" bs1) "start" = some sv := by
    rw [putList_lookup_ne _ _ _ _ (by decide), putList_lookup_ne _ _ _ _ (by decide),
      lookupKey_setKey_ne wf "id" "start" _ (by decide)]
    exact hstart
  obtain ⟨svs, hsvs⟩ := hstr sv hsv
  have hsvh : jHashable sv = true := by
    rw [hsvs]
    rfl
  obtain ⟨s, hs⟩ := Option.isSome_iff_exists.mp (hp sv (decide_eq_true hsv))
  simp only [regenerate_workflow_ids]
  rw [hga]
  simp only []
  rw [hmp]
  simp only []
  rw [harp]
  simp only []
  rw [hgb]
  simp only []
  rw [hbp]
  simp only []
  rw [hst3]
  simp only []
  rw [if_pos hsvh, hs]
  simp only []
  exact ⟨_, _, rfl⟩

theorem mem_allIdsL_of_oldIds : ∀ (es : List JVal) (v : JVal),
    v ∈ oldIdsOf es → v ∈ allIdsL es := by
  intro es
  induction es with
  | nil =>
      intro v hv
      simp [oldIdsOf] at hv
  | cons e rest ih =>
      intro v hv
      cases e with
      | obj afs =>
          rw [oldIdsOf, List.mem_append] at hv
          rw [allIdsL, List.mem_append]
          rcases hv with hv | hv
          · left
            rw [idEntry] at hv
            rcases hl : lookupKey afs "id" with _ | w <;> rw [hl] at hv
            · simp at hv
            · simp only [List.mem_singleton] at hv
              subst hv
              rw [allIdsV]
              clear ih
              induction afs with
              | nil => simp [lookupKey] at hl
              | cons hd tl ih2 =>
                  obtain ⟨k1, w1⟩ := hd
                  rw [lookupKey] at hl
                  by_cases hk : k1 = "id"
                  · rw [if_pos hk] at hl
                    injection hl with hl
                    rw [allIdsF, hk, if_pos rfl, hl]
                    simp
                  · rw [if_neg hk] at hl
                    rw [allIdsF, if_neg hk]
                    simp only [List.nil_append, List.mem_append]
                    right
                    exact ih2 hl
          · right
            exact ih v hv
      | str sv =>
          simp only [oldIdsOf] at hv
          rw [allIdsL, List.mem_append]
          exact Or.inr (ih v hv)
      | int nv =>
          simp only [oldIdsOf] at hv
          rw [allIdsL, List.mem_append]
          exact Or.inr (ih v hv)
      | bool bv =>
          simp only [oldIdsOf] at hv
          rw [allIdsL, List.mem_append]
          exact Or.inr (ih v hv)
      | null =>
          simp only [oldIdsOf] at hv
          rw [allIdsL, List.mem_append]
          exact Or.inr (ih v hv)
      | arr es2 =>
          simp only [oldIdsOf] at hv
          rw [allIdsL, List.mem_append]
          exact Or.inr (ih v hv)

theorem mem_allIdsF_of_id : ∀ (fs : Fields) (v : JVal),
    lookupKey fs "id" = some v → v ∈ allIdsF fs := by
  intro fs
  induction fs with
  | nil =>
      intro v hv
      simp [lookupKey] at hv
  | cons hd tl ih =>
      intro v hv
      obtain ⟨k1, w1⟩ := hd
      rw [lookupKey] at hv
      by_cases hk : k1 = "id"
      · rw [if_pos hk] at hv
        injection hv with hv
        rw [allIdsF, hk, if_pos rfl, hv]
        simp
      · rw [if_neg hk] at hv
        rw [allIdsF, if_neg hk]
        simp only [List.nil_append, List.mem_append]
        right
        exact ih v hv

theorem mem_allIdsF_of_arr : ∀ (fs : Fields) (k : String) (es : List JVal) (v : JVal),
    lookupKey fs k = some (.arr es) → v ∈ allIdsL es → v ∈ allIdsF fs := by
  intro fs
  induction fs with
  | nil =>
      intro k es v hl hv
      simp [lookupKey] at hl
  | cons hd tl ih =>
      intro k es v hl hv
      obtain ⟨k1, w1⟩ := hd
      rw [lookupKey] at hl
      by_cases hk : k1 = k
      · rw [if_pos hk] at hl
        injection hl with hl
        rw [allIdsF, hl]
        simp only [allIdsV, List.mem_append]
        exact Or.inl (Or.inr hv)
      · rw [if_neg hk] at hl
        rw [allIdsF]
        simp only [List.mem_append]
        exact Or.inr (ih k es v hl hv)

theorem lastIdx_of_nodup : ∀ (as : List JVal), (oldIdsOf as).Nodup →
    ∀ (i : Nat) (afs : Fields) (v : JVal), as[i]? = some (.obj afs) →
    lookupKey afs "id" = some v → lastIdxOf as v = some i := by
  intro as
  induction as with
  | nil =>
      intro hnd i afs v hi
      simp at hi
  | cons a rest ih =>
      intro hnd i afs v hi hl
      match i with
      | 0 =>
          simp only [List.getElem?_cons_zero] at hi
          injection hi with hi
          subst hi
          have hvmem : v ∈ idEntry afs := by
            rw [idEntry, hl]
            simp
          have hnot : v ∉ oldIdsOf rest := by
            rw [oldIdsOf, List.nodup_append] at hnd
            intro hmem
            exact hnd.2.2 hvmem hmem
          have hnone : lastIdxOf rest v = none := by
            rcases hr : lastIdxOf rest v with _ | j
            · rfl
            · exact absurd ((mem_oldIds_iff_lastIdx v rest).mpr (by rw [hr]; rfl)) hnot
          rw [lastIdxOf, hnone]
          simp [hl]
      | i + 1 =>
          simp only [List.getElem?_cons_succ] at hi
          have hndr : (oldIdsOf rest).Nodup := by
            cases a with
            | obj bfs =>
                rw [oldIdsOf, List.nodup_append] at hnd
                exact hnd.2.1
            | str sv => simpa [oldIdsOf] using hnd
            | int nv => simpa [oldIdsOf] using hnd
            | bool bv => simpa [oldIdsOf] using hnd
            | null => simpa [oldIdsOf] using hnd
            | arr es => simpa [oldIdsOf] using hnd
          have := ih hndr i afs v hi hl
          simp only [lastIdxOf, this]

theorem oldIds_getElem : ∀ (as : List JVal),
    (∀ a ∈ as, ∃ afs s2, a = .obj afs ∧ lookupKey afs "id" = some (.str s2)) →
    (oldIdsOf as).length = as.length ∧
    ∀ i, i < as.length → ∃ afs v, as[i]? = some (.obj afs) ∧
      lookupKey afs "id" = some v ∧ (oldIdsOf as)[i]? = some v := by
  intro as
  induction as with
  | nil =>
      intro hok
      refine ⟨rfl, ?_⟩
      intro i hi
      simp at hi
  | cons a rest ih =>
      intro hok
      obtain ⟨afs, s2, ha, hl⟩ := hok a (List.mem_cons_self a rest)
      subst ha
      obtain ⟨ihlen, ihget⟩ := ih (fun a ha => hok a (List.mem_cons_of_mem _ ha))
      have hide : idEntry afs = [.str s2] := by
        rw [idEntry, hl]
      constructor
      · simp only [oldIdsOf, hide, List.length_append, List.length_cons,
          List.length_nil, ihlen]
        omega
      · intro i hi
        match i with
        | 0 =>
            refine ⟨afs, .str s2, by simp, hl, ?_⟩
            rw [oldIdsOf, hide]
            simp
        | i + 1 =>
            rw [List.length_cons] at hi
            obtain ⟨afs2, v2, hg1, hg2, hg3⟩ := ihget i (by omega)
            refine ⟨afs2, v2, by simpa using hg1, hg2, ?_⟩
            rw [oldIdsOf, hide]
            simpa using hg3

theorem genX_inj : Function.Injective genX := by
  intro a b h
  have h2 : (genX a).length = (genX b).length := by rw [h]
  simp only [genX, String.length, List.length_replicate] at h2
  omega

theorem genX_ne_empty (k : Nat) : genX k ≠ "" := by
  intro h
  have h2 : (genX k).length = ("" : String).length := by rw [h]
  simp [genX, String.length] at h2

theorem genX_ne_mk (k : Nat) (c : Char) (l : List Char) (hc : c ≠ 'x') :
    genX k ≠ String.mk (c :: l) := by
  intro h
  rw [genX] at h
  injection h with hd
  rw [List.replicate_succ] at hd
  injection hd with h1
  exact hc h1.symm

theorem as1_conf (gen : Nat → String) (wf : Fields) (ctr : Nat) (as1 : List JVal)
    (m : Mapping) (ctr1 : Nat) (hv : validWorkflowShape wf = true)
    (hmp : mapping_pass gen (wfActions wf) [] (ctr + 1) = .ok (as1, m, ctr1)) :
    ∀ a1 ∈ as1, ∃ afs1, a1 = .obj afs1 ∧
      okObj (fun v => decide (v ∈ oldIdsOf (wfActions wf))) afs1 = true := by
  obtain ⟨as, ha, hwa, hacts, -, -⟩ := valid_shape_elim wf hv
  rw [hwa] at hmp ⊢
  obtain ⟨-, -, hlen, hget⟩ := mapping_pass_elim gen as [] (ctr + 1) as1 m ctr1 hmp
  intro a1 hmem
  obtain ⟨i, hi⟩ := List.mem_iff_getElem?.mp hmem
  have hilt : i < as.length := by
    rw [← hlen]
    exact (List.getElem?_eq_some_iff.mp hi).choose
  obtain ⟨afs, prev, hg1, hg2, hg3, hg4⟩ := hget i hilt
  rw [hi] at hg4
  injection hg4 with hg4
  have hmemas : JVal.obj afs ∈ as := List.getElem?_mem hg1
  obtain ⟨afs2, s2, he, -, hobj⟩ := hacts (.obj afs) hmemas
  injection he with he
  exact ⟨setKey afs "id" (.str (gen (ctr + 1 + i))), hg4,
    okObj_setKey_str _ afs "id" _ (by decide) (he ▸ hobj)⟩

theorem bs_conf (wf : Fields) (hv : validWorkflowShape wf = true) :
    ∀ b ∈ wfBranches wf, ∃ bfs, b = .obj bfs ∧
      okObj (fun v => decide (v ∈ oldIdsOf (wfActions wf))) bfs = true := by
  obtain ⟨as, ha, hwa, -, -, hbr⟩ := valid_shape_elim wf hv
  intro b hbmem
  rcases hbr with hbn | ⟨bs, hbs, hbok⟩
  · rw [wfBranches, hbn] at hbmem
    simp at hbmem
  · rw [wfBranches, hbs] at hbmem
    obtain ⟨bfs, sv2, dv2, hbeq, -, -, -, -, hobj⟩ := hbok b hbmem
    rw [hwa]
    exact ⟨bfs, hbeq, hobj⟩

theorem m_bridge (gen : Nat → String) (wf : Fields) (ctr : Nat) (as1 : List JVal)
    (m : Mapping) (ctr1 : Nat)
    (hmp : mapping_pass gen (wfActions wf) [] (ctr + 1) = .ok (as1, m, ctr1)) :
    m = workflowMapping gen wf ctr ∧
    (∀ v, (fun v => decide (v ∈ oldIdsOf (wfActions wf))) v = true →
      (mapLookup m v).isSome = true) := by
  obtain ⟨hm, -, -, -⟩ := mapping_pass_elim gen _ [] (ctr + 1) as1 m ctr1 hmp
  have hmw : m = workflowMapping gen wf ctr := by
    rw [hm, workflowMapping]
  refine ⟨hmw, ?_⟩
  intro v hpv
  rw [hmw]
  exact (workflowMapping_isSome gen wf ctr v).mpr (of_decide_eq_true hpv)

/-- C5: the spec claims any id field at any nesting depth under an arguments
or device_id field is absent from the output. The code strips the id only of
the dict that is itself the value of such a field, or a dict element of its
list value; a dict one level deeper, reached through an ordinary field of an
argument dict, is visited with identity assignment on and ends up holding a
fresh id. The amended statement proved here: in the output of a successful
run on a conformant workflow, every action and branch has no id binding on
any node in argument context of its visited region. -/
theorem spec_C5 (gen : Nat → String) (wf : Fields) (ctr : Nat) (wf' : Fields) (ctr' : Nat)
    (hv : validWorkflowShape wf = true)
    (h : regenerate_workflow_ids gen wf ctr = .ok (wf', ctr')) :
    (∀ a ∈ wfActions wf', ∃ afs, a = .obj afs ∧ strayFields afs = []) ∧
    (∀ b ∈ wfBranches wf', ∃ bfs, b = .obj bfs ∧ strayFields bfs = []) := by
  obtain ⟨as1, m, ctr1, as2, ctr2, bs1, ctr3, sv, s, hmp, harp, hbp, -, -, -, -, -, -,
    hA10, hA11, -, -⟩ := wf_run_elim gen wf ctr wf' ctr' h
  constructor
  · rw [hA10]
    exact action_rewrite_pass_stray gen m _ as1 ctr1 as2 ctr2
      (as1_conf gen wf ctr as1 m ctr1 hv hmp) harp
  · rw [hA11]
    exact branch_pass_stray gen m _ (wfBranches wf) ctr2 bs1 ctr3
      (bs_conf wf hv) hbp

/-- C5 counterexample: an id two levels below an arguments field, on a dict
reached through an ordinary field of the argument dict, is present in the
output with a fresh value rather than absent. -/
theorem spec_C5_cex :
    regenerate_workflow_ids genX
      [("id", JVal.str "W"), ("start", JVal.str "A"),
       ("actions", JVal.arr [JVal.obj [("id", JVal.str "A"),
         ("arguments", JVal.obj [("x", JVal.obj [("id", JVal.str "K")])])]])] 0 =
      .ok ([("id", JVal.str (genX 0)), ("start", JVal.str (genX 1)),
       ("actions", JVal.arr [JVal.obj [("id", JVal.str (genX 1)),
         ("arguments", JVal.obj [("x", JVal.obj [("id", JVal.str (genX 3))])])]])], 4) ∧
    getPath (JVal.obj [("id", JVal.str "W"), ("start", JVal.str "A"),
       ("actions", JVal.arr [JVal.obj [("id", JVal.str "A"),
         ("arguments", JVal.obj [("x", JVal.obj [("id", JVal.str "K")])])]])])
      [.fld "actions", .idx 0, .fld "arguments", .fld "x", .fld "id"]
      = some (JVal.str "K") ∧
    getPath (JVal.obj [("id", JVal.str (genX 0)), ("start", JVal.str (genX 1)),
       ("actions", JVal.arr [JVal.obj [("id", JVal.str (genX 1)),
         ("arguments", JVal.obj [("x", JVal.obj [("id", JVal.str (genX 3))])])]])])
      [.fld "actions", .idx 0, .fld "arguments", .fld "x", .fld "id"]
      = some (JVal.str (genX 3)) := by
  refine ⟨rfl, rfl, rfl⟩

theorem spec_C5_witness :
    validWorkflowShape [("id", JVal.str "W"), ("start", JVal.str "A"),
       ("actions", JVal.arr [JVal.obj [("id", JVal.str "A"),
         ("arguments", JVal.obj [("x", JVal.obj [("id", JVal.str "K")])])]])] = true ∧
    ((∀ a ∈ wfActions [("id", JVal.str (genX 0)), ("start", JVal.str (genX 1)),
       ("actions", JVal.arr [JVal.obj [("id", JVal.str (genX 1)),
         ("arguments", JVal.obj [("x", JVal.obj [("id", JVal.str (genX 3))])])]])],
       ∃ afs, a = .obj afs ∧ strayFields afs = []) ∧
     (∀ b ∈ wfBranches [("id", JVal.str (genX 0)), ("start", JVal.str (genX 1)),
       ("actions", JVal.arr [JVal.obj [("id", JVal.str (genX 1)),
         ("arguments", JVal.obj [("x", JVal.obj [("id", JVal.str (genX 3))])])]])],
       ∃ bfs, b = .obj bfs ∧ strayFields bfs = [])) :=
  ⟨by decide, spec_C5 genX
    [("id", JVal.str "W"), ("start", JVal.str "A"),
       ("actions", JVal.arr [JVal.obj [("id", JVal.str "A"),
         ("arguments", JVal.obj [("x", JVal.obj [("id", JVal.str "K")])])]])] 0
    [("id", JVal.str (genX 0)), ("start", JVal.str (genX 1)),
       ("actions", JVal.arr [JVal.obj [("id", JVal.str (genX 1)),
         ("arguments", JVal.obj [("x", JVal.obj [("id", JVal.str (genX 3))])])]])] 4
    (by decide) rfl⟩

/-- C6: the spec claims every field with a non-reserved name is opaque
payload passed through unchanged. The code recurses into every dict or list
valued field, assigning fresh identities to the dicts it reaches there, so a
structured value under a non-reserved name is altered. The amended statement
proved here: a scalar value under a non-reserved field name is passed through
unchanged by the rewriter, and an absent field stays absent. -/
theorem spec_C6 (gen : Nat → String) (m : Mapping) (fuel : Nat) (fs : Fields)
    (rid ia : Bool) (ctr : Nat) (fs' : Fields) (ctr' : Nat)
    (h : regenerate_ids gen m fuel fs rid ia ctr = .ok (fs', ctr'))
    (k : String) (hk1 : k ≠ "id") (hk2 : k ≠ "reference") :
    (∀ v, lookupKey fs k = some v → isLeaf v = true → lookupKey fs' k = some v) ∧
    (lookupKey fs k = none → lookupKey fs' k = none) :=
  ⟨fun v hv hl => regen_obj_keep_leaf gen m fuel fs rid ia ctr fs' ctr' h k hk1 hk2 v hv hl,
   fun hv => regen_obj_keep_none gen m fuel fs rid ia ctr fs' ctr' h k hk1 hk2 hv⟩

/-- C6 counterexample: a dict stored under the non-reserved field name
payload is not passed through unchanged; the rewriter injects a fresh id
into it. -/
theorem spec_C6_cex :
    regenerate_workflow_ids genX
      [("id", JVal.str "W"), ("start", JVal.str "A"),
       ("actions", JVal.arr [JVal.obj [("id", JVal.str "A"),
         ("payload", JVal.obj [("k", JVal.int 1)])]])] 0 =
      .ok ([("id", JVal.str (genX 0)), ("start", JVal.str (genX 1)),
       ("actions", JVal.arr [JVal.obj [("id", JVal.str (genX 1)),
         ("payload", JVal.obj [("k", JVal.int 1), ("id", JVal.str (genX 2))])]])], 3) ∧
    JVal.obj [("k", JVal.int 1), ("id", JVal.str (genX 2))] ≠ JVal.obj [("k", JVal.int 1)]
    := by
  refine ⟨rfl, by decide⟩

theorem spec_C6_witness :
    lookupKey [("id", JVal.str "A"), ("note", JVal.str "hi")] "note"
      = some (JVal.str "hi") ∧
    isLeaf (JVal.str "hi") = true ∧
    lookupKey [("id", JVal.str (genX 0)), ("note", JVal.str "hi")] "note"
      = some (JVal.str "hi") :=
  ⟨by decide, by decide,
   (spec_C6 genX [] 10 [("id", JVal.str "A"), ("note", JVal.str "hi")] true false 0
     [("id", JVal.str (genX 0)), ("note", JVal.str "hi")] 1 rfl "note"
     (by decide) (by decide)).1 (JVal.str "hi") (by decide) (by decide)⟩

/-- C7: the spec claims a node with an absent or falsy reference keeps the
reference field exactly as it was, with no failure. This holds for an absent
reference and for falsy scalar reference values, but a falsy dict reference,
such as an empty dict, is not left untouched: the field loop recurses into
it with identity assignment on and it gains a fresh id. The amended
statement proved here: on a conformant node whose reference is absent, the
rewriter succeeds and the reference stays absent; on one whose reference
holds a falsy scalar, the rewriter succeeds and the reference field is
preserved exactly. -/
theorem spec_C7 (gen : Nat → String) (m : Mapping) (p : JVal → Bool) (fs : Fields)
    (rid ia : Bool) (ctr : Nat)
    (hp : ∀ v, p v = true → (mapLookup m v).isSome = true)
    (hok : okObj p fs = true) :
    (lookupKey fs "reference" = none →
      ∃ fs' ctr', regenerate_ids gen m (fuelFor fs) fs rid ia ctr = .ok (fs', ctr') ∧
        lookupKey fs' "reference" = none) ∧
    (∀ w, lookupKey fs "reference" = some w → isLeaf w = true → jTruthy w = false →
      ∃ fs' ctr', regenerate_ids gen m (fuelFor fs) fs rid ia ctr = .ok (fs', ctr') ∧
        lookupKey fs' "reference" = some w) := by
  obtain ⟨⟨fs', ctr'⟩, hrun⟩ := (regen_success gen m p hp (fuelFor fs)).1 fs rid ia ctr
    (by rw [fuelFor]) hok
  constructor
  · intro hnone
    exact ⟨fs', ctr', hrun,
      regen_obj_ref_none gen m (fuelFor fs) fs rid ia ctr fs' ctr' hrun hnone⟩
  · intro w hw hl ht
    exact ⟨fs', ctr', hrun,
      regen_obj_ref_falsy gen m (fuelFor fs) fs rid ia ctr fs' ctr' hrun w hw ht hl⟩

/-- C7 counterexample: a falsy reference holding an empty dict is not left
exactly as it was; the rewriter recurses into it and it gains a fresh id,
while no failure is raised. -/
theorem spec_C7_cex :
    regenerate_ids genX [] 10 [("reference", JVal.obj [])] false false 0 =
      .ok ([("reference", JVal.obj [("id", JVal.str (genX 0))])], 1) ∧
    JVal.obj [("id", JVal.str (genX 0))] ≠ JVal.obj [] := by
  refine ⟨rfl, by decide⟩

theorem spec_C7_witness :
    okObj (fun _ => false) [("x", JVal.int 1)] = true ∧
    okObj (fun _ => false) [("reference", JVal.str "")] = true ∧
    (∃ fs' ctr', regenerate_ids genX [] (fuelFor [("x", JVal.int 1)])
        [("x", JVal.int 1)] false false 0 = .ok (fs', ctr') ∧
      lookupKey fs' "reference" = none) ∧
    (∃ fs' ctr', regenerate_ids genX [] (fuelFor [("reference", JVal.str "")])
        [("reference", JVal.str "")] false false 0 = .ok (fs', ctr') ∧
      lookupKey fs' "reference" = some (JVal.str "")) :=
  ⟨by decide, by decide,
   (spec_C7 genX [] (fun _ => false) [("x", JVal.int 1)] false false 0
     (fun v hv => by cases hv) (by decide)).1 (by decide),
   (spec_C7 genX [] (fun _ => false) [("reference", JVal.str "")] false false 0
     (fun v hv => by cases hv) (by decide)).2 (JVal.str "") (by decide) (by decide)
     (by decide)⟩

/-- C8: when the rewriter is invoked with both identity assignment and
argument context in force, the node ends the call with no id binding:
suppression wins over assignment. Stated for any dict with pairwise distinct
keys, the invariant every Python dict satisfies. -/
theorem spec_C8 (gen : Nat → String) (m : Mapping) (fuel : Nat) (fs : Fields)
    (ctr : Nat) (fs' : Fields) (ctr' : Nat)
    (hnd : (keysOf fs).Nodup)
    (h : regenerate_ids gen m fuel fs true true ctr = .ok (fs', ctr')) :
    lookupKey fs' "id" = none :=
  regen_obj_id_pop gen m fuel fs true ctr fs' ctr' h hnd

theorem spec_C8_witness :
    (keysOf [("id", JVal.str "A"), ("x", JVal.int 1)]).Nodup ∧
    lookupKey [("x", JVal.int 1)] "id" = none :=
  ⟨by decide,
   spec_C8 genX [] 10 [("id", JVal.str "A"), ("x", JVal.int 1)] 0
     [("x", JVal.int 1)] 1 (by decide) rfl⟩

theorem mapping_pass_noid (gen : Nat → String) : ∀ (as : List JVal) (m0 : Mapping)
    (ctr : Nat), (∃ a ∈ as, ∃ afs, a = .obj afs ∧ lookupKey afs "id" = none) →
    ∀ out, mapping_pass gen as m0 ctr ≠ .ok out := by
  intro as
  induction as with
  | nil =>
      intro m0 ctr hex
      obtain ⟨a, ha, -⟩ := hex
      simp at ha
  | cons a rest ih =>
      intro m0 ctr hex out h
      obtain ⟨b, hb, bfs, hbeq, hbid⟩ := hex
      rcases List.mem_cons.mp hb with hbeq2 | hbr
      · subst hbeq2
        subst hbeq
        simp only [mapping_pass] at h
        rw [hbid] at h
        simp only [] at h
        cases h
      · cases a with
        | obj afs =>
            simp only [mapping_pass] at h
            rcases hl : lookupKey afs "id" with _ | prev <;> rw [hl] at h <;>
              simp only [] at h
            · cases h
            · by_cases hh : jHashable prev
              · rw [if_pos hh] at h
                rcases hmp : mapping_pass gen rest (mapInsert m0 prev (gen ctr)) (ctr + 1)
                    with e | ⟨rest1, m2, ctr2⟩ <;> rw [hmp] at h <;> simp only [] at h
                · cases h
                · exact ih _ _ ⟨b, hbr, bfs, hbeq, hbid⟩ _ hmp
              · rw [if_neg hh] at h
                cases h
        | str sv => simp only [mapping_pass] at h; cases h
        | int nv => simp only [mapping_pass] at h; cases h
        | bool bv => simp only [mapping_pass] at h; cases h
        | null => simp only [mapping_pass] at h; cases h
        | arr es => simp only [mapping_pass] at h; cases h

theorem branch_pass_nondict (gen : Nat → String) (m : Mapping) : ∀ (bs : List JVal)
    (ctr : Nat), (∃ b ∈ bs, isObjB b = false) →
    ∀ out, branch_pass gen m bs ctr ≠ .ok out := by
  intro bs
  induction bs with
  | nil =>
      intro ctr hex
      obtain ⟨b, hb, -⟩ := hex
      simp at hb
  | cons b0 rest ih =>
      intro ctr hex out h
      obtain ⟨b, hb, hbo⟩ := hex
      rcases List.mem_cons.mp hb with hbeq | hbr
      · subst hbeq
        cases b with
        | obj bfs => simp [isObjB] at hbo
        | str sv => simp only [branch_pass] at h; cases h
        | int nv => simp only [branch_pass] at h; cases h
        | bool bv => simp only [branch_pass] at h; cases h
        | null => simp only [branch_pass] at h; cases h
        | arr es => simp only [branch_pass] at h; cases h
      · cases b0 with
        | obj bfs =>
            obtain ⟨sv, s, dv, d, bfs2, ctrm, rest2, ctr2, -, -, -, -, -, -, -,
              hrest, -⟩ := branch_pass_cons_elim gen m bfs rest ctr _ h
            exact ih ctrm ⟨b, hbr, hbo⟩ _ hrest
        | str sv => simp only [branch_pass] at h; cases h
        | int nv => simp only [branch_pass] at h; cases h
        | bool bv => simp only [branch_pass] at h; cases h
        | null => simp only [branch_pass] at h; cases h
        | arr es => simp only [branch_pass] at h; cases h

/-- C9: the spec claims any node expected to be a dict that is some other
type aborts regeneration with a fatal error and is never silently skipped.
This holds for both top-level loops: the actions loop fails on a non-dict
action and on an action dict missing its required id, and the branch loop
fails on a non-dict branch. But the recursive list walker silently skips
non-dict elements of visited lists and passes them through unchanged. The
amended statement proved here is that conjunction. -/
theorem spec_C9 (gen : Nat → String) (m : Mapping) (fuel : Nat) :
    (∀ (as : List JVal) (m0 : Mapping) (ctr : Nat), (∃ a ∈ as, isObjB a = false) →
      ∀ out, mapping_pass gen as m0 ctr ≠ .ok out) ∧
    (∀ (as : List JVal) (m0 : Mapping) (ctr : Nat),
      (∃ a ∈ as, ∃ afs, a = .obj afs ∧ lookupKey afs "id" = none) →
      ∀ out, mapping_pass gen as m0 ctr ≠ .ok out) ∧
    (∀ (bs : List JVal) (ctr : Nat), (∃ b ∈ bs, isObjB b = false) →
      ∀ out, branch_pass gen m bs ctr ≠ .ok out) ∧
    (∀ es ia ctr es' ctr', regenerate_ids_of_list gen m fuel es ia ctr = .ok (es', ctr') →
      List.Forall₂ (fun e e' => isObjB e = false → e' = e) es es') := by
  refine ⟨?_, ?_, ?_, ?_⟩
  · exact fun as m0 ctr hex => mapping_pass_nondict gen as m0 ctr hex
  · exact fun as m0 ctr hex => mapping_pass_noid gen as m0 ctr hex
  · exact fun bs ctr hex => branch_pass_nondict gen m bs ctr hex
  · intro es ia ctr es' ctr' h
    exact ((regen_list_align gen m fuel es ia ctr es' ctr' h).2).imp
      (fun a b hab => hab.1)

/-- C9 counterexample: a visited list holding a non-dict element is processed
without any error and the element is silently passed through. -/
theorem spec_C9_cex :
    regenerate_ids genX [] 10 [("xs", JVal.arr [JVal.int 5])] false false 0 =
      .ok ([("xs", JVal.arr [JVal.int 5])], 0) := by
  rfl

theorem spec_C9_witness :
    (∀ out, mapping_pass genX [JVal.int 5] [] 0 ≠ .ok out) ∧
    (∀ out, mapping_pass genX [JVal.obj [("x", JVal.int 1)]] [] 0 ≠ .ok out) ∧
    (∀ out, branch_pass genX [] [JVal.int 5] 0 ≠ .ok out) ∧
    List.Forall₂ (fun e e' => isObjB e = false → e' = e) [JVal.int 5] [JVal.int 5] :=
  ⟨(spec_C9 genX [] 10).1 [JVal.int 5] [] 0 ⟨JVal.int 5, by decide, by decide⟩,
   (spec_C9 genX [] 10).2.1 [JVal.obj [("x", JVal.int 1)]] [] 0
     ⟨JVal.obj [("x", JVal.int 1)], by decide, [("x", JVal.int 1)], rfl, by decide⟩,
   (spec_C9 genX [] 10).2.2.1 [JVal.int 5] 0 ⟨JVal.int 5, by decide, by decide⟩,
   (spec_C9 genX [] 10).2.2.2 [JVal.int 5] false 0 [JVal.int 5] 0 rfl⟩

theorem wf_new_action_ids (gen : Nat → String) (wf : Fields) (ctr : Nat)
    (as1 : List JVal) (m : Mapping) (ctr1 : Nat) (as2 : List JVal) (ctr2 : Nat)
    (hmp : mapping_pass gen (wfActions wf) [] (ctr + 1) = .ok (as1, m, ctr1))
    (harp : action_rewrite_pass gen m as1 ctr1 = .ok (as2, ctr2)) :
    oldIdsOf as2 =
      (List.range' (ctr + 1) (wfActions wf).length).map (fun k => JVal.str (gen k)) := by
  have hids1 := mapping_pass_ids gen (wfActions wf) [] (ctr + 1) as1 m ctr1 hmp
  obtain ⟨-, -, hlen, hget⟩ := mapping_pass_elim gen (wfActions wf) [] (ctr + 1)
    as1 m ctr1 hmp
  have hleaf : ∀ a ∈ as1, ∀ afs, a = .obj afs → ∀ w, lookupKey afs "id" = some w →
      isLeaf w = true := by
    intro a hmem afs haeq w hw
    obtain ⟨i, hi⟩ := List.mem_iff_getElem?.mp hmem
    have hilt : i < (wfActions wf).length := by
      rw [← hlen]
      exact (List.getElem?_eq_some_iff.mp hi).choose
    obtain ⟨afs0, prev, hg1, hg2, hg3, hg4⟩ := hget i hilt
    rw [hi] at hg4
    injection hg4 with hg4
    rw [haeq] at hg4
    injection hg4 with hg4
    rw [hg4, lookupKey_setKey_self] at hw
    injection hw with hw
    rw [← hw]
    simp [isLeaf]
  rw [action_rewrite_pass_ids gen m as1 ctr1 as2 ctr2 hleaf harp, hids1]

theorem map_relabel (gen : Nat → String) (wf : Fields) (ctr : Nat)
    (hok : ∀ a ∈ wfActions wf, ∃ afs s2, a = .obj afs ∧
      lookupKey afs "id" = some (.str s2))
    (hnd : (oldIdsOf (wfActions wf)).Nodup) :
    (oldIdsOf (wfActions wf)).map (relabel (workflowMapping gen wf ctr))
      = (List.range' (ctr + 1) (wfActions wf).length).map (fun k => JVal.str (gen k)) := by
  obtain ⟨hlen, hget⟩ := oldIds_getElem (wfActions wf) hok
  apply List.ext_getElem?
  intro i
  by_cases hi : i < (wfActions wf).length
  · obtain ⟨afs, v, hg1, hg2, hg3⟩ := hget i hi
    have hlast := lastIdx_of_nodup (wfActions wf) hnd i afs v hg1 hg2
    rw [List.getElem?_map, hg3, List.getElem?_map, List.getElem?_range' _ _ hi]
    have hml : mapLookup (workflowMapping gen wf ctr) v = some (gen (ctr + 1 + i)) := by
      rw [workflowMapping_lookup, hlast]
      rfl
    simp [relabel, hml]
  · have h1 : (oldIdsOf (wfActions wf))[i]? = none := by
      rw [List.getElem?_eq_none_iff]
      omega
    have h2 : (List.range' (ctr + 1) (wfActions wf).length)[i]? = none := by
      rw [List.getElem?_eq_none_iff, List.length_range']
      omega
    rw [List.getElem?_map, h1, List.getElem?_map, h2]
    rfl

/-- C1: for every valid workflow, a successful regeneration relabels the
graph through the old-to-new identity mapping: the action count is
preserved, the output action ids are exactly the relabeled input action
ids, relabeling is injective on them when the generator is injective, the
start pointer is the relabeled input start pointer, and the branch endpoint
pairs are exactly the relabeled input endpoint pairs. Together these say the
output graph is isomorphic to the input graph under the mapping. -/
theorem spec_C1 (gen : Nat → String) (wf : Fields) (ctr : Nat) (wf' : Fields) (ctr' : Nat)
    (hinj : Function.Injective gen)
    (hv : validWorkflow wf = true)
    (h : regenerate_workflow_ids gen wf ctr = .ok (wf', ctr')) :
    (wfActions wf').length = (wfActions wf).length ∧
    oldIdsOf (wfActions wf') =
      (oldIdsOf (wfActions wf)).map (relabel (workflowMapping gen wf ctr)) ∧
    (oldIdsOf (wfActions wf')).Nodup ∧
    (∀ sv, wfStart wf = some sv →
      wfStart wf' = some (relabel (workflowMapping gen wf ctr) sv)) ∧
    branchPairsOf (wfBranches wf') = (branchPairsOf (wfBranches wf)).map
      (fun q => (relabel (workflowMapping gen wf ctr) q.1,
                 relabel (workflowMapping gen wf ctr) q.2)) := by
  rw [validWorkflow, Bool.and_eq_true] at hv
  obtain ⟨hshape, hnd⟩ := hv
  have hnd2 : (oldIdsOf (wfActions wf)).Nodup := of_decide_eq_true hnd
  obtain ⟨as1, m, ctr1, as2, ctr2, bs1, ctr3, sv, s, hmp, harp, hbp, hstw, hsh, hms, hc7,
    hA8, hA9, hA10, hA11, hA12, hA13⟩ := wf_run_elim gen wf ctr wf' ctr' h
  obtain ⟨hmw, hp⟩ := m_bridge gen wf ctr as1 m ctr1 hmp
  obtain ⟨as, ha, hwa, hacts, -, -⟩ := valid_shape_elim wf hshape
  have hids := wf_new_action_ids gen wf ctr as1 m ctr1 as2 ctr2 hmp harp
  have hok2 : ∀ a ∈ wfActions wf, ∃ afs s2, a = .obj afs ∧
      lookupKey afs "id" = some (.str s2) := by
    intro a hamem
    rw [hwa] at hamem
    obtain ⟨afs, s2, he, hid, -⟩ := hacts a hamem
    exact ⟨afs, s2, he, hid⟩
  refine ⟨?_, ?_, ?_, ?_, ?_⟩
  · rw [hA10]
    obtain ⟨hlen2, -, -⟩ := action_rewrite_pass_elim gen m as1 ctr1 as2 ctr2 harp
    obtain ⟨-, -, hlen1, -⟩ := mapping_pass_elim gen (wfActions wf) [] (ctr + 1)
      as1 m ctr1 hmp
    rw [hlen2, hlen1]
  · rw [hA10, hids, map_relabel gen wf ctr hok2 hnd2]
  · rw [hA10, hids]
    apply List.Nodup.map
    · intro a b hab
      injection hab with hab
      exact hinj hab
    · exact List.nodup_range' _ _
  · intro sv0 hsv0
    rw [wfStart, hstw] at hsv0
    injection hsv0 with hsv0
    subst hsv0
    rw [hA9, relabel, ← hmw, hms]
  · rw [hA11, branch_pass_pairs gen m (wfBranches wf) ctr2 bs1 ctr3 hbp, ← hmw]

theorem spec_C1_witness :
    validWorkflow [("id", JVal.str "W"), ("start", JVal.str "A1"),
      ("actions", JVal.arr [JVal.obj [("id", JVal.str "A1")],
                    JVal.obj [("id", JVal.str "A2"), ("reference", JVal.str "A1")]]),
      ("branches", JVal.arr [JVal.obj [("source_id", JVal.str "A1"),
        ("destination_id", JVal.str "A2")]])] = true ∧
    ((wfActions [("id", JVal.str (genX 0)), ("start", JVal.str (genX 1)),
      ("actions", JVal.arr [JVal.obj [("id", JVal.str (genX 1))],
         JVal.obj [("id", JVal.str (genX 2)), ("reference", JVal.str (genX 1))]]),
      ("branches", JVal.arr [JVal.obj [("source_id", JVal.str (genX 1)),
         ("destination_id", JVal.str (genX 2)), ("id", JVal.str (genX 3))]])]).length =
     (wfActions [("id", JVal.str "W"), ("start", JVal.str "A1"),
      ("actions", JVal.arr [JVal.obj [("id", JVal.str "A1")],
                    JVal.obj [("id", JVal.str "A2"), ("reference", JVal.str "A1")]]),
      ("branches", JVal.arr [JVal.obj [("source_id", JVal.str "A1"),
        ("destination_id", JVal.str "A2")]])]).length ∧
     oldIdsOf (wfActions [("id", JVal.str (genX 0)), ("start", JVal.str (genX 1)),
      ("actions", JVal.arr [JVal.obj [("id", JVal.str (genX 1))],
         JVal.obj [("id", JVal.str (genX 2)), ("reference", JVal.str (genX 1))]]),
      ("branches", JVal.arr [JVal.obj [("source_id", JVal.str (genX 1)),
         ("destination_id", JVal.str (genX 2)), ("id", JVal.str (genX 3))]])]) =
      (oldIdsOf (wfActions [("id", JVal.str "W"), ("start", JVal.str "A1"),
      ("actions", JVal.arr [JVal.obj [("id", JVal.str "A1")],
                    JVal.obj [("id", JVal.str "A2"), ("reference", JVal.str "A1")]]),
      ("branches", JVal.arr [JVal.obj [("source_id", JVal.str "A1"),
        ("destination_id", JVal.str "A2")]])])).map
        (relabel (workflowMapping genX [("id", JVal.str "W"), ("start", JVal.str "A1"),
      ("actions", JVal.arr [JVal.obj [("id", JVal.str "A1")],
                    JVal.obj [("id", JVal.str "A2"), ("reference", JVal.str "A1")]]),
      ("branches", JVal.arr [JVal.obj [("source_id", JVal.str "A1"),
        ("destination_id", JVal.str "A2")]])] 0)) ∧
     (oldIdsOf (wfActions [("id", JVal.str (genX 0)), ("start", JVal.str (genX 1)),
      ("actions", JVal.arr [JVal.obj [("id", JVal.str (genX 1))],
         JVal.obj [("id", JVal.str (genX 2)), ("reference", JVal.str (genX 1))]]),
      ("branches", JVal.arr [JVal.obj [("source_id", JVal.str (genX 1)),
         ("destination_id", JVal.str (genX 2)), ("id", JVal.str (genX 3))]])])).Nodup ∧
     (∀ sv, wfStart [("id", JVal.str "W"), ("start", JVal.str "A1"),
      ("actions", JVal.arr [JVal.obj [("id", JVal.str "A1")],
                    JVal.obj [("id", JVal.str "A2"), ("reference", JVal.str "A1")]]),
      ("branches", JVal.arr [JVal.obj [("source_id", JVal.str "A1"),
        ("destination_id", JVal.str "A2")]])] = some sv →
      wfStart [("id", JVal.str (genX 0)), ("start", JVal.str (genX 1)),
      ("actions", JVal.arr [JVal.obj [("id", JVal.str (genX 1))],
         JVal.obj [("id", JVal.str (genX 2)), ("reference", JVal.str (genX 1))]]),
      ("branches", JVal.arr [JVal.obj [("source_id", JVal.str (genX 1)),
         ("destination_id", JVal.str (genX 2)), ("id", JVal.str (genX 3))]])] =
        some (relabel (workflowMapping genX [("id", JVal.str "W"),
          ("start", JVal.str "A1"),
      ("actions", JVal.arr [JVal.obj [("id", JVal.str "A1")],
                    JVal.obj [("id", JVal.str "A2"), ("reference", JVal.str "A1")]]),
      ("branches", JVal.arr [JVal.obj [("source_id", JVal.str "A1"),
        ("destination_id", JVal.str "A2")]])] 0) sv)) ∧
     branchPairsOf (wfBranches [("id", JVal.str (genX 0)), ("start", JVal.str (genX 1)),
      ("actions", JVal.arr [JVal.obj [("id", JVal.str (genX 1))],
         JVal.obj [("id", JVal.str (genX 2)), ("reference", JVal.str (genX 1))]]),
      ("branches", JVal.arr [JVal.obj [("source_id", JVal.str (genX 1)),
         ("destination_id", JVal.str (genX 2)), ("id", JVal.str (genX 3))]])]) =
      (branchPairsOf (wfBranches [("id", JVal.str "W"), ("start", JVal.str "A1"),
      ("actions", JVal.arr [JVal.obj [("id", JVal.str "A1")],
                    JVal.obj [("id", JVal.str "A2"), ("reference", JVal.str "A1")]]),
      ("branches", JVal.arr [JVal.obj [("source_id", JVal.str "A1"),
        ("destination_id", JVal.str "A2")]])])).map
        (fun q => (relabel (workflowMapping genX [("id", JVal.str "W"),
          ("start", JVal.str "A1"),
      ("actions", JVal.arr [JVal.obj [("id", JVal.str "A1")],
                    JVal.obj [("id", JVal.str "A2"), ("reference", JVal.str "A1")]]),
      ("branches", JVal.arr [JVal.obj [("source_id", JVal.str "A1"),
        ("destination_id", JVal.str "A2")]])] 0) q.1,
          relabel (workflowMapping genX [("id", JVal.str "W"), ("start", JVal.str "A1"),
      ("actions", JVal.arr [JVal.obj [("id", JVal.str "A1")],
                    JVal.obj [("id", JVal.str "A2"), ("reference", JVal.str "A1")]]),
      ("branches", JVal.arr [JVal.obj [("source_id", JVal.str "A1"),
        ("destination_id", JVal.str "A2")]])] 0) q.2))) :=
  ⟨by decide, spec_C1 genX [("id", JVal.str "W"), ("start", JVal.str "A1"),
      ("actions", JVal.arr [JVal.obj [("id", JVal.str "A1")],
                    JVal.obj [("id", JVal.str "A2"), ("reference", JVal.str "A1")]]),
      ("branches", JVal.arr [JVal.obj [("source_id", JVal.str "A1"),
        ("destination_id", JVal.str "A2")]])] 0
    [("id", JVal.str (genX 0)), ("start", JVal.str (genX 1)),
      ("actions", JVal.arr [JVal.obj [("id", JVal.str (genX 1))],
         JVal.obj [("id", JVal.str (genX 2)), ("reference", JVal.str (genX 1))]]),
      ("branches", JVal.arr [JVal.obj [("source_id", JVal.str (genX 1)),
         ("destination_id", JVal.str (genX 2)), ("id", JVal.str (genX 3))]])] 4
    genX_inj (by decide) rfl⟩

/-- C3: for a valid workflow, after a successful run every truthy visited
reference in the document is rewritten through the completed mapping, in
document order, and the mapping sends the id of the j-th input action to
that action's fresh id, which is also the id the j-th output action carries.
The mapping is built over all actions before any reference is resolved, so
the position of the referenced action relative to the referencing node is
irrelevant. -/
theorem spec_C3 (gen : Nat → String) (wf : Fields) (ctr : Nat) (wf' : Fields) (ctr' : Nat)
    (hgen : ∀ k, gen k ≠ "")
    (hv : validWorkflow wf = true)
    (h : regenerate_workflow_ids gen wf ctr = .ok (wf', ctr')) :
    docRefsOf wf' = (docRefsOf wf).map (mres (workflowMapping gen wf ctr)) ∧
    (∀ j afs r, (wfActions wf)[j]? = some (.obj afs) →
      lookupKey afs "id" = some r →
      mres (workflowMapping gen wf ctr) r = .str (gen (ctr + 1 + j)) ∧
      ∃ afs2, (wfActions wf')[j]? = some (.obj afs2) ∧
        lookupKey afs2 "id" = some (.str (gen (ctr + 1 + j)))) := by
  rw [validWorkflow, Bool.and_eq_true] at hv
  obtain ⟨hshape, hnd⟩ := hv
  have hnd2 : (oldIdsOf (wfActions wf)).Nodup := of_decide_eq_true hnd
  obtain ⟨as1, m, ctr1, as2, ctr2, bs1, ctr3, sv, s, hmp, harp, hbp, hstw, hsh, hms, hc7,
    hA8, hA9, hA10, hA11, hA12, hA13⟩ := wf_run_elim gen wf ctr wf' ctr' h
  obtain ⟨hmw, hp⟩ := m_bridge gen wf ctr as1 m ctr1 hmp
  have hmv : ∀ v s2, mapLookup m v = some s2 → s2 ≠ "" := by
    rw [hmw]
    exact workflowMapping_values gen wf ctr hgen
  constructor
  · rw [docRefsOf, docRefsOf, hA10, hA11,
      action_rewrite_pass_refs gen m _ hmv as1 ctr1 as2 ctr2
        (as1_conf gen wf ctr as1 m ctr1 hshape hmp) harp,
      mapping_pass_refs gen (wfActions wf) [] (ctr + 1) as1 m ctr1 hmp,
      branch_pass_refs gen m _ hmv (wfBranches wf) ctr2 bs1 ctr3
        (bs_conf wf hshape) hbp,
      List.map_append, hmw]
  · intro j afs r hj hr
    have hjlt : j < (wfActions wf).length :=
      (List.getElem?_eq_some_iff.mp hj).choose
    have hlast := lastIdx_of_nodup (wfActions wf) hnd2 j afs r hj hr
    constructor
    · rw [mres, workflowMapping_lookup, hlast]
      rfl
    · obtain ⟨-, -, hlen1, hget1⟩ := mapping_pass_elim gen (wfActions wf) [] (ctr + 1)
        as1 m ctr1 hmp
      obtain ⟨afs0, prev, hg1, hg2, hg3, hg4⟩ := hget1 j hjlt
      obtain ⟨-, -, hget2⟩ := action_rewrite_pass_elim gen m as1 ctr1 as2 ctr2 harp
      obtain ⟨bfs, bfs2, c1, c2, he1, he2, he3, -, -⟩ := hget2 j (by rw [hlen1]; omega)
      rw [hg4] at he1
      injection he1 with he1
      injection he1 with he1
      have hbid : lookupKey bfs "id" = some (.str (gen (ctr + 1 + j))) := by
        rw [← he1, lookupKey_setKey_self]
      refine ⟨bfs2, by rw [hA10]; exact he2, ?_⟩
      exact regen_obj_id_keep gen m _ bfs c1 bfs2 c2 he3 _ hbid (by simp [isLeaf])

theorem spec_C3_witness :
    validWorkflow [("id", JVal.str "W"), ("start", JVal.str "A"),
      ("actions", JVal.arr [JVal.obj [("id", JVal.str "A"),
        ("reference", JVal.str "A")]])] = true ∧
    (docRefsOf [("id", JVal.str (genX 0)), ("start", JVal.str (genX 1)),
      ("actions", JVal.arr [JVal.obj [("id", JVal.str (genX 1)),
        ("reference", JVal.str (genX 1))]])] =
      (docRefsOf [("id", JVal.str "W"), ("start", JVal.str "A"),
      ("actions", JVal.arr [JVal.obj [("id", JVal.str "A"),
        ("reference", JVal.str "A")]])]).map
        (mres (workflowMapping genX [("id", JVal.str "W"), ("start", JVal.str "A"),
      ("actions", JVal.arr [JVal.obj [("id", JVal.str "A"),
        ("reference", JVal.str "A")]])] 0)) ∧
     (∀ j afs r, (wfActions [("id", JVal.str "W"), ("start", JVal.str "A"),
      ("actions", JVal.arr [JVal.obj [("id", JVal.str "A"),
        ("reference", JVal.str "A")]])])[j]? = some (.obj afs) →
      lookupKey afs "id" = some r →
      mres (workflowMapping genX [("id", JVal.str "W"), ("start", JVal.str "A"),
      ("actions", JVal.arr [JVal.obj [("id", JVal.str "A"),
        ("reference", JVal.str "A")]])] 0) r = .str (genX (0 + 1 + j)) ∧
      ∃ afs2, (wfActions [("id", JVal.str (genX 0)), ("start", JVal.str (genX 1)),
      ("actions", JVal.arr [JVal.obj [("id", JVal.str (genX 1)),
        ("reference", JVal.str (genX 1))]])])[j]? = some (.obj afs2) ∧
        lookupKey afs2 "id" = some (.str (genX (0 + 1 + j))))) :=
  ⟨by decide, spec_C3 genX [("id", JVal.str "W"), ("start", JVal.str "A"),
      ("actions", JVal.arr [JVal.obj [("id", JVal.str "A"),
        ("reference", JVal.str "A")]])] 0
    [("id", JVal.str (genX 0)), ("start", JVal.str (genX 1)),
      ("actions", JVal.arr [JVal.obj [("id", JVal.str (genX 1)),
        ("reference", JVal.str (genX 1))]])] 2
    genX_ne_empty (by decide) rfl⟩

/-- C10: a shape-conformant workflow whose actions share duplicated ids is
regenerated without error; each action still receives its own distinct fresh
id, while the mapping keeps only the last binding for a duplicated old id,
so the start pointer, the branch endpoints and every visited reference
bearing that old id are rewritten to the new id of the last action that
carried it in document order. -/
theorem spec_C10 (gen : Nat → String) (wf : Fields) (ctr : Nat)
    (hinj : Function.Injective gen) (hgen : ∀ k, gen k ≠ "")
    (hv : validWorkflowShape wf = true)
    (hdup : ¬ (oldIdsOf (wfActions wf)).Nodup) :
    ∃ wf' ctr', regenerate_workflow_ids gen wf ctr = .ok (wf', ctr') ∧
      (wfActions wf').length = (wfActions wf).length ∧
      oldIdsOf (wfActions wf') =
        (List.range' (ctr + 1) (wfActions wf).length).map (fun k => JVal.str (gen k)) ∧
      (oldIdsOf (wfActions wf')).Nodup ∧
      (∀ v, mapLookup (workflowMapping gen wf ctr) v =
        (lastIdxOf (wfActions wf) v).map (fun j => gen (ctr + 1 + j))) ∧
      (∀ sv j, wfStart wf = some sv → lastIdxOf (wfActions wf) sv = some j →
        wfStart wf' = some (.str (gen (ctr + 1 + j)))) ∧
      branchPairsOf (wfBranches wf') = (branchPairsOf (wfBranches wf)).map
        (fun q => (relabel (workflowMapping gen wf ctr) q.1,
                   relabel (workflowMapping gen wf ctr) q.2)) ∧
      docRefsOf wf' = (docRefsOf wf).map (mres (workflowMapping gen wf ctr)) := by
  obtain ⟨wf', ctr', h⟩ := wf_regen_success gen wf ctr hv
  obtain ⟨as1, m, ctr1, as2, ctr2, bs1, ctr3, sv, s, hmp, harp, hbp, hstw, hsh, hms, hc7,
    hA8, hA9, hA10, hA11, hA12, hA13⟩ := wf_run_elim gen wf ctr wf' ctr' h
  obtain ⟨hmw, hp⟩ := m_bridge gen wf ctr as1 m ctr1 hmp
  have hmv : ∀ v s2, mapLookup m v = some s2 → s2 ≠ "" := by
    rw [hmw]
    exact workflowMapping_values gen wf ctr hgen
  have hids := wf_new_action_ids gen wf ctr as1 m ctr1 as2 ctr2 hmp harp
  refine ⟨wf', ctr', h, ?_, ?_, ?_, ?_, ?_, ?_, ?_⟩
  · rw [hA10]
    obtain ⟨hlen2, -, -⟩ := action_rewrite_pass_elim gen m as1 ctr1 as2 ctr2 harp
    obtain ⟨-, -, hlen1, -⟩ := mapping_pass_elim gen (wfActions wf) [] (ctr + 1)
      as1 m ctr1 hmp
    rw [hlen2, hlen1]
  · rw [hA10, hids]
  · rw [hA10, hids]
    apply List.Nodup.map
    · intro a b hab
      injection hab with hab
      exact hinj hab
    · exact List.nodup_range' _ _
  · exact fun v => workflowMapping_lookup gen wf ctr v
  · intro sv0 j hsv0 hlast
    rw [wfStart, hstw] at hsv0
    injection hsv0 with hsv0
    subst hsv0
    rw [hA9]
    have : mapLookup m sv = some (gen (ctr + 1 + j)) := by
      rw [hmw, workflowMapping_lookup, hlast]
      rfl
    rw [hms] at this
    injection this with this
    rw [this]
  · rw [hA11, branch_pass_pairs gen m (wfBranches wf) ctr2 bs1 ctr3 hbp, ← hmw]
  · rw [docRefsOf, docRefsOf, hA10, hA11,
      action_rewrite_pass_refs gen m _ hmv as1 ctr1 as2 ctr2
        (as1_conf gen wf ctr as1 m ctr1 hv hmp) harp,
      mapping_pass_refs gen (wfActions wf) [] (ctr + 1) as1 m ctr1 hmp,
      branch_pass_refs gen m _ hmv (wfBranches wf) ctr2 bs1 ctr3
        (bs_conf wf hv) hbp,
      List.map_append, hmw]

theorem spec_C10_witness :
    validWorkflowShape [("id", JVal.str "W"), ("start", JVal.str "A"),
      ("actions", JVal.arr [JVal.obj [("id", JVal.str "A")],
        JVal.obj [("id", JVal.str "A")]]),
      ("branches", JVal.arr [JVal.obj [("source_id", JVal.str "A"),
        ("destination_id", JVal.str "A")]])] = true ∧
    ¬ (oldIdsOf (wfActions [("id", JVal.str "W"), ("start", JVal.str "A"),
      ("actions", JVal.arr [JVal.obj [("id", JVal.str "A")],
        JVal.obj [("id", JVal.str "A")]]),
      ("branches", JVal.arr [JVal.obj [("source_id", JVal.str "A"),
        ("destination_id", JVal.str "A")]])])).Nodup ∧
    ∃ wf' ctr', regenerate_workflow_ids genX [("id", JVal.str "W"),
      ("start", JVal.str "A"),
      ("actions", JVal.arr [JVal.obj [("id", JVal.str "A")],
        JVal.obj [("id", JVal.str "A")]]),
      ("branches", JVal.arr [JVal.obj [("source_id", JVal.str "A"),
        ("destination_id", JVal.str "A")]])] 0 = .ok (wf', ctr') ∧
      (wfActions wf').length = 2 ∧
      wfStart wf' = some (JVal.str (genX 2)) := by
  refine ⟨by decide, by decide, ?_⟩
  obtain ⟨wf', ctr', h, hlen, -, -, -, hstart, -, -⟩ :=
    spec_C10 genX [("id", JVal.str "W"), ("start", JVal.str "A"),
      ("actions", JVal.arr [JVal.obj [("id", JVal.str "A")],
        JVal.obj [("id", JVal.str "A")]]),
      ("branches", JVal.arr [JVal.obj [("source_id", JVal.str "A"),
        ("destination_id", JVal.str "A")]])] 0
      genX_inj genX_ne_empty (by decide) (by decide)
  refine ⟨wf', ctr', h, by rw [hlen]; rfl, ?_⟩
  have := hstart (JVal.str "A") 1 (by decide) (by decide)
  simpa using this

theorem wf_count (gen : Nat → String) (wf : Fields) (ctr : Nat) (as1 : List JVal)
    (m : Mapping) (ctr1 : Nat) (as2 : List JVal) (ctr2 : Nat) (bs1 : List JVal)
    (ctr3 : Nat) (sv : JVal) (s : String)
    (hv : validWorkflowShape wf = true)
    (hmp : mapping_pass gen (wfActions wf) [] (ctr + 1) = .ok (as1, m, ctr1))
    (harp : action_rewrite_pass gen m as1 ctr1 = .ok (as2, ctr2))
    (hbp : branch_pass gen m (wfBranches wf) ctr2 = .ok (bs1, ctr3))
    (hsv : lookupKey wf "start" = some sv) (hsh : jHashable sv = true) :
    ∀ v, (allIdsF (setKey (putList (putList (setKey wf "id" (.str (gen ctr)))
        "actions" as2) "branches" bs1) "start" (.str s))).count v
      ≤ (allIdsF wf).count v + countGen gen v ctr ctr3 := by
  intro v
  obtain ⟨as, ha, hwa, -, -, hbr⟩ := valid_shape_elim wf hv
  obtain ⟨-, hctr1, -, -⟩ := mapping_pass_elim gen (wfActions wf) [] (ctr + 1)
    as1 m ctr1 hmp
  have hc12 : ctr1 ≤ ctr2 := (action_rewrite_pass_elim gen m as1 ctr1 as2 ctr2 harp).2.1
  have hc23 : ctr2 ≤ ctr3 := branch_pass_ctr_le gen m (wfBranches wf) ctr2 bs1 ctr3 hbp
  have hn1 : (allIdsF (setKey wf "id" (.str (gen ctr)))).count v ≤
      (allIdsF wf).count v + countGen gen v ctr (ctr + 1) := by
    rw [countGen_single]
    rcases hid : lookupKey wf "id" with _ | w
    · rw [allIdsF_setKey_append wf "id" _ hid, List.count_append, count_idContrib_id_str]
    · obtain ⟨pre, post, h1, h2⟩ := allIdsF_setKey_replace wf "id" _ w hid
      rw [h1, h2, List.count_append, List.count_append, List.count_append,
        List.count_append, count_idContrib_id_str]
      omega
  have hlw1a : lookupKey (setKey wf "id" (.str (gen ctr))) "actions"
      = some (.arr (wfActions wf)) := by
    rw [lookupKey_setKey_ne wf "id" "actions" _ (by decide), ha, hwa]
  have hW2eq : putList (setKey wf "id" (.str (gen ctr))) "actions" as2
      = setKey (setKey wf "id" (.str (gen ctr))) "actions" (.arr as2) := by
    rw [putList, hlw1a]
  have hcl2 : (allIdsL as2).count v ≤ (allIdsL (wfActions wf)).count v
      + countGen gen v (ctr + 1) ctr2 := by
    have c1 := mapping_pass_count gen (wfActions wf) [] (ctr + 1) as1 m ctr1 hmp v
    have c2 := action_rewrite_pass_count gen m _ as1 ctr1 as2 ctr2
      (as1_conf gen wf ctr as1 m ctr1 hv hmp) harp v
    have := countGen_trans gen v (ctr + 1) ctr1 ctr2 (by omega) hc12
    omega
  have hn2 : (allIdsF (putList (setKey wf "id" (.str (gen ctr))) "actions" as2)).count v
      ≤ (allIdsF (setKey wf "id" (.str (gen ctr)))).count v
        + countGen gen v (ctr + 1) ctr2 := by
    rw [hW2eq]
    obtain ⟨pre, post, h1, h2⟩ := allIdsF_setKey_replace _ "actions" (.arr as2) _ hlw1a
    rw [h1, h2]
    simp only [List.count_append, idContrib,
      if_neg (by decide : ¬("actions" = "id")), List.nil_append, allIdsV]
    omega
  have hlw2b : lookupKey (putList (setKey wf "id" (.str (gen ctr))) "actions" as2)
      "branches" = lookupKey wf "branches" := by
    rw [putList_lookup_ne _ _ _ _ (by decide),
      lookupKey_setKey_ne wf "id" "branches" _ (by decide)]
  have hcl3 : (allIdsL bs1).count v ≤ (allIdsL (wfBranches wf)).count v
      + countGen gen v ctr2 ctr3 :=
    branch_pass_count gen m _ (wfBranches wf) ctr2 bs1 ctr3 (bs_conf wf hv) hbp v
  have hn3 : (allIdsF (putList (putList (setKey wf "id" (.str (gen ctr)))
      "actions" as2) "branches" bs1)).count v
      ≤ (allIdsF (putList (setKey wf "id" (.str (gen ctr))) "actions" as2)).count v
        + countGen gen v ctr2 ctr3 := by
    rcases hbr with hbn | ⟨bs, hbs, -⟩
    · have : putList (putList (setKey wf "id" (.str (gen ctr))) "actions" as2)
          "branches" bs1 = putList (setKey wf "id" (.str (gen ctr))) "actions" as2 := by
        rw [putList, hlw2b, hbn]
      rw [this]
      omega
    · have hlarr : lookupKey (putList (setKey wf "id" (.str (gen ctr))) "actions" as2)
          "branches" = some (.arr (wfBranches wf)) := by
        rw [hlw2b, hbs, wfBranches, hbs]
      have hW3eq : putList (putList (setKey wf "id" (.str (gen ctr))) "actions" as2)
          "branches" bs1 = setKey (putList (setKey wf "id" (.str (gen ctr)))
            "actions" as2) "branches" (.arr bs1) := by
        rw [putList, hlarr]
      rw [hW3eq]
      obtain ⟨pre, post, h1, h2⟩ := allIdsF_setKey_replace _ "branches" (.arr bs1) _ hlarr
      rw [h1, h2]
      simp only [List.count_append, idContrib,
        if_neg (by decide : ¬("branches" = "id")), List.nil_append, allIdsV]
      omega
  have hlw3s : lookupKey (putList (putList (setKey wf "id" (.str (gen ctr)))
      "actions" as2) "branches" bs1) "start" = some sv := by
    rw [putList_lookup_ne _ _ _ _ (by decide), putList_lookup_ne _ _ _ _ (by decide),
      lookupKey_setKey_ne wf "id" "start" _ (by decide)]
    exact hsv
  have hn4 : (allIdsF (setKey (putList (putList (setKey wf "id" (.str (gen ctr)))
      "actions" as2) "branches" bs1) "start" (.str s))).count v
      = (allIdsF (putList (putList (setKey wf "id" (.str (gen ctr)))
      "actions" as2) "branches" bs1)).count v := by
    obtain ⟨pre, post, h1, h2⟩ := allIdsF_setKey_replace _ "start" (.str s) _ hlw3s
    rw [h1, h2, count_idContrib_leaf_ne "start" sv (by decide)
      (isLeaf_of_jHashable sv hsh),
      count_idContrib_leaf_ne "start" (.str s) (by decide) (by simp [isLeaf])]
  have e1 := countGen_trans gen v ctr (ctr + 1) ctr2 (by omega) (by omega)
  have e2 := countGen_trans gen v ctr ctr2 ctr3 (by omega) hc23
  omega

/-- C2: assuming the generator is injective and every generated identity is
absent from the input document, after a successful run on a conformant
workflow every newly assigned top-level identity, that is the workflow id,
the action ids and the branch ids of the output, occurs exactly once in the
whole output document: it is distinct from every other identity, old or new,
present anywhere in it. -/
theorem spec_C2 (gen : Nat → String) (wf : Fields) (ctr : Nat) (wf' : Fields) (ctr' : Nat)
    (hinj : Function.Injective gen)
    (hfresh : ∀ k, JVal.str (gen k) ∉ allIdsF wf)
    (hv : validWorkflowShape wf = true)
    (h : regenerate_workflow_ids gen wf ctr = .ok (wf', ctr')) :
    ∀ v ∈ topIdsOf wf', (allIdsF wf').count v = 1 := by
  obtain ⟨as1, m, ctr1, as2, ctr2, bs1, ctr3, sv, s, hmp, harp, hbp, hstw, hsh, hms, hc7,
    hA8, hA9, hA10, hA11, hA12, hA13⟩ := wf_run_elim gen wf ctr wf' ctr' h
  obtain ⟨as, ha, hwa, -, -, hbr⟩ := valid_shape_elim wf hv
  obtain ⟨-, hctr1, hlen1, -⟩ := mapping_pass_elim gen (wfActions wf) [] (ctr + 1)
    as1 m ctr1 hmp
  have hc12 : ctr1 ≤ ctr2 := (action_rewrite_pass_elim gen m as1 ctr1 as2 ctr2 harp).2.1
  have hc23 : ctr2 ≤ ctr3 := branch_pass_ctr_le gen m (wfBranches wf) ctr2 bs1 ctr3 hbp
  have hids := wf_new_action_ids gen wf ctr as1 m ctr1 as2 ctr2 hmp harp
  have hcnt : ∀ v, (allIdsF wf').count v ≤ (allIdsF wf).count v
      + countGen gen v ctr ctr3 := by
    rw [hA13]
    exact wf_count gen wf ctr as1 m ctr1 as2 ctr2 bs1 ctr3 sv s hv hmp harp hbp hstw hsh
  have harr2 : lookupKey wf' "actions" = some (.arr as2) := by
    rw [hA13, lookupKey_setKey_ne _ "start" "actions" _ (by decide),
      putList_lookup_ne _ _ _ "actions" (by decide), putList_lookup_self,
      lookupKey_setKey_ne wf "id" "actions" _ (by decide), ha]
  intro v hv2
  rw [topIdsOf, List.mem_append, List.mem_append] at hv2
  have hkey : ∃ k, ctr ≤ k ∧ k < ctr3 ∧ v = .str (gen k) ∧ v ∈ allIdsF wf' := by
    rcases hv2 with (hv2 | hv2) | hv2
    · rw [idEntry, hA8] at hv2
      simp only [List.mem_singleton] at hv2
      subst hv2
      exact ⟨ctr, by omega, by omega, rfl, mem_allIdsF_of_id wf' _ hA8⟩
    · rw [hA10] at hv2
      have hv4 : v ∈ (List.range' (ctr + 1) (wfActions wf).length).map
          (fun k => JVal.str (gen k)) := by
        rw [← hids]
        exact hv2
      obtain ⟨k, hk1, hk2⟩ := List.mem_map.mp hv4
      rw [List.mem_range'_1] at hk1
      refine ⟨k, by omega, by omega, hk2.symm, ?_⟩
      exact mem_allIdsF_of_arr wf' "actions" as2 v harr2
        (mem_allIdsL_of_oldIds as2 v hv2)
    · rw [hA11] at hv2
      obtain ⟨k, hk1, hk2, hk3⟩ := branch_pass_ids_fresh gen m (wfBranches wf) ctr2
        bs1 ctr3 hbp v hv2
      rcases hbr with hbn | ⟨bs, hbs, -⟩
      · have hbempty : wfBranches wf = [] := by
          rw [wfBranches, hbn]
        rw [hbempty] at hbp
        simp only [branch_pass] at hbp
        injection hbp with hbp
        obtain ⟨hb1, -⟩ := Prod.mk.inj hbp
        rw [← hb1] at hv2
        simp [oldIdsOf] at hv2
      · have hbrr2 : lookupKey wf' "branches" = some (.arr bs1) := by
          rw [hA13, lookupKey_setKey_ne _ "start" "branches" _ (by decide),
            putList_lookup_self, putList_lookup_ne _ _ _ "branches" (by decide),
            lookupKey_setKey_ne wf "id" "branches" _ (by decide), hbs]
        refine ⟨k, by omega, by omega, hk3, ?_⟩
        apply mem_allIdsF_of_arr wf' "branches" bs1 v hbrr2
        exact mem_allIdsL_of_oldIds bs1 v hv2
  obtain ⟨k, hk1, hk2, hk3, hmem'⟩ := hkey
  have hzero : (allIdsF wf).count v = 0 := by
    rw [List.count_eq_zero]
    rw [hk3]
    exact hfresh k
  have hone : countGen gen v ctr ctr3 = 1 := by
    rw [hk3, countGen_inj gen hinj k ctr ctr3 (by omega), if_pos ⟨hk1, hk2⟩]
  have hpos : (allIdsF wf').count v ≠ 0 := by
    intro h0
    exact (List.count_eq_zero.mp h0) hmem'
  have := hcnt v
  omega

theorem spec_C2_witness :
    (∀ k, JVal.str (genX k) ∉ allIdsF [("id", JVal.str "W"), ("start", JVal.str "A"),
      ("actions", JVal.arr [JVal.obj [("id", JVal.str "A"),
        ("reference", JVal.str "A")]])]) ∧
    validWorkflowShape [("id", JVal.str "W"), ("start", JVal.str "A"),
      ("actions", JVal.arr [JVal.obj [("id", JVal.str "A"),
        ("reference", JVal.str "A")]])] = true ∧
    ∀ v ∈ topIdsOf [("id", JVal.str (genX 0)), ("start", JVal.str (genX 1)),
      ("actions", JVal.arr [JVal.obj [("id", JVal.str (genX 1)),
        ("reference", JVal.str (genX 1))]])],
      (allIdsF [("id", JVal.str (genX 0)), ("start", JVal.str (genX 1)),
      ("actions", JVal.arr [JVal.obj [("id", JVal.str (genX 1)),
        ("reference", JVal.str (genX 1))]])]).count v = 1 := by
  have hfresh : ∀ k, JVal.str (genX k) ∉ allIdsF [("id", JVal.str "W"),
      ("start", JVal.str "A"),
      ("actions", JVal.arr [JVal.obj [("id", JVal.str "A"),
        ("reference", JVal.str "A")]])] := by
    intro k hmem
    have : allIdsF [("id", JVal.str "W"), ("start", JVal.str "A"),
      ("actions", JVal.arr [JVal.obj [("id", JVal.str "A"),
        ("reference", JVal.str "A")]])] = [JVal.str "W", JVal.str "A"] := by decide
    rw [this] at hmem
    simp only [List.mem_cons, List.mem_singleton] at hmem
    rcases hmem with hmem | hmem
    · injection hmem with hmem
      exact genX_ne_mk k 'W' [] (by decide) (by rw [hmem])
    · rcases hmem with hmem | hmem
      · injection hmem with hmem
        exact genX_ne_mk k 'A' [] (by decide) (by rw [hmem])
      · simp at hmem
  exact ⟨hfresh, by decide,
    spec_C2 genX [("id", JVal.str "W"), ("start", JVal.str "A"),
      ("actions", JVal.arr [JVal.obj [("id", JVal.str "A"),
        ("reference", JVal.str "A")]])] 0
      [("id", JVal.str (genX 0)), ("start", JVal.str (genX 1)),
      ("actions", JVal.arr [JVal.obj [("id", JVal.str (genX 1)),
        ("reference", JVal.str (genX 1))]])] 2
      genX_inj hfresh (by decide) rfl⟩

theorem refsObj_setKey_id (afs : Fields) (x : String)
    (hold : ∀ w, lookupKey afs "id" = some w → isLeaf w = true) :
    refsObj (setKey afs "id" (.str x)) = refsObj afs := by
  have hrh : refHead (setKey afs "id" (.str x)) = refHead afs := by
    rw [refHead, refHead, lookupKey_setKey_ne _ _ _ _ (by decide : "reference" ≠ "id")]
  rw [refsObj, refsObj, hrh, refsFields_setKey _ _ _ hold (by simp [isLeaf])]

/-- C4: a workflow exhibiting a dangling reference, that is a dict branch
endpoint, a start pointer, or a truthy visited reference of a conformant
action or branch that matches no input action id, makes
regenerate_workflow_ids fail with an error for any nonempty identity
generator; no graph with the branch dropped or the stale identity kept is
returned. -/
theorem spec_C4 (gen : Nat → String) (wf : Fields) (ctr : Nat)
    (hgen : ∀ k, gen k ≠ "")
    (hd : danglingWorkflow wf = true) :
    ∃ e, regenerate_workflow_ids gen wf ctr = .error e := by
  rcases hrun : regenerate_workflow_ids gen wf ctr with e | ⟨wf', ctr'⟩
  · exact ⟨e, rfl⟩
  · exfalso
    obtain ⟨as1, m, ctr1, as2, ctr2, bs1, ctr3, sv, s, hmp, harp, hbp, hstw, hsh, hms,
      -, -, -, -, -, -, -⟩ := wf_run_elim gen wf ctr wf' ctr' hrun
    obtain ⟨hmw, -⟩ := m_bridge gen wf ctr as1 m ctr1 hmp
    have hres : ∀ v, (mapLookup m v).isSome = true → v ∈ oldIdsOf (wfActions wf) := by
      intro v hv
      apply (workflowMapping_isSome gen wf ctr v).mp
      rw [← hmw]
      exact hv
    have hmv : ∀ v s2, mapLookup m v = some s2 → s2 ≠ "" := by
      rw [hmw]
      exact workflowMapping_values gen wf ctr hgen
    simp only [danglingWorkflow, Bool.or_eq_true] at hd
    rcases hd with ((hd | hd) | hd) | hd
    · obtain ⟨b, hbmem, hpred⟩ := List.any_eq_true.mp hd
      obtain ⟨bfs, sv2, s2, dv2, d2, bfs2, c1, c2, hbeq, hsl, -, hmsl, hdl, -, hmdl,
        -, -, -⟩ := branch_pass_runs gen m (wfBranches wf) ctr2 bs1 ctr3 hbp b hbmem
      rw [hbeq] at hpred
      simp only [hsl, hdl, Bool.or_eq_true, Bool.not_eq_true', decide_eq_false_iff_not]
        at hpred
      rcases hpred with hpred | hpred
      · exact hpred (hres sv2 (by rw [hmsl]; rfl))
      · exact hpred (hres dv2 (by rw [hmdl]; rfl))
    · rw [hstw] at hd
      simp only [Bool.not_eq_true', decide_eq_false_iff_not] at hd
      exact hd (hres sv (by rw [hms]; rfl))
    · obtain ⟨a, hamem, hpred⟩ := List.any_eq_true.mp hd
      obtain ⟨i, hi⟩ := List.mem_iff_getElem?.mp hamem
      obtain ⟨-, -, hlen1, hget1⟩ := mapping_pass_elim gen (wfActions wf) [] (ctr + 1)
        as1 m ctr1 hmp
      have hilt : i < (wfActions wf).length :=
        (List.getElem?_eq_some_iff.mp hi).choose
      obtain ⟨afs0, prev, hg1, hg2, hg3, hg4⟩ := hget1 i hilt
      rw [hi] at hg1
      obtain ⟨-, -, hget2⟩ := action_rewrite_pass_elim gen m as1 ctr1 as2 ctr2 harp
      obtain ⟨bfs, bfs2, c1, c2, he1, he2, he3, -, -⟩ := hget2 i (by rw [hlen1]; omega)
      rw [hg4] at he1
      injection he1 with he1
      injection he1 with he1
      match a, hpred with
      | .obj afs, hpred =>
          injection hg1 with hg1
          injection hg1 with hg1
          rw [Bool.and_eq_true] at hpred
          obtain ⟨hshape, hany⟩ := hpred
          obtain ⟨r, hrmem, hrpred⟩ := List.any_eq_true.mp hany
          simp only [Bool.not_eq_true', decide_eq_false_iff_not] at hrpred
          rw [okShape] at hshape
          have hold : ∀ w, lookupKey afs "id" = some w → isLeaf w = true := by
            intro w hw
            rw [okObj, Bool.and_eq_true] at hshape
            obtain ⟨-, hid, -⟩ := okHead_elim _ afs hshape.1
            rcases hid with hid | ⟨si, hid⟩
            · rw [hw] at hid
              cases hid
            · rw [hw] at hid
              injection hid with hid
              rw [hid]
              simp [isLeaf]
          have hokb : okObj (fun _ => true) bfs = true := by
            rw [← he1, ← hg1]
            exact okObj_setKey_str _ afs "id" _ (by decide) hshape
          have hrefs := ((regen_refs gen m (fun _ => true) hmv (fuelFor bfs)).1
            bfs false false c1 bfs2 c2 hokb he3).1
          have hrobj : refsObj bfs = refsObj afs := by
            rw [← he1, ← hg1]
            exact refsObj_setKey_id afs _ hold
          obtain ⟨-, hsome⟩ := hrefs r (by rw [hrobj]; exact hrmem)
          exact hrpred (hres r hsome)
    · obtain ⟨b, hbmem, hpred⟩ := List.any_eq_true.mp hd
      obtain ⟨bfs, sv2, s2, dv2, d2, bfs2, c1, c2, hbeq, hsl, hsh2, hmsl, hdl, hdh2,
        hmdl, hr, -, -⟩ := branch_pass_runs gen m (wfBranches wf) ctr2 bs1 ctr3 hbp b hbmem
      rw [hbeq] at hpred
      rw [Bool.and_eq_true] at hpred
      obtain ⟨hshape, hany⟩ := hpred
      obtain ⟨r, hrmem, hrpred⟩ := List.any_eq_true.mp hany
      simp only [Bool.not_eq_true', decide_eq_false_iff_not] at hrpred
      rw [okShape] at hshape
      have hokb : okObj (fun _ => true) (withEndpoints bfs s2 d2) = true :=
        okObj_withEndpoints _ bfs s2 d2 hshape
      have hrefs := ((regen_refs gen m (fun _ => true) hmv
        (fuelFor (withEndpoints bfs s2 d2))).1
        (withEndpoints bfs s2 d2) true false c1 bfs2 c2 hokb hr).1
      have hrobj : refsObj (withEndpoints bfs s2 d2) = refsObj bfs :=
        refsObj_withEndpoints bfs s2 d2 sv2 dv2 hsl (isLeaf_of_jHashable sv2 hsh2)
          hdl (isLeaf_of_jHashable dv2 hdh2)
      obtain ⟨-, hsome⟩ := hrefs r (by rw [hrobj]; exact hrmem)
      exact hrpred (hres r hsome)

theorem spec_C4_witness :
    danglingWorkflow [("id", JVal.str "W"), ("start", JVal.str "A"),
      ("actions", JVal.arr [JVal.obj [("id", JVal.str "A")]]),
      ("branches", JVal.arr [JVal.obj [("source_id", JVal.str "A"),
        ("destination_id", JVal.str "B")]])] = true ∧
    ∃ e, regenerate_workflow_ids genX [("id", JVal.str "W"), ("start", JVal.str "A"),
      ("actions", JVal.arr [JVal.obj [("id", JVal.str "A")]]),
      ("branches", JVal.arr [JVal.obj [("source_id", JVal.str "A"),
        ("destination_id", JVal.str "B")]])] 0 = .error e :=
  ⟨by decide, spec_C4 genX [("id", JVal.str "W"), ("start", JVal.str "A"),
      ("actions", JVal.arr [JVal.obj [("id", JVal.str "A")]]),
      ("branches", JVal.arr [JVal.obj [("source_id", JVal.str "A"),
        ("destination_id", JVal.str "B")]])] 0 genX_ne_empty (by decide)⟩

end Walkoff
